import Mathlib

/-!
# Bond portfolio: yield curve, instruments, trading book and position accounting

A shallow embedding of `YieldCurve.cpp`, `Bond.cpp`, `Instruments.cpp`,
`RiskEngine.cpp`, `TradingBook.hpp` and `TradingBook.cpp`.

Modelling conventions:

* C++ `double` values are embedded as exact rationals (`ℚ`); every arithmetic
  expression is transcribed operator by operator, so each statement below is the
  exact-arithmetic reading of the source, except where a rounding function is named.
* The number of iterations of the coupon loops depends on the rounding of the loop
  variable, so these loops are given twice: in exact arithmetic (`couponLoop`) and with
  every result of the loop control rounded by a function `fl` (`couponLoopRounded`);
  `roundDouble` is the binary64 rounding of the program, and `fl = id` gives back the
  exact loop.
* Member functions that mutate `*this` become functions returning the new state.
* `std::map<std::string, Position>` and `std::map<double, double>` are embedded as lists
  of key/value pairs kept in strictly increasing key order; `find`, `emplace`,
  `operator[]` and `lower_bound` are transcribed on those lists.
* The library function `std::exp` is a parameter of the functions that call it; the
  price is also given with the values of `std::exp` in a field (`Bond.calculatePriceIn`),
  which is instantiated with the real exponential for the sign of the PV01.
* Loops that need not terminate take a fuel bound and return `none` when it runs out.
* Console output (`std::cout`) is dropped; the single `std::cerr` line of `bookTrade`
  is kept as an optional message in the result.
-/

namespace BondPortfolio

/-! ## Instruments (`Bond.hpp`, `Instruments.hpp`) -/

/-- The three concrete instrument classes deriving from `Bond`, with their own members. -/
inductive BondKind where
  | vanilla (couponRate : ℚ) (frequency : Int)
  | zeroCoupon
  | floating (spread : ℚ) (frequency : Int)
deriving DecidableEq, Repr

/-- Class `Bond`: the members `ticker`, `notional`, `maturity` of the base class together
with the data of the concrete subclass. -/
structure Bond where
  ticker : String
  notional : ℚ
  maturity : ℚ
  kind : BondKind
deriving DecidableEq, Repr

/-- Accessor `Bond::getTicker`. -/
def Bond.getTicker (b : Bond) : String := b.ticker

/-! ## The yield curve (`YieldCurve.hpp`, `YieldCurve.cpp`)

`std::map<double, double> rates` is embedded as a list of (time, rate) nodes kept in
strictly increasing time order. The library function `std::exp` is not part of the
repository and is taken as a parameter `expFn`. -/

/-- Class `YieldCurve`. -/
structure YieldCurve where
  rates : List (ℚ × ℚ) := []
deriving DecidableEq, Repr

/-- The container invariant of `std::map<double, double>`: node times strictly
increasing (hence unique). -/
def curveOrdered (rates : List (ℚ × ℚ)) : Prop :=
  (rates.map Prod.fst).Pairwise (· < ·)

/-- Assignment `rates[time] = rate` on the ordered node list: overwrite the node at
`time` if there is one, insert a new node at the ordered place otherwise. -/
def ratesAssign : List (ℚ × ℚ) → ℚ → ℚ → List (ℚ × ℚ)
  | [], time, rate => [(time, rate)]
  | (k, v) :: rest, time, rate =>
    if time < k then (time, rate) :: (k, v) :: rest
    else if k < time then (k, v) :: ratesAssign rest time rate
    else (k, rate) :: rest

/-- Method `YieldCurve::addRate`. -/
def YieldCurve.addRate (c : YieldCurve) (time rate : ℚ) : YieldCurve :=
  { c with rates := ratesAssign c.rates time rate }

/-- Iterator `rates.lower_bound(t)`, the first node whose time is not less than `t`,
represented by the nodes before the iterator and the nodes from the iterator on (the
second list is empty for `end()`, the first is empty for `begin()`). -/
def lowerBound : List (ℚ × ℚ) → ℚ → List (ℚ × ℚ) × List (ℚ × ℚ)
  | [], _ => ([], [])
  | (k, v) :: rest, t =>
    if k < t then ((k, v) :: (lowerBound rest t).1, (lowerBound rest t).2)
    else ([], (k, v) :: rest)

/-- Method `YieldCurve::getRate` (YieldCurve.cpp, lines 9-29). -/
def YieldCurve.getRate (c : YieldCurve) (t : ℚ) : ℚ :=
  match c.rates with
  | [] => 0
  | first :: rest =>
    match lowerBound (first :: rest) t with
    | ([], it :: _) => it.2
    | (_, []) => ((first :: rest).getLast (List.cons_ne_nil first rest)).2
    | (p :: before, it :: _) =>
      -- interpolation between `std::prev(it)` and `it`
      let t2 := it.1
      let r2 := it.2
      let prev := (p :: before).getLast (List.cons_ne_nil p before)
      let t1 := prev.1
      let r1 := prev.2
      r1 + (r2 - r1) * ((t - t1) / (t2 - t1))

/-- Method `YieldCurve::getDiscountFactor`, with `std::exp` as the parameter `expFn`. -/
def YieldCurve.getDiscountFactor (expFn : ℚ → ℚ) (c : YieldCurve) (t : ℚ) : ℚ :=
  let r := c.getRate t
  expFn (-r * t)

/-- Method `YieldCurve::parallelShift`. -/
def YieldCurve.parallelShift (c : YieldCurve) (basisPoints : ℚ) : YieldCurve :=
  let shift := basisPoints / 10000
  { c with rates := c.rates.map (fun pair => (pair.1, pair.2 + shift)) }

/-! ## Cash flows and pricing (`Bond.hpp`, `Bond.cpp`, `Instruments.cpp`)

The coupon loops `for (double t = dt; t <= maturity + 0.001; t += dt)` need not
terminate (a frequency below zero gives a step below zero), so they are run with a fuel
bound and return `none` when the fuel runs out. The step is `1 / frequency` in exact
arithmetic; a frequency of zero, where IEEE division gives an infinity, is outside the
embedding. The definitions of this section are the exact-arithmetic reading; the next
section repeats the loops with the rounding of the program. -/

/-- Struct `CashFlow`. -/
structure CashFlow where
  amount : ℚ
  time : ℚ
deriving DecidableEq, Repr

/-- The loop `for (t = ...; t <= bound; t += dt) flows.push_back(mk t)` in exact
arithmetic, started at time `t` with the flows pushed so far; one unit of fuel per loop
test. The loop with the sum `t + dt` rounded as in the program is `couponLoopRounded`
below. -/
def couponLoop (mk : ℚ → CashFlow) (dt bound : ℚ) :
    Nat → ℚ → List CashFlow → Option (List CashFlow)
  | 0, _, _ => none
  | fuel + 1, t, flows =>
    if t ≤ bound then couponLoop mk dt bound fuel (t + dt) (flows ++ [mk t])
    else some flows

/-- Statement `flows.back().amount += x` on a non-empty vector. -/
def addToBack : List CashFlow → ℚ → List CashFlow
  | [], _ => []
  | [cf], x => [{ cf with amount := cf.amount + x }]
  | cf :: cf2 :: rest, x => cf :: addToBack (cf2 :: rest) x

/-- Method `VanillaBond::getCashFlows` (Instruments.cpp, lines 11-38). -/
def VanillaBond.getCashFlows (fuel : Nat) (notional maturity couponRate : ℚ)
    (frequency : Int) : Option (List CashFlow) :=
  let dt : ℚ := 1 / (frequency : ℚ)
  let couponAmount := notional * couponRate * dt
  match couponLoop (fun t => { amount := couponAmount, time := t }) dt
      (maturity + 1 / 1000) fuel dt [] with
  | none => none
  | some flows =>
    if flows ≠ [] then some (addToBack flows notional)
    else some (flows ++ [{ amount := notional + couponAmount, time := maturity }])

/-- Method `ZeroCouponBond::getCashFlows` (Instruments.cpp, lines 51-55). -/
def ZeroCouponBond.getCashFlows (notional maturity : ℚ) : List CashFlow :=
  [{ amount := notional, time := maturity }]

/-- Method `FloatingRateNote::getCashFlows` (Instruments.cpp, lines 69-93). -/
def FloatingRateNote.getCashFlows (fuel : Nat) (notional maturity spread : ℚ)
    (frequency : Int) (curve : YieldCurve) : Option (List CashFlow) :=
  let dt : ℚ := 1 / (frequency : ℚ)
  match couponLoop
      (fun t =>
        let forwardRate := curve.getRate t
        let couponAmount := notional * (forwardRate + spread) * dt
        { amount := couponAmount, time := t })
      dt (maturity + 1 / 1000) fuel dt [] with
  | none => none
  | some flows =>
    if flows ≠ [] then some (addToBack flows notional)
    else some flows

/-- Virtual method `Bond::getCashFlows`, dispatched on the concrete class. -/
def Bond.getCashFlows (fuel : Nat) (b : Bond) (curve : YieldCurve) :
    Option (List CashFlow) :=
  match b.kind with
  | BondKind.vanilla couponRate frequency =>
    VanillaBond.getCashFlows fuel b.notional b.maturity couponRate frequency
  | BondKind.zeroCoupon => some (ZeroCouponBond.getCashFlows b.notional b.maturity)
  | BondKind.floating spread frequency =>
    FloatingRateNote.getCashFlows fuel b.notional b.maturity spread frequency curve

/-- Method `Bond::calculatePrice` (Bond.cpp, lines 8-19), with `std::exp` as `expFn`. -/
def Bond.calculatePrice (expFn : ℚ → ℚ) (fuel : Nat) (b : Bond) (curve : YieldCurve) :
    Option ℚ :=
  match b.getCashFlows fuel curve with
  | none => none
  | some flows =>
    some (flows.foldl
      (fun price cf => price + cf.amount * curve.getDiscountFactor expFn cf.time) 0)

/-! ## The coupon loops with rounded loop control

In the program the step `1.0 / frequency`, the literal `0.001`, the bound
`maturity + 0.001` and every `t += dt` are rounded to a `double`, and the number of
loop iterations, hence the flow that receives the notional, depends on these roundings.
The definitions below are the two coupon loops once more, with a rounding function `fl`
applied to exactly these results: `fl = id` gives the exact-arithmetic definitions
above, `fl = roundDouble` the IEEE-754 binary64 arithmetic of the program. The flow
amounts are kept exact. -/

/-- Outcome of `calculatePV01`: the returned value (`none` when a pricing loop runs out
of fuel) and the contents of the caller's `baseCurve` object when the call returns. -/
structure PV01Result where
  value : Option ℚ
  baseCurve : YieldCurve
deriving DecidableEq, Repr

/-- Method `RiskEngine::calculatePV01` (RiskEngine.cpp, lines 5-18). -/
def RiskEngine.calculatePV01 (expFn : ℚ → ℚ) (fuel : Nat) (bond : Bond)
    (baseCurve : YieldCurve) : PV01Result :=
  match bond.calculatePrice expFn fuel baseCurve with
  | none => { value := none, baseCurve := baseCurve }
  | some priceBase =>
    -- `YieldCurve shockedCurve = baseCurve;` copies, the shift mutates the copy
    let shockedCurve := baseCurve
    let shockedCurve := shockedCurve.parallelShift 1
    match bond.calculatePrice expFn fuel shockedCurve with
    | none => { value := none, baseCurve := baseCurve }
    | some priceShock => { value := some (priceShock - priceBase), baseCurve := baseCurve }

/-! ## Pricing with the exponential valued in a field

`Bond::calculatePrice` and `RiskEngine::calculatePV01` once more, with the values of
`std::exp` taken in a field `F`: the same statements operator by operator, the rational
amounts and exponents cast into `F`. With `F = ℝ` and the real exponential this is the
price the program computes in exact arithmetic; with `F = ℚ` it is `Bond.calculatePrice`. -/

/-- Method `YieldCurve::getDiscountFactor`, with `std::exp` as `expFn : ℚ → F`. -/
def YieldCurve.getDiscountFactorIn {F : Type} (expFn : ℚ → F) (c : YieldCurve) (t : ℚ) : F :=
  let r := c.getRate t
  expFn (-r * t)

/-- Method `Bond::calculatePrice` (Bond.cpp, lines 8-19), with `std::exp` as
`expFn : ℚ → F`. -/
def Bond.calculatePriceIn {F : Type} [Field F] (expFn : ℚ → F) (fuel : Nat) (b : Bond)
    (curve : YieldCurve) : Option F :=
  match b.getCashFlows fuel curve with
  | none => none
  | some flows =>
    some (flows.foldl
      (fun price cf => price + (cf.amount : F) * curve.getDiscountFactorIn expFn cf.time) 0)

/-- The value returned by `RiskEngine::calculatePV01` (RiskEngine.cpp, lines 5-18), with
`std::exp` as `expFn : ℚ → F`; `none` when a pricing loop runs out of fuel. -/
def RiskEngine.calculatePV01In {F : Type} [Field F] (expFn : ℚ → F) (fuel : Nat)
    (bond : Bond) (baseCurve : YieldCurve) : Option F :=
  match bond.calculatePriceIn expFn fuel baseCurve with
  | none => none
  | some priceBase =>
    let shockedCurve := baseCurve
    let shockedCurve := shockedCurve.parallelShift 1
    match bond.calculatePriceIn expFn fuel shockedCurve with
    | none => none
    | some priceShock => some (priceShock - priceBase)

/-! ## Trades and positions (`TradingBook.hpp`) -/

/-- Struct `Trade`: positive quantity for BUY, negative for SELL. -/
structure Trade where
  bondName : String
  quantity : ℚ
  price : ℚ
deriving DecidableEq, Repr

/-- Class `Position`: the holding in one bond. -/
structure Position where
  instrument : Bond
  quantity : ℚ
  averageCost : ℚ
  realizedPnL : ℚ
deriving DecidableEq, Repr

/-- Constructor `Position::Position(bond)`: quantity, average cost and realized P&L
all start at zero. -/
def Position.new (bond : Bond) : Position :=
  { instrument := bond, quantity := 0, averageCost := 0, realizedPnL := 0 }

/-- Method `Position::addTrade` (TradingBook.cpp, lines 6-44). -/
def Position.addTrade (p : Position) (trade : Trade) : Position :=
  if trade.quantity = 0 then p
  else
    let sameSign : Prop :=
      (p.quantity ≥ 0 ∧ trade.quantity ≥ 0) ∨ (p.quantity < 0 ∧ trade.quantity < 0)
    if p.quantity = 0 ∨ sameSign then
      -- increasing position: update the weighted average cost
      let totalCost := (p.quantity * p.averageCost) + (trade.quantity * trade.price)
      let quantity := p.quantity + trade.quantity
      { p with quantity := quantity, averageCost := totalCost / quantity }
    else
      let quantityClosed := |trade.quantity|
      if quantityClosed > |p.quantity| then
        -- flip case: only the quantity is updated
        { p with quantity := p.quantity + trade.quantity }
      else
        let pnlOnTrade :=
          if p.quantity < 0 then quantityClosed * (p.averageCost - trade.price)
          else quantityClosed * (trade.price - p.averageCost)
        { p with realizedPnL := p.realizedPnL + pnlOnTrade
                 quantity := p.quantity + trade.quantity }

/-- Successive calls of `addTrade` on one position, in list order. -/
def Position.addTrades (p : Position) (trades : List Trade) : Position :=
  trades.foldl Position.addTrade p

/-- Method `Position::getMarketValue` (TradingBook.cpp, lines 46-62); the source prices
the instrument twice and uses the second price. -/
def Position.getMarketValue (expFn : ℚ → ℚ) (fuel : Nat) (p : Position)
    (market : YieldCurve) : Option ℚ :=
  match p.instrument.calculatePrice expFn fuel market with
  | none => none
  | some _ =>
    match p.instrument.calculatePrice expFn fuel market with
    | none => none
    | some price => some (p.quantity * price)

/-- Method `Position::getTotalPV01` (TradingBook.cpp, lines 64-67). -/
def Position.getTotalPV01 (expFn : ℚ → ℚ) (fuel : Nat) (p : Position)
    (market : YieldCurve) : Option ℚ :=
  match (RiskEngine.calculatePV01 expFn fuel p.instrument market).value with
  | none => none
  | some unitPV01 => some (p.quantity * unitPV01)

/-- Method `Position::getUnrealizedPnL` (TradingBook.cpp, lines 69-73). -/
def Position.getUnrealizedPnL (expFn : ℚ → ℚ) (fuel : Nat) (p : Position)
    (market : YieldCurve) : Option ℚ :=
  match p.instrument.calculatePrice expFn fuel market with
  | none => none
  | some currentPrice => some ((currentPrice - p.averageCost) * p.quantity)

/-! ## The position map (`std::map<std::string, Position>`) -/

/-- Lookup `positions.find(k)`: the mapped position, or `none` for `end()`. -/
def mapFind : List (String × Position) → String → Option Position
  | [], _ => none
  | (k', v) :: rest, k => if k' = k then some v else mapFind rest k

/-- Insertion `positions.emplace(k, v)`: inserts at the ordered place unless the key is
already present, in which case the map is left as it is. -/
def mapEmplace : List (String × Position) → String → Position → List (String × Position)
  | [], k, v => [(k, v)]
  | (k', v') :: rest, k, v =>
    if k < k' then (k, v) :: (k', v') :: rest
    else if k' < k then (k', v') :: mapEmplace rest k v
    else (k', v') :: rest

/-- In-place update `it->second = f (it->second)` of the entry found for key `k`. -/
def mapAdjust : List (String × Position) → String → (Position → Position) →
    List (String × Position)
  | [], _, _ => []
  | (k', v) :: rest, k, f =>
    if k' = k then (k', f v) :: rest else (k', v) :: mapAdjust rest k f

/-- Number of entries stored under key `k`. -/
def mapCount (m : List (String × Position)) (k : String) : Nat :=
  (m.filter (fun kv => decide (kv.1 = k))).length

/-- The container invariant of `std::map`: keys strictly increasing (hence unique). -/
def mapOrdered (m : List (String × Position)) : Prop :=
  (m.map Prod.fst).Pairwise (· < ·)

/-! ## The trading book (`TradingBook.hpp`, `TradingBook.cpp`) -/

/-- Struct `Quote`. -/
structure Quote where
  bid : ℚ
  ask : ℚ
  skew : ℚ
deriving DecidableEq, Repr

/-- Class `TradingBook` with its member initialisers. -/
structure TradingBook where
  positions : List (String × Position) := []
  realizedSpreadPnL : ℚ := 0
  riskAversion : ℚ := 1 / 100
deriving DecidableEq, Repr

/-- Method `TradingBook::getPosition`. -/
def TradingBook.getPosition (b : TradingBook) (ticker : String) : ℚ :=
  match mapFind b.positions ticker with
  | some pos => pos.quantity
  | none => 0

/-- Method `TradingBook::addKnownInstrument` (TradingBook.cpp, lines 90-97). -/
def TradingBook.addKnownInstrument (b : TradingBook) (bond : Bond) : TradingBook :=
  match mapFind b.positions bond.getTicker with
  | none => { b with positions := mapEmplace b.positions bond.getTicker (Position.new bond) }
  | some _ => b

/-- Result of `bookTrade`: the book after the call and the line written to `std::cerr`,
if any. -/
structure BookTradeResult where
  book : TradingBook
  error : Option String
deriving DecidableEq, Repr

/-- Method `TradingBook::bookTrade` (TradingBook.cpp, lines 99-133). -/
def TradingBook.bookTrade (b : TradingBook) (trade : Trade) (midPrice : ℚ) :
    BookTradeResult :=
  match mapFind b.positions trade.bondName with
  | none => { book := b, error := some "Error: Bond not found." }
  | some _ =>
    let edgeCaptured : ℚ :=
      if trade.quantity > 0 then (midPrice - trade.price) * trade.quantity
      else (trade.price - midPrice) * |trade.quantity|
    { book :=
        { b with realizedSpreadPnL := b.realizedSpreadPnL + edgeCaptured
                 positions := mapAdjust b.positions trade.bondName
                                (fun pos => pos.addTrade trade) }
      error := none }

/-- Method `TradingBook::getQuotedSpread` (TradingBook.hpp, lines 76-104). -/
def TradingBook.getQuotedSpread (b : TradingBook) (ticker : String)
    (midPrice unitPV01 baseSpread : ℚ) : Quote :=
  let riskMagnitude := |unitPV01|
  let currentInventory : ℚ :=
    match mapFind b.positions ticker with
    | some pos => pos.quantity
    | none => 0
  let rawSkew := -1 * b.riskAversion * currentInventory * riskMagnitude
  let maxSkew := baseSpread * (3 / 2)
  let rawSkew1 := if rawSkew > maxSkew then maxSkew else rawSkew
  let rawSkew2 := if rawSkew1 < -maxSkew then -maxSkew else rawSkew1
  let halfSpread := baseSpread / 2
  { bid := midPrice - halfSpread + rawSkew2
    ask := midPrice + halfSpread + rawSkew2
    skew := rawSkew2 }

/-! ## Auxiliary definitions for the statements -/

/-- The guard of the growth branch, as the source computes it. -/
def growthGuard (p : Position) (t : Trade) : Prop :=
  p.quantity = 0 ∨
    ((p.quantity ≥ 0 ∧ t.quantity ≥ 0) ∨ (p.quantity < 0 ∧ t.quantity < 0))

/-- Sum of the signed trade quantities. -/
def totalQuantity (ts : List Trade) : ℚ := (ts.map (fun t => t.quantity)).sum

/-- Sum of quantity times execution price over the trades. -/
def totalCost (ts : List Trade) : ℚ := (ts.map (fun t => t.quantity * t.price)).sum

/-- The number of coupon periods that fit: the largest `K` with
`K * (1 / frequency) ≤ maturity + 0.001` when the frequency is positive (0 when not even
one period fits). -/
def periodCount (maturity : ℚ) (frequency : Int) : Nat :=
  ⌊(maturity + 1 / 1000) * (frequency : ℚ)⌋₊

/-- The flows of a schedule of `K ≥ 1` periods of length `dt`: the coupon `coupon t` at
each time `t = k * dt`, `k = 1..K`, with `notional` added to the last one. -/
def expectedSchedule (coupon : ℚ → ℚ) (notional dt : ℚ) (K : Nat) : List CashFlow :=
  (List.range (K - 1)).map
      (fun (i : Nat) =>
        { amount := coupon (((i : ℚ) + 1) * dt), time := ((i : ℚ) + 1) * dt })
    ++ [{ amount := coupon ((K : ℚ) * dt) + notional, time := (K : ℚ) * dt }]

/-- The present value of a list of flows: the sum of `amount * expFn (-getRate(time) * time)`. -/
def presentValue (expFn : ℚ → ℚ) (curve : YieldCurve) (flows : List CashFlow) : ℚ :=
  (flows.map (fun cf => cf.amount * expFn (-(curve.getRate cf.time) * cf.time))).sum

/-- The payment frequency of a coupon-bearing bond is at least 1 (the constructor
argument the interface asks to be a positive integer). -/
def Bond.validFrequency (b : Bond) : Prop :=
  match b.kind with
  | BondKind.vanilla _ frequency => 1 ≤ frequency
  | BondKind.zeroCoupon => True
  | BondKind.floating _ frequency => 1 ≤ frequency

/-- Fuel that lets the coupon loop of the bond run to its end: one loop test more
than the number of periods that fit. -/
def Bond.fuelNeeded (b : Bond) : Nat :=
  match b.kind with
  | BondKind.vanilla _ frequency => periodCount b.maturity frequency + 1
  | BondKind.zeroCoupon => 0
  | BondKind.floating _ frequency => periodCount b.maturity frequency + 1

/-- The curve `baseCurve` with the rate of every node increased by 1/10000. -/
def shiftedByOneBp (baseCurve : YieldCurve) : YieldCurve :=
  { rates := baseCurve.rates.map (fun node => (node.1, node.2 + 1 / 10000)) }

/-- The integer period count of the recommended reimplementation, in the words of the
specification: `round(maturity / dt)` with `dt = 1 / frequency`. -/
def integerPeriodCount (maturity : ℚ) (frequency : Int) : Int :=
  round (maturity / (1 / (frequency : ℚ)))

/-- A flat curve at the rate `r`: at least one node, every node rate equal to `r`. -/
def curveFlat (c : YieldCurve) (r : ℚ) : Prop :=
  c.rates ≠ [] ∧ ∀ node ∈ c.rates, node.2 = r

/-- The value of the loop variable at the loop test number `k` (counted from 0): the
step `dt`, then `t += dt` rounded by `fl` each time. -/
def loopTime (fl : ℚ → ℚ) (dt : ℚ) : Nat → ℚ
  | 0 => dt
  | k + 1 => fl (loopTime fl dt k + dt)

/-- The flows of a schedule of `K ≥ 1` loop passes: the coupon `coupon t` at each
accumulated loop time `t`, with `notional` added to the last one. -/
def roundedSchedule (fl : ℚ → ℚ) (coupon : ℚ → ℚ) (notional dt : ℚ) (K : Nat) :
    List CashFlow :=
  (List.range (K - 1)).map
      (fun (i : Nat) =>
        { amount := coupon (loopTime fl dt i), time := loopTime fl dt i })
    ++ [{ amount := coupon (loopTime fl dt (K - 1)) + notional,
          time := loopTime fl dt (K - 1) }]

/-! ## Concrete data used to instantiate the theorems -/

/-- A sample instrument. -/
def sampleBond : Bond :=
  { ticker := "UST10", notional := 100, maturity := 10, kind := BondKind.zeroCoupon }

/-- A second sample instrument. -/
def otherBond : Bond :=
  { ticker := "FRN5", notional := 100, maturity := 5, kind := BondKind.floating (1 / 100) 2 }

/-- BUY 100 at price 100. -/
def buy100 : Trade := { bondName := "UST10", quantity := 100, price := 100 }

/-- SELL 40 at price 110. -/
def sell40 : Trade := { bondName := "UST10", quantity := -40, price := 110 }

/-- SELL 100 at price 110. -/
def sell100 : Trade := { bondName := "UST10", quantity := -100, price := 110 }

/-- SELL 150 at price 110. -/
def sell150 : Trade := { bondName := "UST10", quantity := -150, price := 110 }

/-- BUY 50 at price 106. -/
def buy50 : Trade := { bondName := "UST10", quantity := 50, price := 106 }

/-- A long lot of 100 with average cost 100 and nothing realized. -/
def longLot : Position :=
  { instrument := sampleBond, quantity := 100, averageCost := 100, realizedPnL := 0 }

/-- A book holding the long lot under its ticker, with the default parameters. -/
def sampleBook : TradingBook :=
  { positions := [("UST10", longLot)], realizedSpreadPnL := 0, riskAversion := 1 / 100 }

/-- A trade on a ticker that `sampleBook` does not know. -/
def strayTrade : Trade := { bondName := "XYZ", quantity := 10, price := 99 }

/-- A freshly constructed book: no positions, default parameters. -/
def emptyBook : TradingBook := {}

/-- The book `sampleBook` with the holding turned into a short lot of 100. -/
def shortBook : TradingBook :=
  { positions := [("UST10", { longLot with quantity := -100 })]
    realizedSpreadPnL := 0, riskAversion := 1 / 100 }

/-- The curve of the documented example: nodes (1, 0.03), (5, 0.04), (10, 0.05). -/
def sampleCurve : YieldCurve :=
  { rates := [(1, 3 / 100), (5, 4 / 100), (10, 5 / 100)] }

/-- A flat curve at the rate 0.05. -/
def flatCurve : YieldCurve :=
  { rates := [(1, 5 / 100), (30, 5 / 100)] }

/-- A rational function with value 1 at 0, used where a concrete `expFn` is needed to
evaluate a discount factor. -/
def expStandIn (x : ℚ) : ℚ := 1 + x + x ^ 2 / 2

/-- The vanilla bond of the documented example: notional 1000, maturity 5, coupon 4%,
one payment a year. -/
def vanilla5Y : Bond :=
  { ticker := "VAN5", notional := 1000, maturity := 5, kind := BondKind.vanilla (4 / 100) 1 }

/-- The zero-coupon bond of the documented example: notional 1000, maturity 10. -/
def zero10Y : Bond :=
  { ticker := "ZERO10", notional := 1000, maturity := 10, kind := BondKind.zeroCoupon }

/-- A floating-rate note: notional 1000, maturity 1, spread 1%, two payments a year. -/
def frn1Y : Bond :=
  { ticker := "FRN1", notional := 1000, maturity := 1, kind := BondKind.floating (1 / 100) 2 }

/-- A flat position (quantity 0) that still carries the average cost 100. -/
def flatLot : Position :=
  { instrument := zero10Y, quantity := 0, averageCost := 100, realizedPnL := 0 }

/-- A holding of 3 units of the zero-coupon example bond at average cost 600. -/
def zeroLot : Position :=
  { instrument := zero10Y, quantity := 3, averageCost := 600, realizedPnL := 0 }

/-- A book with two registered tickers. -/
def twoBook : TradingBook :=
  { positions := [("FRN5", Position.new otherBond), ("UST10", longLot)]
    realizedSpreadPnL := 0, riskAversion := 1 / 100 }

/-- A strictly increasing positive rational function, used where a concrete monotone
`expFn` is needed. -/
def expMonotone (x : ℚ) : ℚ := if 0 ≤ x then 1 + x else 1 / (1 - x)

/-- A floating-rate note too short for its first period: notional 1000, maturity 1/4,
spread 1%, two payments a year. -/
def frnShort : Bond :=
  { ticker := "FRNS", notional := 1000, maturity := 1 / 4,
    kind := BondKind.floating (1 / 100) 2 }

/-- A vanilla bond with a negative coupon rate: notional 1000, maturity 1, coupon -200%,
one payment a year. -/
def vanillaNegative : Bond :=
  { ticker := "VANN", notional := 1000, maturity := 1, kind := BondKind.vanilla (-2) 1 }

/-- A floating-rate note whose spread cancels the flat rate 0.05: notional 1000,
maturity 2, spread -5%, one payment a year. -/
def frnZeroCoupon : Bond :=
  { ticker := "FRNZ", notional := 1000, maturity := 2,
    kind := BondKind.floating (-(5 / 100)) 1 }

/-- The floating-rate note of `main.cpp`: notional 1000, maturity 3, spread 0.01,
semi-annual. -/
def frn3Y : Bond :=
  { ticker := "FRN3", notional := 1000, maturity := 3, kind := BondKind.floating (1 / 100) 2 }

/-- A one-period floating-rate note without spread, for a curve with a negative rate. -/
def frnPar : Bond :=
  { ticker := "FRN0", notional := 1000, maturity := 1, kind := BondKind.floating 0 1 }

/-- A flat curve at the negative rate -0.05. -/
def negativeCurve : YieldCurve :=
  { rates := [(1, -(5 / 100)), (30, -(5 / 100))] }

/-! ## Branch lemmas for `Position.addTrade` -/

/-- The early return of `addTrade` on a zero trade quantity. -/
theorem addTrade_zero_branch (p : Position) (t : Trade) (h0 : t.quantity = 0) :
    p.addTrade t = p := by
  simp only [Position.addTrade, if_pos h0]

/-- The growth branch of `addTrade` (lines 15-20 of the source). -/
theorem addTrade_growth_branch (p : Position) (t : Trade) (h0 : t.quantity ≠ 0)
    (hg : growthGuard p t) :
    p.addTrade t =
      { p with quantity := p.quantity + t.quantity
               averageCost := (p.quantity * p.averageCost + t.quantity * t.price)
                                / (p.quantity + t.quantity) } := by
  unfold growthGuard at hg
  simp only [Position.addTrade, if_neg h0, if_pos hg]

/-- The flip branch of `addTrade` (lines 30-33 of the source). -/
theorem addTrade_flip_branch (p : Position) (t : Trade) (h0 : t.quantity ≠ 0)
    (hg : ¬ growthGuard p t) (hflip : |t.quantity| > |p.quantity|) :
    p.addTrade t = { p with quantity := p.quantity + t.quantity } := by
  unfold growthGuard at hg
  simp only [Position.addTrade, if_neg h0, if_neg hg, if_pos hflip]

/-- The standard close branch of `addTrade` (lines 34-42 of the source). -/
theorem addTrade_close_branch (p : Position) (t : Trade) (h0 : t.quantity ≠ 0)
    (hg : ¬ growthGuard p t) (hsize : |t.quantity| ≤ |p.quantity|) :
    p.addTrade t =
      { p with realizedPnL := p.realizedPnL +
                 (if p.quantity < 0 then |t.quantity| * (p.averageCost - t.price)
                  else |t.quantity| * (t.price - p.averageCost))
               quantity := p.quantity + t.quantity } := by
  unfold growthGuard at hg
  simp only [Position.addTrade, if_neg h0, if_neg hg, if_neg (not_lt.mpr hsize)]

/-- Opposite signs rule out the growth branch. -/
theorem not_growthGuard_of_opposite (p : Position) (t : Trade)
    (hopp : (0 < p.quantity ∧ t.quantity < 0) ∨ (p.quantity < 0 ∧ 0 < t.quantity)) :
    ¬ growthGuard p t := by
  unfold growthGuard
  rcases hopp with ⟨h1, h2⟩ | ⟨h1, h2⟩
  · rintro (h | ⟨_, h⟩ | ⟨h, _⟩)
    · exact absurd h (ne_of_gt h1)
    · exact absurd h (not_le.mpr h2)
    · exact absurd h (not_lt.mpr h1.le)
  · rintro (h | ⟨h, _⟩ | ⟨_, h⟩)
    · exact absurd h (ne_of_lt h1)
    · exact absurd h (not_le.mpr h1)
    · exact absurd h (not_lt.mpr h2.le)

/-- Opposite signs force a non-zero trade quantity. -/
theorem tradeQty_ne_zero_of_opposite (p : Position) (t : Trade)
    (hopp : (0 < p.quantity ∧ t.quantity < 0) ∨ (p.quantity < 0 ∧ 0 < t.quantity)) :
    t.quantity ≠ 0 := by
  rcases hopp with ⟨_, h⟩ | ⟨_, h⟩
  · exact ne_of_lt h
  · exact ne_of_gt h

/-! ## Theorems: `Position.addTrade` -/

/-- C1: a reducing trade that does not flip the position (opposite sign, size at most
the open quantity) realizes `|tradeQty| * (price - averageCost)` on a long position and
`|tradeQty| * (averageCost - price)` on a short one, adds the signed trade quantity to the
position quantity and leaves the average cost (and the instrument) unchanged. -/
theorem addTrade_reduce_no_flip (p : Position) (t : Trade)
    (hopp : (0 < p.quantity ∧ t.quantity < 0) ∨ (p.quantity < 0 ∧ 0 < t.quantity))
    (hsize : |t.quantity| ≤ |p.quantity|) :
    (0 < p.quantity →
        (p.addTrade t).realizedPnL
          = p.realizedPnL + |t.quantity| * (t.price - p.averageCost)) ∧
    (p.quantity < 0 →
        (p.addTrade t).realizedPnL
          = p.realizedPnL + |t.quantity| * (p.averageCost - t.price)) ∧
    (p.addTrade t).quantity = p.quantity + t.quantity ∧
    (p.addTrade t).averageCost = p.averageCost ∧
    (p.addTrade t).instrument = p.instrument := by
  rw [addTrade_close_branch p t (tradeQty_ne_zero_of_opposite p t hopp)
    (not_growthGuard_of_opposite p t hopp) hsize]
  refine ⟨fun hpos => ?_, fun hneg => ?_, rfl, rfl, rfl⟩
  · simp only [if_neg (not_lt.mpr hpos.le)]
  · simp only [if_pos hneg]

/-- C1 at the documented scenario: starting flat, BUY 100 at 100 gives quantity 100
at average cost 100; the following SELL 40 at 110 realizes 400, leaves quantity 60 and
average cost 100; a full close SELL 100 at 110 of that lot realizes 100 * (110 - 100). -/
theorem addTrade_reduce_no_flip_witness :
    (Position.new sampleBond).addTrade buy100 = longLot ∧
    ((0 < longLot.quantity ∧ sell40.quantity < 0) ∨
      (longLot.quantity < 0 ∧ 0 < sell40.quantity)) ∧
    |sell40.quantity| ≤ |longLot.quantity| ∧
    (longLot.addTrade sell40).realizedPnL = 400 ∧
    (longLot.addTrade sell40).quantity = 60 ∧
    (longLot.addTrade sell40).averageCost = 100 ∧
    (longLot.addTrade sell100).realizedPnL = 100 * (110 - 100) ∧
    (longLot.addTrade sell100).quantity = 0 := by
  have hopp40 : (0 < longLot.quantity ∧ sell40.quantity < 0) ∨
      (longLot.quantity < 0 ∧ 0 < sell40.quantity) := by
    left; norm_num [longLot, sell40]
  have hsize40 : |sell40.quantity| ≤ |longLot.quantity| := by
    norm_num [longLot, sell40, abs_of_neg, abs_of_pos]
  have hopp100 : (0 < longLot.quantity ∧ sell100.quantity < 0) ∨
      (longLot.quantity < 0 ∧ 0 < sell100.quantity) := by
    left; norm_num [longLot, sell100]
  have hsize100 : |sell100.quantity| ≤ |longLot.quantity| := by
    norm_num [longLot, sell100, abs_of_neg, abs_of_pos]
  have hpos : 0 < longLot.quantity := by norm_num [longLot]
  obtain ⟨h1, -, h2, h3, -⟩ := addTrade_reduce_no_flip longLot sell40 hopp40 hsize40
  obtain ⟨k1, -, k2, -, -⟩ := addTrade_reduce_no_flip longLot sell100 hopp100 hsize100
  refine ⟨?_, hopp40, hsize40, ?_, ?_, ?_, ?_, ?_⟩
  · norm_num [Position.addTrade, Position.new, buy100, longLot]
  · rw [h1 hpos]; norm_num [longLot, sell40, abs_of_neg]
  · rw [h2]; norm_num [longLot, sell40]
  · rw [h3]; norm_num [longLot]
  · rw [k1 hpos]; norm_num [longLot, sell100, abs_of_neg]
  · rw [k2]; norm_num [longLot, sell100]

/-- C2: a non-zero trade on a flat position, or in the direction of the open position,
adds its quantity, sets the average cost to the quantity-weighted mean
`(quantity * averageCost + tradeQty * price) / (quantity + tradeQty)` (whose divisor is
non-zero) and leaves the realized P&L (and the instrument) unchanged. -/
theorem addTrade_growing (p : Position) (t : Trade) (ht : t.quantity ≠ 0)
    (hdir : p.quantity = 0 ∨ (0 < p.quantity ∧ 0 < t.quantity) ∨
      (p.quantity < 0 ∧ t.quantity < 0)) :
    (p.addTrade t).quantity = p.quantity + t.quantity ∧
    (p.addTrade t).averageCost
      = (p.quantity * p.averageCost + t.quantity * t.price) / (p.quantity + t.quantity) ∧
    (p.addTrade t).realizedPnL = p.realizedPnL ∧
    (p.addTrade t).instrument = p.instrument ∧
    p.quantity + t.quantity ≠ 0 := by
  have hg : growthGuard p t := by
    unfold growthGuard
    rcases hdir with h | ⟨h1, h2⟩ | ⟨h1, h2⟩
    · exact Or.inl h
    · exact Or.inr (Or.inl ⟨h1.le, h2.le⟩)
    · exact Or.inr (Or.inr ⟨h1, h2⟩)
  rw [addTrade_growth_branch p t ht hg]
  refine ⟨rfl, rfl, rfl, rfl, ?_⟩
  rcases hdir with h | ⟨h1, h2⟩ | ⟨h1, h2⟩
  · rw [h, zero_add]; exact ht
  · exact ne_of_gt (add_pos h1 h2)
  · exact ne_of_lt (add_neg h1 h2)

/-- C2 at a concrete input: adding BUY 50 at 106 to the long lot of 100 at 100 gives
quantity 150 at average cost 102, nothing realized. -/
theorem addTrade_growing_witness :
    buy50.quantity ≠ 0 ∧
    (longLot.quantity = 0 ∨ (0 < longLot.quantity ∧ 0 < buy50.quantity) ∨
      (longLot.quantity < 0 ∧ buy50.quantity < 0)) ∧
    (longLot.addTrade buy50).quantity = 150 ∧
    (longLot.addTrade buy50).averageCost = 102 ∧
    (longLot.addTrade buy50).realizedPnL = 0 := by
  have ht : buy50.quantity ≠ 0 := by norm_num [buy50]
  have hdir : longLot.quantity = 0 ∨ (0 < longLot.quantity ∧ 0 < buy50.quantity) ∨
      (longLot.quantity < 0 ∧ buy50.quantity < 0) := by
    right; left; norm_num [longLot, buy50]
  obtain ⟨h1, h2, h3, -, -⟩ := addTrade_growing longLot buy50 ht hdir
  refine ⟨ht, hdir, ?_, ?_, ?_⟩
  · rw [h1]; norm_num [longLot, buy50]
  · rw [h2]; norm_num [longLot, buy50]
  · rw [h3]; rfl

/-- C6: a trade of quantity zero leaves the position exactly as it was, whatever its
price: quantity, average cost, realized P&L (and instrument) are unchanged. -/
theorem addTrade_zero_quantity_noop (p : Position) (name : String) (price : ℚ) :
    p.addTrade { bondName := name, quantity := 0, price := price } = p ∧
    (p.addTrade { bondName := name, quantity := 0, price := price }).quantity
      = p.quantity ∧
    (p.addTrade { bondName := name, quantity := 0, price := price }).averageCost
      = p.averageCost ∧
    (p.addTrade { bondName := name, quantity := 0, price := price }).realizedPnL
      = p.realizedPnL := by
  have h := addTrade_zero_branch p { bondName := name, quantity := 0, price := price } rfl
  rw [h]
  exact ⟨rfl, rfl, rfl, rfl⟩

/-- Unfolding `addTrades` on a non-empty list. -/
theorem addTrades_cons (p : Position) (t : Trade) (ts : List Trade) :
    p.addTrades (t :: ts) = (p.addTrade t).addTrades ts := rfl

/-- Buying into a flat or long position: quantity and cost basis accumulate. -/
theorem addTrades_all_buys (ts : List Trade) :
    ∀ p : Position, 0 ≤ p.quantity → (∀ t ∈ ts, 0 < t.quantity) →
      (p.addTrades ts).quantity = p.quantity + totalQuantity ts ∧
      (p.addTrades ts).quantity * (p.addTrades ts).averageCost
        = p.quantity * p.averageCost + totalCost ts ∧
      (p.addTrades ts).realizedPnL = p.realizedPnL := by
  induction ts with
  | nil =>
    intro p _ _
    simp [Position.addTrades, totalQuantity, totalCost]
  | cons t ts ih =>
    intro p hp hall
    have ht : 0 < t.quantity := hall t (List.mem_cons_self t ts)
    have hg : growthGuard p t := Or.inr (Or.inl ⟨hp, ht.le⟩)
    have hsum : 0 < p.quantity + t.quantity := add_pos_of_nonneg_of_pos hp ht
    have hstep := addTrade_growth_branch p t (ne_of_gt ht) hg
    obtain ⟨h1, h2, h3⟩ := ih (p.addTrade t) (by rw [hstep]; exact hsum.le)
      (fun u hu => hall u (List.mem_cons_of_mem t hu))
    rw [addTrades_cons]
    refine ⟨?_, ?_, ?_⟩
    · rw [h1, hstep]
      simp only [totalQuantity, List.map_cons, List.sum_cons]
      ring
    · rw [h2, hstep]
      simp only [totalCost, List.map_cons, List.sum_cons]
      rw [mul_div_cancel₀ _ (ne_of_gt hsum)]
      ring
    · rw [h3, hstep]

/-- Selling from a flat or short position: quantity and cost basis accumulate. -/
theorem addTrades_all_sells (ts : List Trade) :
    ∀ p : Position, p.quantity ≤ 0 → (∀ t ∈ ts, t.quantity < 0) →
      (p.addTrades ts).quantity = p.quantity + totalQuantity ts ∧
      (p.addTrades ts).quantity * (p.addTrades ts).averageCost
        = p.quantity * p.averageCost + totalCost ts ∧
      (p.addTrades ts).realizedPnL = p.realizedPnL := by
  induction ts with
  | nil =>
    intro p _ _
    simp [Position.addTrades, totalQuantity, totalCost]
  | cons t ts ih =>
    intro p hp hall
    have ht : t.quantity < 0 := hall t (List.mem_cons_self t ts)
    have hg : growthGuard p t := by
      rcases eq_or_lt_of_le hp with h | h
      · exact Or.inl h
      · exact Or.inr (Or.inr ⟨h, ht⟩)
    have hsum : p.quantity + t.quantity < 0 := add_neg_of_nonpos_of_neg hp ht
    have hstep := addTrade_growth_branch p t (ne_of_lt ht) hg
    obtain ⟨h1, h2, h3⟩ := ih (p.addTrade t) (by rw [hstep]; exact hsum.le)
      (fun u hu => hall u (List.mem_cons_of_mem t hu))
    rw [addTrades_cons]
    refine ⟨?_, ?_, ?_⟩
    · rw [h1, hstep]
      simp only [totalQuantity, List.map_cons, List.sum_cons]
      ring
    · rw [h2, hstep]
      simp only [totalCost, List.map_cons, List.sum_cons]
      rw [mul_div_cancel₀ _ (ne_of_lt hsum)]
      ring
    · rw [h3, hstep]

/-- A non-empty list of buys has a positive total quantity. -/
theorem totalQuantity_pos (ts : List Trade) (hne : ts ≠ [])
    (hall : ∀ t ∈ ts, 0 < t.quantity) : 0 < totalQuantity ts := by
  induction ts with
  | nil => exact absurd rfl hne
  | cons t ts ih =>
    simp only [totalQuantity, List.map_cons, List.sum_cons]
    have ht : 0 < t.quantity := hall t (List.mem_cons_self t ts)
    by_cases hts : ts = []
    · subst hts; simpa using ht
    · exact add_pos ht (ih hts (fun u hu => hall u (List.mem_cons_of_mem t hu)))

/-- A non-empty list of sells has a negative total quantity. -/
theorem totalQuantity_neg (ts : List Trade) (hne : ts ≠ [])
    (hall : ∀ t ∈ ts, t.quantity < 0) : totalQuantity ts < 0 := by
  induction ts with
  | nil => exact absurd rfl hne
  | cons t ts ih =>
    simp only [totalQuantity, List.map_cons, List.sum_cons]
    have ht : t.quantity < 0 := hall t (List.mem_cons_self t ts)
    by_cases hts : ts = []
    · subst hts; simpa using ht
    · exact add_neg ht (ih hts (fun u hu => hall u (List.mem_cons_of_mem t hu)))

/-- C3: weighted-average-cost invariant. Starting from a flat position (quantity 0) and
applying a non-empty sequence of trades whose quantities are all strictly positive, or
all strictly negative, the average cost is the quantity-weighted mean of the execution
prices `(Σ q_i * p_i) / (Σ q_i)` (with non-zero divisor), the quantity is `Σ q_i`, and the
realized P&L is unchanged. -/
theorem addTrades_weighted_average_cost (p : Position) (ts : List Trade)
    (hflat : p.quantity = 0) (hne : ts ≠ [])
    (hdir : (∀ t ∈ ts, 0 < t.quantity) ∨ (∀ t ∈ ts, t.quantity < 0)) :
    (p.addTrades ts).averageCost = totalCost ts / totalQuantity ts ∧
    (p.addTrades ts).quantity = totalQuantity ts ∧
    (p.addTrades ts).realizedPnL = p.realizedPnL ∧
    totalQuantity ts ≠ 0 := by
  have key : (p.addTrades ts).quantity = p.quantity + totalQuantity ts ∧
      (p.addTrades ts).quantity * (p.addTrades ts).averageCost
        = p.quantity * p.averageCost + totalCost ts ∧
      (p.addTrades ts).realizedPnL = p.realizedPnL := by
    rcases hdir with h | h
    · exact addTrades_all_buys ts p (le_of_eq hflat.symm) h
    · exact addTrades_all_sells ts p (le_of_eq hflat) h
  have hnz : totalQuantity ts ≠ 0 := by
    rcases hdir with h | h
    · exact ne_of_gt (totalQuantity_pos ts hne h)
    · exact ne_of_lt (totalQuantity_neg ts hne h)
  obtain ⟨h1, h2, h3⟩ := key
  rw [hflat, zero_add] at h1
  rw [hflat, zero_mul, zero_add, h1] at h2
  refine ⟨?_, h1, h3, hnz⟩
  rw [← h2, mul_div_cancel_left₀ _ hnz]

/-- C3 at a concrete input: BUY 100 at 100 then BUY 50 at 106 from flat gives average
cost 102 = (100 * 100 + 50 * 106) / 150 and quantity 150. -/
theorem addTrades_weighted_average_cost_witness :
    (Position.new sampleBond).quantity = 0 ∧ [buy100, buy50] ≠ [] ∧
    ((∀ t ∈ [buy100, buy50], 0 < t.quantity) ∨ (∀ t ∈ [buy100, buy50], t.quantity < 0)) ∧
    ((Position.new sampleBond).addTrades [buy100, buy50]).averageCost = 102 ∧
    ((Position.new sampleBond).addTrades [buy100, buy50]).quantity = 150 ∧
    ((Position.new sampleBond).addTrades [buy100, buy50]).realizedPnL = 0 := by
  have hdir : (∀ t ∈ [buy100, buy50], 0 < t.quantity) ∨
      (∀ t ∈ [buy100, buy50], t.quantity < 0) := by
    left
    intro t ht
    simp only [List.mem_cons, List.mem_singleton, List.not_mem_nil, or_false] at ht
    rcases ht with h | h <;> subst h <;> norm_num [buy100, buy50]
  obtain ⟨h1, h2, h3, -⟩ := addTrades_weighted_average_cost (Position.new sampleBond)
    [buy100, buy50] rfl (by simp) hdir
  refine ⟨rfl, by simp, hdir, ?_, ?_, ?_⟩
  · rw [h1]; norm_num [totalCost, totalQuantity, buy100, buy50]
  · rw [h2]; norm_num [totalQuantity, buy100, buy50]
  · rw [h3]; rfl

/-- C4, the code at a sign-flipping trade: SELL 150 at 110 against the long lot of
100 at average cost 100. The source only adds the signed quantities: the quantity
becomes -50, but nothing is realized (the stated contract requires 100 * (110 - 100) = 1000) and
the average cost stays 100 (the stated contract requires the trade price 110). -/
theorem addTrade_flip_only_adds_quantity :
    (0 < longLot.quantity ∧ sell150.quantity < 0) ∧
    |sell150.quantity| > |longLot.quantity| ∧
    longLot.addTrade sell150 =
      { instrument := sampleBond, quantity := -50, averageCost := 100, realizedPnL := 0 } ∧
    (longLot.addTrade sell150).realizedPnL
      ≠ longLot.realizedPnL + |longLot.quantity| * (sell150.price - longLot.averageCost) ∧
    (longLot.addTrade sell150).averageCost ≠ sell150.price := by
  have hopp : (0 < longLot.quantity ∧ sell150.quantity < 0) ∨
      (longLot.quantity < 0 ∧ 0 < sell150.quantity) := by
    left; norm_num [longLot, sell150]
  have hflip : |sell150.quantity| > |longLot.quantity| := by
    norm_num [longLot, sell150, abs_of_neg, abs_of_pos]
  have hstep := addTrade_flip_branch longLot sell150
    (tradeQty_ne_zero_of_opposite longLot sell150 hopp)
    (not_growthGuard_of_opposite longLot sell150 hopp) hflip
  refine ⟨by norm_num [longLot, sell150], hflip, ?_, ?_, ?_⟩
  · rw [hstep]; norm_num [longLot, sell150]
  · rw [hstep]; norm_num [longLot, sell150, abs_of_pos]
  · rw [hstep]; norm_num [longLot, sell150]

/-- C5 as stated fails: closing the long lot of 100 at average cost 100 with SELL 100
at 110 brings the quantity to zero but leaves the average cost at 100, not 0. -/
theorem addTrade_flatten_keeps_cost_basis :
    longLot.quantity ≠ 0 ∧ sell100.quantity = -longLot.quantity ∧
    (longLot.addTrade sell100).quantity = 0 ∧
    (longLot.addTrade sell100).averageCost = 100 ∧
    ¬ ((longLot.addTrade sell100).averageCost = 0) := by
  have hopp : (0 < longLot.quantity ∧ sell100.quantity < 0) ∨
      (longLot.quantity < 0 ∧ 0 < sell100.quantity) := by
    left; norm_num [longLot, sell100]
  have hsize : |sell100.quantity| ≤ |longLot.quantity| := by
    norm_num [longLot, sell100, abs_of_neg, abs_of_pos]
  have hstep := addTrade_close_branch longLot sell100
    (tradeQty_ne_zero_of_opposite longLot sell100 hopp)
    (not_growthGuard_of_opposite longLot sell100 hopp) hsize
  refine ⟨by norm_num [longLot], by norm_num [longLot, sell100], ?_, ?_, ?_⟩
  · rw [hstep]; norm_num [longLot, sell100]
  · rw [hstep]; norm_num [longLot]
  · rw [hstep]; norm_num [longLot]

/-- C5 amended: a trade with `tradeQty = -quantity` on a non-flat position brings the
quantity to exactly zero, realizes `|quantity| * (price - averageCost)` on a long
position and `|quantity| * (averageCost - price)` on a short one, and leaves the average
cost as it was (it is not reset). -/
theorem addTrade_flatten (p : Position) (t : Trade) (hq : p.quantity ≠ 0)
    (hclose : t.quantity = -p.quantity) :
    (p.addTrade t).quantity = 0 ∧
    (p.addTrade t).averageCost = p.averageCost ∧
    (0 < p.quantity →
        (p.addTrade t).realizedPnL
          = p.realizedPnL + |p.quantity| * (t.price - p.averageCost)) ∧
    (p.quantity < 0 →
        (p.addTrade t).realizedPnL
          = p.realizedPnL + |p.quantity| * (p.averageCost - t.price)) := by
  have hopp : (0 < p.quantity ∧ t.quantity < 0) ∨ (p.quantity < 0 ∧ 0 < t.quantity) := by
    rcases lt_or_gt_of_ne hq with h | h
    · right; exact ⟨h, by rw [hclose]; exact neg_pos.mpr h⟩
    · left; exact ⟨h, by rw [hclose]; exact neg_neg_of_pos h⟩
  have habs : |t.quantity| = |p.quantity| := by rw [hclose, abs_neg]
  rw [addTrade_close_branch p t (tradeQty_ne_zero_of_opposite p t hopp)
    (not_growthGuard_of_opposite p t hopp) (le_of_eq habs)]
  refine ⟨?_, rfl, fun hpos => ?_, fun hneg => ?_⟩
  · show p.quantity + t.quantity = 0
    rw [hclose]; ring
  · simp only [if_neg (not_lt.mpr hpos.le), habs]
  · simp only [if_pos hneg, habs]

/-- C5 amended, at a concrete input: SELL 100 at 110 against the long lot of 100 at 100
gives quantity 0, average cost still 100 and realized P&L 1000. -/
theorem addTrade_flatten_witness :
    longLot.quantity ≠ 0 ∧ sell100.quantity = -longLot.quantity ∧
    (longLot.addTrade sell100).quantity = 0 ∧
    (longLot.addTrade sell100).averageCost = 100 ∧
    (longLot.addTrade sell100).realizedPnL = 1000 := by
  have hq : longLot.quantity ≠ 0 := by norm_num [longLot]
  have hclose : sell100.quantity = -longLot.quantity := by norm_num [longLot, sell100]
  obtain ⟨h1, h2, h3, -⟩ := addTrade_flatten longLot sell100 hq hclose
  refine ⟨hq, hclose, h1, ?_, ?_⟩
  · rw [h2]; rfl
  · rw [h3 (by norm_num [longLot])]; norm_num [longLot, sell100, abs_of_pos]

/-! ## Lemmas on the position map -/

/-- The lookup fails exactly when no entry carries the key. -/
theorem mapFind_eq_none_iff (m : List (String × Position)) (k : String) :
    mapFind m k = none ↔ ∀ kv ∈ m, kv.1 ≠ k := by
  induction m with
  | nil => simp [mapFind]
  | cons hd tl ih =>
    obtain ⟨k', v⟩ := hd
    by_cases h : k' = k
    · simp [mapFind, h]
    · simp [mapFind, h, ih]

/-- A key has no entry exactly when the lookup fails. -/
theorem mapCount_eq_zero_iff (m : List (String × Position)) (k : String) :
    mapCount m k = 0 ↔ mapFind m k = none := by
  rw [mapFind_eq_none_iff]
  simp [mapCount, List.filter_eq_nil_iff]

/-- Entry counts add over concatenation. -/
theorem mapCount_append (l1 l2 : List (String × Position)) (k : String) :
    mapCount (l1 ++ l2) k = mapCount l1 k + mapCount l2 k := by
  simp [mapCount, List.filter_append]

/-- The lookup in a concatenation tries the left part first. -/
theorem mapFind_append (l1 l2 : List (String × Position)) (k : String) :
    mapFind (l1 ++ l2) k = (mapFind l1 k).orElse (fun _ => mapFind l2 k) := by
  induction l1 with
  | nil => simp [mapFind]
  | cons hd tl ih =>
    obtain ⟨k', v⟩ := hd
    by_cases h : k' = k
    · simp [mapFind, h]
    · simp [mapFind, h, ih]

/-- Emplacing an absent key splices exactly one entry into the list. -/
theorem mapEmplace_absent (m : List (String × Position)) (k : String) (v : Position)
    (habs : mapFind m k = none) :
    ∃ l1 l2, m = l1 ++ l2 ∧ mapEmplace m k v = l1 ++ (k, v) :: l2 := by
  induction m with
  | nil => exact ⟨[], [], rfl, rfl⟩
  | cons hd tl ih =>
    obtain ⟨k', v'⟩ := hd
    have hne : k' ≠ k := by
      intro h
      simp [mapFind, h] at habs
    have htl : mapFind tl k = none := by
      simpa [mapFind, hne] using habs
    by_cases h1 : k < k'
    · exact ⟨[], (k', v') :: tl, rfl, by simp [mapEmplace, h1]⟩
    · by_cases h2 : k' < k
      · obtain ⟨l1, l2, e1, e2⟩ := ih htl
        refine ⟨(k', v') :: l1, l2, by rw [e1]; rfl, ?_⟩
        simp [mapEmplace, h1, h2, e2]
      · exact absurd (le_antisymm (not_lt.mp h1) (not_lt.mp h2)) hne

/-- Emplacing adds no key other than the emplaced one. -/
theorem mapEmplace_keys (m : List (String × Position)) (k : String) (v : Position) :
    ∀ a ∈ (mapEmplace m k v).map Prod.fst, a = k ∨ a ∈ m.map Prod.fst := by
  induction m with
  | nil => simp [mapEmplace]
  | cons hd tl ih =>
    obtain ⟨k', v'⟩ := hd
    intro a ha
    by_cases h1 : k < k'
    · simp only [mapEmplace, if_pos h1, List.map_cons, List.mem_cons] at ha
      simpa using ha
    · by_cases h2 : k' < k
      · simp only [mapEmplace, if_neg h1, if_pos h2, List.map_cons, List.mem_cons] at ha
        rcases ha with h | h
        · right; simp [h]
        · rcases ih a h with h' | h'
          · exact Or.inl h'
          · right; simp only [List.map_cons, List.mem_cons]; exact Or.inr h'
      · simp only [mapEmplace, if_neg h1, if_neg h2] at ha
        exact Or.inr ha

/-- Emplacing keeps the keys strictly increasing. -/
theorem mapEmplace_ordered (m : List (String × Position)) (k : String) (v : Position)
    (hord : mapOrdered m) : mapOrdered (mapEmplace m k v) := by
  induction m with
  | nil => simp [mapEmplace, mapOrdered]
  | cons hd tl ih =>
    obtain ⟨k', v'⟩ := hd
    have hord' := hord
    unfold mapOrdered at hord'
    simp only [List.map_cons, List.pairwise_cons] at hord'
    obtain ⟨hhd, htl⟩ := hord'
    by_cases h1 : k < k'
    · simp only [mapEmplace, if_pos h1]
      unfold mapOrdered
      simp only [List.map_cons, List.pairwise_cons]
      refine ⟨?_, hhd, htl⟩
      intro a ha
      rcases List.mem_cons.mp ha with h | h
      · rw [h]; exact h1
      · exact lt_trans h1 (hhd a h)
    · by_cases h2 : k' < k
      · simp only [mapEmplace, if_neg h1, if_pos h2]
        have ih' := ih htl
        unfold mapOrdered at ih' ⊢
        simp only [List.map_cons, List.pairwise_cons]
        refine ⟨?_, ih'⟩
        intro a ha
        rcases mapEmplace_keys tl k v a ha with h | h
        · rw [h]; exact h2
        · exact hhd a h
      · simp only [mapEmplace, if_neg h1, if_neg h2]
        exact hord

/-- Adjusting the entry of one key changes no key. -/
theorem mapAdjust_keys (m : List (String × Position)) (k : String)
    (f : Position → Position) :
    (mapAdjust m k f).map Prod.fst = m.map Prod.fst := by
  induction m with
  | nil => rfl
  | cons hd tl ih =>
    obtain ⟨k', v⟩ := hd
    by_cases h : k' = k
    · simp [mapAdjust, h]
    · simp [mapAdjust, h, ih]

/-- The lookup after an in-place update: the updated entry under the adjusted key,
the old entry under every other key. -/
theorem mapFind_mapAdjust (m : List (String × Position)) (k k2 : String)
    (f : Position → Position) :
    mapFind (mapAdjust m k f) k2
      = if k2 = k then (mapFind m k).map f else mapFind m k2 := by
  induction m with
  | nil => simp [mapAdjust, mapFind]
  | cons hd tl ih =>
    obtain ⟨k', v⟩ := hd
    by_cases h : k' = k
    · by_cases h2 : k2 = k
      · simp [mapAdjust, mapFind, h, h2]
      · have h3 : ¬ k = k2 := fun e => h2 e.symm
        simp [mapAdjust, mapFind, h, h2, h3]
    · by_cases h2 : k2 = k
      · have ih' := ih
        rw [if_pos h2] at ih'
        subst h2
        simp [mapAdjust, mapFind, h, ih']
      · have ih' := ih
        rw [if_neg h2] at ih'
        by_cases h4 : k' = k2
        · simp [mapAdjust, mapFind, h, h2, h4]
        · simp [mapAdjust, mapFind, h, h2, h4, ih']

/-- In a map with strictly increasing keys a registered key has exactly one entry. -/
theorem mapCount_eq_one_of_ordered (m : List (String × Position)) (k : String)
    (hord : mapOrdered m) (hreg : mapFind m k ≠ none) : mapCount m k = 1 := by
  induction m with
  | nil => exact absurd rfl hreg
  | cons hd tl ih =>
    obtain ⟨k', v⟩ := hd
    unfold mapOrdered at hord
    simp only [List.map_cons, List.pairwise_cons] at hord
    obtain ⟨hhd, htl⟩ := hord
    by_cases h : k' = k
    · have hzero : mapCount tl k = 0 := by
        rw [mapCount_eq_zero_iff, mapFind_eq_none_iff]
        intro kv hkv hk
        have := hhd kv.1 (List.mem_map_of_mem Prod.fst hkv)
        rw [hk, h] at this
        exact lt_irrefl k this
      have : mapCount ((k', v) :: tl) k = 1 + mapCount tl k := by
        simp [mapCount, h, add_comm]
      rw [this, hzero]
    · have hreg' : mapFind tl k ≠ none := by
        simpa [mapFind, h] using hreg
      have : mapCount ((k', v) :: tl) k = mapCount tl k := by
        simp [mapCount, h]
      rw [this]
      exact ih htl hreg'

/-! ## Theorems: `TradingBook` -/

/-- C7: on a registered ticker `bookTrade` adds the captured edge to `realizedSpreadPnL`,
where the edge is `(midPrice - price) * quantity` for a trade quantity above zero and
`(price - midPrice) * |quantity|` otherwise; a trade executed exactly at mid adds 0. -/
theorem bookTrade_edge_attribution (b : TradingBook) (t : Trade) (midPrice : ℚ)
    (hreg : mapFind b.positions t.bondName ≠ none) :
    (b.bookTrade t midPrice).book.realizedSpreadPnL
      = b.realizedSpreadPnL +
          (if t.quantity > 0 then (midPrice - t.price) * t.quantity
           else (t.price - midPrice) * |t.quantity|) ∧
    (t.price = midPrice →
      (b.bookTrade t midPrice).book.realizedSpreadPnL = b.realizedSpreadPnL) := by
  obtain ⟨pos, hpos⟩ := Option.ne_none_iff_exists'.mp hreg
  have hval : (b.bookTrade t midPrice).book.realizedSpreadPnL
      = b.realizedSpreadPnL +
          (if t.quantity > 0 then (midPrice - t.price) * t.quantity
           else (t.price - midPrice) * |t.quantity|) := by
    simp only [TradingBook.bookTrade, hpos]
  refine ⟨hval, fun hmid => ?_⟩
  rw [hval, hmid]
  simp

/-- C7 at a concrete input: SELL 40 at 110 against a mid of 109 captures an edge of
(110 - 109) * 40 = 40. -/
theorem bookTrade_edge_attribution_witness :
    mapFind sampleBook.positions sell40.bondName ≠ none ∧
    (sampleBook.bookTrade sell40 109).book.realizedSpreadPnL = 40 := by
  have hreg : mapFind sampleBook.positions sell40.bondName ≠ none := by
    simp [mapFind, sampleBook, sell40]
  refine ⟨hreg, ?_⟩
  rw [(bookTrade_edge_attribution sampleBook sell40 109 hreg).1]
  norm_num [sampleBook, sell40, abs_of_neg]

/-- C8: `bookTrade` on a ticker with no position in the book reports the failure and
returns the book exactly as it was: same positions, same `realizedSpreadPnL`. -/
theorem bookTrade_unregistered_unchanged (b : TradingBook) (t : Trade) (midPrice : ℚ)
    (habs : mapFind b.positions t.bondName = none) :
    (b.bookTrade t midPrice).book = b ∧
    (b.bookTrade t midPrice).book.positions = b.positions ∧
    (b.bookTrade t midPrice).book.realizedSpreadPnL = b.realizedSpreadPnL ∧
    (b.bookTrade t midPrice).error = some "Error: Bond not found." := by
  simp only [TradingBook.bookTrade, habs, and_self]

/-- C8 at a concrete input: a trade on the unknown ticker XYZ leaves `sampleBook` as it
was. -/
theorem bookTrade_unregistered_unchanged_witness :
    mapFind sampleBook.positions strayTrade.bondName = none ∧
    (sampleBook.bookTrade strayTrade 100).book = sampleBook := by
  have habs : mapFind sampleBook.positions strayTrade.bondName = none := by
    simp [mapFind, sampleBook, strayTrade]
  exact ⟨habs, (bookTrade_unregistered_unchanged sampleBook strayTrade 100 habs).1⟩

/-- The no-op path of `addKnownInstrument`. -/
theorem addKnownInstrument_of_registered (b : TradingBook) (bond : Bond)
    (hreg : mapFind b.positions bond.getTicker ≠ none) : b.addKnownInstrument bond = b := by
  obtain ⟨pos, hpos⟩ := Option.ne_none_iff_exists'.mp hreg
  simp only [TradingBook.addKnownInstrument, hpos]

/-- The emplacing path of `addKnownInstrument`. -/
theorem addKnownInstrument_of_absent (b : TradingBook) (bond : Bond)
    (habs : mapFind b.positions bond.getTicker = none) :
    b.addKnownInstrument bond
      = { b with positions := mapEmplace b.positions bond.getTicker (Position.new bond) } := by
  simp only [TradingBook.addKnownInstrument, habs]

/-- After registration the ticker is always found. -/
theorem addKnownInstrument_registers (b : TradingBook) (bond : Bond) :
    mapFind (b.addKnownInstrument bond).positions bond.getTicker ≠ none := by
  by_cases h : mapFind b.positions bond.getTicker = none
  · rw [addKnownInstrument_of_absent b bond h]
    obtain ⟨l1, l2, e1, e2⟩ :=
      mapEmplace_absent b.positions bond.getTicker (Position.new bond) h
    have h1 : mapFind l1 bond.getTicker = none := by
      rw [mapFind_eq_none_iff] at h ⊢
      intro kv hkv
      exact h kv (by rw [e1]; exact List.mem_append_left l2 hkv)
    show mapFind (mapEmplace b.positions bond.getTicker (Position.new bond)) bond.getTicker
      ≠ none
    rw [e2, mapFind_append, h1]
    simp [mapFind]
  · rw [addKnownInstrument_of_registered b bond h]
    exact h

/-- A booked trade never unregisters a ticker. -/
theorem bookTrade_keeps_registered (b : TradingBook) (t : Trade) (midPrice : ℚ)
    (k : String) (hreg : mapFind b.positions k ≠ none) :
    mapFind (b.bookTrade t midPrice).book.positions k ≠ none := by
  cases hf : mapFind b.positions t.bondName with
  | none => simpa only [TradingBook.bookTrade, hf] using hreg
  | some pos =>
    simp only [TradingBook.bookTrade, hf]
    rw [mapFind_mapAdjust]
    by_cases hk : k = t.bondName
    · rw [if_pos hk, hf]; simp
    · rw [if_neg hk]; exact hreg

/-- Registration keeps the keys of the book strictly increasing. -/
theorem addKnownInstrument_ordered (b : TradingBook) (bond : Bond)
    (hord : mapOrdered b.positions) : mapOrdered (b.addKnownInstrument bond).positions := by
  by_cases h : mapFind b.positions bond.getTicker = none
  · rw [addKnownInstrument_of_absent b bond h]
    exact mapEmplace_ordered b.positions bond.getTicker (Position.new bond) hord
  · rw [addKnownInstrument_of_registered b bond h]
    exact hord

/-- Booking a trade keeps the keys of the book strictly increasing. -/
theorem bookTrade_ordered (b : TradingBook) (t : Trade) (midPrice : ℚ)
    (hord : mapOrdered b.positions) : mapOrdered (b.bookTrade t midPrice).book.positions := by
  cases hf : mapFind b.positions t.bondName with
  | none => simpa only [TradingBook.bookTrade, hf] using hord
  | some pos =>
    simp only [TradingBook.bookTrade, hf]
    unfold mapOrdered at hord ⊢
    rw [mapAdjust_keys]
    exact hord

/-- C9: `addKnownInstrument` is idempotent. If the ticker of the bond is already
registered the book is unchanged; otherwise exactly one entry, a fresh position with
quantity, average cost and realized P&L all zero, is spliced in under that ticker and
nothing else changes. Registering again changes nothing, also after any booked trade,
and after registering twice the ticker has exactly one position. -/
theorem addKnownInstrument_idempotent (b : TradingBook) (bond : Bond) :
    (mapFind b.positions bond.getTicker ≠ none → b.addKnownInstrument bond = b) ∧
    (mapFind b.positions bond.getTicker = none →
      (∃ l1 l2, b.positions = l1 ++ l2 ∧
        (b.addKnownInstrument bond).positions
          = l1 ++ (bond.getTicker, Position.new bond) :: l2) ∧
      mapFind (b.addKnownInstrument bond).positions bond.getTicker
        = some (Position.new bond) ∧
      (Position.new bond).quantity = 0 ∧ (Position.new bond).averageCost = 0 ∧
      (Position.new bond).realizedPnL = 0 ∧
      mapCount (b.addKnownInstrument bond).positions bond.getTicker = 1 ∧
      (∀ k, k ≠ bond.getTicker →
        mapFind (b.addKnownInstrument bond).positions k = mapFind b.positions k) ∧
      (b.addKnownInstrument bond).realizedSpreadPnL = b.realizedSpreadPnL ∧
      (b.addKnownInstrument bond).riskAversion = b.riskAversion) ∧
    (b.addKnownInstrument bond).addKnownInstrument bond = b.addKnownInstrument bond ∧
    (∀ (t : Trade) (midPrice : ℚ),
      ((b.addKnownInstrument bond).bookTrade t midPrice).book.addKnownInstrument bond
        = ((b.addKnownInstrument bond).bookTrade t midPrice).book) ∧
    (mapOrdered b.positions →
      mapCount ((b.addKnownInstrument bond).addKnownInstrument bond).positions
        bond.getTicker = 1) := by
  have hsplice : mapFind b.positions bond.getTicker = none →
      ∃ l1 l2, b.positions = l1 ++ l2 ∧
        (b.addKnownInstrument bond).positions
          = l1 ++ (bond.getTicker, Position.new bond) :: l2 := by
    intro habs
    rw [addKnownInstrument_of_absent b bond habs]
    exact mapEmplace_absent b.positions bond.getTicker (Position.new bond) habs
  have hcount : mapFind b.positions bond.getTicker = none →
      mapCount (b.addKnownInstrument bond).positions bond.getTicker = 1 := by
    intro habs
    obtain ⟨l1, l2, e1, e2⟩ := hsplice habs
    have hz : mapCount (l1 ++ l2) bond.getTicker = 0 := by
      rw [← e1]; exact (mapCount_eq_zero_iff _ _).mpr habs
    rw [mapCount_append] at hz
    have hone : mapCount ((bond.getTicker, Position.new bond) :: l2) bond.getTicker
        = 1 + mapCount l2 bond.getTicker := by
      simp [mapCount, add_comm]
    rw [e2, mapCount_append, hone]
    omega
  have hidem : (b.addKnownInstrument bond).addKnownInstrument bond
      = b.addKnownInstrument bond :=
    addKnownInstrument_of_registered _ bond (addKnownInstrument_registers b bond)
  refine ⟨addKnownInstrument_of_registered b bond, fun habs => ?_, hidem, fun t mid => ?_,
    fun hord => ?_⟩
  · obtain ⟨l1, l2, e1, e2⟩ := hsplice habs
    have h1 : mapFind l1 bond.getTicker = none := by
      rw [mapFind_eq_none_iff] at habs ⊢
      intro kv hkv
      exact habs kv (by rw [e1]; exact List.mem_append_left l2 hkv)
    refine ⟨⟨l1, l2, e1, e2⟩, ?_, rfl, rfl, rfl, hcount habs, fun k hk => ?_, ?_, ?_⟩
    · rw [e2, mapFind_append, h1]
      simp [mapFind]
    · have hk' : ¬ bond.getTicker = k := fun e => hk e.symm
      rw [e2, e1, mapFind_append, mapFind_append]
      simp [mapFind, hk']
    · rw [addKnownInstrument_of_absent b bond habs]
    · rw [addKnownInstrument_of_absent b bond habs]
  · exact addKnownInstrument_of_registered _ bond
      (bookTrade_keeps_registered _ t mid _ (addKnownInstrument_registers b bond))
  · rw [hidem]
    by_cases habs : mapFind b.positions bond.getTicker = none
    · exact hcount habs
    · rw [addKnownInstrument_of_registered b bond habs]
      exact mapCount_eq_one_of_ordered b.positions bond.getTicker hord habs

/-- C9 at concrete inputs: registering the unknown FRN5 in `sampleBook` puts one fresh
position in front of UST10; registering the known UST10 again, even after a booked
trade, changes nothing; and after two registrations each ticker has one position. -/
theorem addKnownInstrument_idempotent_witness :
    mapFind sampleBook.positions otherBond.getTicker = none ∧
    mapFind sampleBook.positions sampleBond.getTicker ≠ none ∧
    mapOrdered sampleBook.positions ∧
    sampleBook.addKnownInstrument sampleBond = sampleBook ∧
    (sampleBook.addKnownInstrument otherBond).positions
      = [("FRN5", Position.new otherBond), ("UST10", longLot)] ∧
    mapCount ((sampleBook.addKnownInstrument otherBond).addKnownInstrument
      otherBond).positions otherBond.getTicker = 1 ∧
    mapCount ((sampleBook.addKnownInstrument sampleBond).addKnownInstrument
      sampleBond).positions sampleBond.getTicker = 1 := by
  have habs : mapFind sampleBook.positions otherBond.getTicker = none := by
    simp [mapFind, sampleBook, otherBond, Bond.getTicker]
  have hreg : mapFind sampleBook.positions sampleBond.getTicker ≠ none := by
    simp [mapFind, sampleBook, sampleBond, Bond.getTicker]
  have hord : mapOrdered sampleBook.positions := by
    simp [mapOrdered, sampleBook]
  refine ⟨habs, hreg, hord,
    (addKnownInstrument_idempotent sampleBook sampleBond).1 hreg, ?_,
    (addKnownInstrument_idempotent sampleBook otherBond).2.2.2.2 hord,
    (addKnownInstrument_idempotent sampleBook sampleBond).2.2.2.2 hord⟩
  rw [addKnownInstrument_of_absent sampleBook otherBond habs]
  have hlt : ("FRN5" : String) < "UST10" := by simp; decide
  simp [mapEmplace, sampleBook, otherBond, Bond.getTicker, hlt]

/-- The two successive guards of `getQuotedSpread` compute a clamp when the bound is
not negative. -/
theorem sequential_guards_eq_clamp (raw bound : ℚ) (hb : 0 ≤ bound) :
    (if (if raw > bound then bound else raw) < -bound then -bound
      else (if raw > bound then bound else raw))
      = max (-bound) (min bound raw) := by
  by_cases h1 : raw > bound
  · have h2 : ¬ bound < -bound := by linarith
    rw [if_pos h1, if_neg h2, min_eq_left h1.le, max_eq_right (by linarith)]
  · rw [if_neg h1, min_eq_right (not_lt.mp h1)]
    by_cases h2 : raw < -bound
    · rw [if_pos h2, max_eq_left h2.le]
    · rw [if_neg h2, max_eq_right (not_lt.mp h2)]

/-- C10: for a base spread that is not negative, the skew returned by `getQuotedSpread`
is `-riskAversion * inventory * |unitPV01|` clamped to
`[-1.5 * baseSpread, 1.5 * baseSpread]` (inventory being the quantity held under the
ticker, 0 when it is not registered), hence lies within that interval. -/
theorem getQuotedSpread_skew_clamped (b : TradingBook) (ticker : String)
    (midPrice unitPV01 baseSpread : ℚ) (hbs : 0 ≤ baseSpread) :
    (b.getQuotedSpread ticker midPrice unitPV01 baseSpread).skew
      = max (-(3 / 2 * baseSpread))
          (min (3 / 2 * baseSpread) (-b.riskAversion * b.getPosition ticker * |unitPV01|)) ∧
    -(3 / 2) * baseSpread ≤ (b.getQuotedSpread ticker midPrice unitPV01 baseSpread).skew ∧
    (b.getQuotedSpread ticker midPrice unitPV01 baseSpread).skew ≤ 3 / 2 * baseSpread := by
  have hb : (0 : ℚ) ≤ baseSpread * (3 / 2) := mul_nonneg hbs (by norm_num)
  have hval : (b.getQuotedSpread ticker midPrice unitPV01 baseSpread).skew
      = max (-(3 / 2 * baseSpread))
          (min (3 / 2 * baseSpread)
            (-b.riskAversion * b.getPosition ticker * |unitPV01|)) := by
    simp only [TradingBook.getQuotedSpread, TradingBook.getPosition]
    rw [sequential_guards_eq_clamp _ _ hb, mul_comm baseSpread (3 / 2), neg_one_mul]
  refine ⟨hval, ?_, ?_⟩
  · rw [hval, neg_mul]
    exact le_max_left _ _
  · rw [hval]
    exact max_le (by linarith) (min_le_left _ _)

/-- C10 at a concrete input: inventory 100, |unitPV01| = 1/2 and risk aversion 1/100
give a raw skew of -1/2, clamped to -3/10 for a base spread of 1/5. -/
theorem getQuotedSpread_skew_clamped_witness :
    (0 : ℚ) ≤ 1 / 5 ∧
    (sampleBook.getQuotedSpread "UST10" 100 (-1 / 2) (1 / 5)).skew = -3 / 10 ∧
    -(3 / 2) * (1 / 5) ≤ (sampleBook.getQuotedSpread "UST10" 100 (-1 / 2) (1 / 5)).skew ∧
    (sampleBook.getQuotedSpread "UST10" 100 (-1 / 2) (1 / 5)).skew ≤ 3 / 2 * (1 / 5) := by
  have hbs : (0 : ℚ) ≤ 1 / 5 := by norm_num
  obtain ⟨h1, h2, h3⟩ :=
    getQuotedSpread_skew_clamped sampleBook "UST10" 100 (-1 / 2) (1 / 5) hbs
  refine ⟨hbs, ?_, h2, h3⟩
  rw [h1]
  have hinv : sampleBook.getPosition "UST10" = 100 := by
    simp [TradingBook.getPosition, sampleBook, mapFind, longLot]
  have hpv : |(-1 / 2 : ℚ)| = 1 / 2 := by
    rw [abs_of_neg (by norm_num)]; norm_num
  rw [hinv, hpv]
  have hra : sampleBook.riskAversion = 1 / 100 := rfl
  rw [hra, min_eq_right (by norm_num), max_eq_left (by norm_num)]
  norm_num

/-! ## Theorems: quote construction and skew direction -/

/-- The inventory read by `getQuotedSpread` is the value of `getPosition`, and the
skew is the result of the two successive guards applied to the raw skew. -/
theorem getQuotedSpread_skew_eq (b : TradingBook) (ticker : String)
    (midPrice unitPV01 baseSpread : ℚ) :
    (b.getQuotedSpread ticker midPrice unitPV01 baseSpread).skew
      = (if (if -1 * b.riskAversion * b.getPosition ticker * |unitPV01| > baseSpread * (3 / 2)
              then baseSpread * (3 / 2)
              else -1 * b.riskAversion * b.getPosition ticker * |unitPV01|)
            < -(baseSpread * (3 / 2))
          then -(baseSpread * (3 / 2))
          else (if -1 * b.riskAversion * b.getPosition ticker * |unitPV01|
                  > baseSpread * (3 / 2)
                then baseSpread * (3 / 2)
                else -1 * b.riskAversion * b.getPosition ticker * |unitPV01|)) := by
  simp only [TradingBook.getQuotedSpread, TradingBook.getPosition]

/-- For a base spread that is not negative the skew is the clamped raw skew. -/
theorem getQuotedSpread_skew_eq_clamp (b : TradingBook) (ticker : String)
    (midPrice unitPV01 baseSpread : ℚ) (hbs : 0 ≤ baseSpread) :
    (b.getQuotedSpread ticker midPrice unitPV01 baseSpread).skew
      = max (-(baseSpread * (3 / 2)))
          (min (baseSpread * (3 / 2))
            (-1 * b.riskAversion * b.getPosition ticker * |unitPV01|)) := by
  rw [getQuotedSpread_skew_eq]
  exact sequential_guards_eq_clamp _ _ (mul_nonneg hbs (by norm_num))

/-- The inventory of an unregistered ticker is taken as 0. -/
theorem getPosition_of_absent (b : TradingBook) (ticker : String)
    (habs : mapFind b.positions ticker = none) : b.getPosition ticker = 0 := by
  simp only [TradingBook.getPosition, habs]

/-- The inventory of a registered ticker is the quantity of its position. -/
theorem getPosition_of_registered (b : TradingBook) (ticker : String) (pos : Position)
    (hreg : mapFind b.positions ticker = some pos) : b.getPosition ticker = pos.quantity := by
  simp only [TradingBook.getPosition, hreg]

/-- C11 as stated fails for a negative base spread: on the empty book (ticker not
registered, inventory 0) a base spread of -2 gives the skew 3, not 0, and the quote
(104, 102) is not symmetric around the mid price 100. -/
theorem getQuotedSpread_flat_negative_spread_skewed :
    mapFind emptyBook.positions "UST10" = none ∧
    (emptyBook.getQuotedSpread "UST10" 100 1 (-2)).skew = 3 ∧
    (emptyBook.getQuotedSpread "UST10" 100 1 (-2)).skew ≠ 0 ∧
    (emptyBook.getQuotedSpread "UST10" 100 1 (-2)).bid = 104 ∧
    (emptyBook.getQuotedSpread "UST10" 100 1 (-2)).ask = 102 := by
  have hskew : (emptyBook.getQuotedSpread "UST10" 100 1 (-2)).skew = 3 := by
    norm_num [TradingBook.getQuotedSpread, emptyBook, mapFind]
  refine ⟨rfl, hskew, ?_, ?_, ?_⟩
  · rw [hskew]; norm_num
  · norm_num [TradingBook.getQuotedSpread, emptyBook, mapFind]
  · norm_num [TradingBook.getQuotedSpread, emptyBook, mapFind]

/-- C11 amended: for every input `bid = midPrice - baseSpread / 2 + skew` and
`ask = midPrice + baseSpread / 2 + skew` with the returned skew, so
`ask - bid = baseSpread`; and for a base spread that is not negative, when the ticker is
not registered or its position is flat the skew is 0 and the quote is symmetric around
the mid price. -/
theorem getQuotedSpread_quote_construction (b : TradingBook) (ticker : String)
    (midPrice unitPV01 baseSpread : ℚ) :
    (b.getQuotedSpread ticker midPrice unitPV01 baseSpread).bid
      = midPrice - baseSpread / 2
        + (b.getQuotedSpread ticker midPrice unitPV01 baseSpread).skew ∧
    (b.getQuotedSpread ticker midPrice unitPV01 baseSpread).ask
      = midPrice + baseSpread / 2
        + (b.getQuotedSpread ticker midPrice unitPV01 baseSpread).skew ∧
    (b.getQuotedSpread ticker midPrice unitPV01 baseSpread).ask
      - (b.getQuotedSpread ticker midPrice unitPV01 baseSpread).bid = baseSpread ∧
    (0 ≤ baseSpread →
      (mapFind b.positions ticker = none ∨
        ∃ pos, mapFind b.positions ticker = some pos ∧ pos.quantity = 0) →
      (b.getQuotedSpread ticker midPrice unitPV01 baseSpread).skew = 0 ∧
      (b.getQuotedSpread ticker midPrice unitPV01 baseSpread).bid
        = midPrice - baseSpread / 2 ∧
      (b.getQuotedSpread ticker midPrice unitPV01 baseSpread).ask
        = midPrice + baseSpread / 2) := by
  have hbid : (b.getQuotedSpread ticker midPrice unitPV01 baseSpread).bid
      = midPrice - baseSpread / 2
        + (b.getQuotedSpread ticker midPrice unitPV01 baseSpread).skew := rfl
  have hask : (b.getQuotedSpread ticker midPrice unitPV01 baseSpread).ask
      = midPrice + baseSpread / 2
        + (b.getQuotedSpread ticker midPrice unitPV01 baseSpread).skew := rfl
  refine ⟨hbid, hask, ?_, fun hbs hflat => ?_⟩
  · rw [hbid, hask]; ring
  · have hinv : b.getPosition ticker = 0 := by
      rcases hflat with habs | ⟨pos, hreg, hq⟩
      · exact getPosition_of_absent b ticker habs
      · rw [getPosition_of_registered b ticker pos hreg, hq]
    have hM : (0 : ℚ) ≤ baseSpread * (3 / 2) := mul_nonneg hbs (by norm_num)
    have hskew : (b.getQuotedSpread ticker midPrice unitPV01 baseSpread).skew = 0 := by
      rw [getQuotedSpread_skew_eq_clamp b ticker midPrice unitPV01 baseSpread hbs, hinv]
      simp only [mul_zero, zero_mul]
      rw [min_eq_right hM, max_eq_right (by linarith)]
    refine ⟨hskew, ?_, ?_⟩
    · rw [hbid, hskew, add_zero]
    · rw [hask, hskew, add_zero]

/-- C11 amended, at concrete inputs: on the empty book a base spread of 1/5 around the
mid price 100 gives the symmetric quote (999/10, 1001/10) with skew 0. -/
theorem getQuotedSpread_quote_construction_witness :
    (0 : ℚ) ≤ 1 / 5 ∧ mapFind emptyBook.positions "UST10" = none ∧
    (emptyBook.getQuotedSpread "UST10" 100 (-1 / 2) (1 / 5)).skew = 0 ∧
    (emptyBook.getQuotedSpread "UST10" 100 (-1 / 2) (1 / 5)).bid = 999 / 10 ∧
    (emptyBook.getQuotedSpread "UST10" 100 (-1 / 2) (1 / 5)).ask = 1001 / 10 := by
  have hbs : (0 : ℚ) ≤ 1 / 5 := by norm_num
  obtain ⟨h1, h2, h3⟩ :=
    (getQuotedSpread_quote_construction emptyBook "UST10" 100 (-1 / 2) (1 / 5)).2.2.2
      hbs (Or.inl rfl)
  refine ⟨hbs, rfl, h1, ?_, ?_⟩
  · rw [h2]; norm_num
  · rw [h3]; norm_num

/-- C12: for a base spread that is not negative (and the risk aversion of the book not
negative, as its initialiser 0.01 is), the skew is at most 0 when the position held
under the ticker is long and at least 0 when it is short, so long inventory lowers bid
and ask and short inventory raises them; and the skew does not increase when the
inventory grows. -/
theorem getQuotedSpread_skew_direction (b : TradingBook) (ticker : String)
    (midPrice unitPV01 baseSpread : ℚ) (hbs : 0 ≤ baseSpread)
    (hra : 0 ≤ b.riskAversion) :
    (∀ pos, mapFind b.positions ticker = some pos → 0 < pos.quantity →
      (b.getQuotedSpread ticker midPrice unitPV01 baseSpread).skew ≤ 0 ∧
      (b.getQuotedSpread ticker midPrice unitPV01 baseSpread).bid
        ≤ midPrice - baseSpread / 2 ∧
      (b.getQuotedSpread ticker midPrice unitPV01 baseSpread).ask
        ≤ midPrice + baseSpread / 2) ∧
    (∀ pos, mapFind b.positions ticker = some pos → pos.quantity < 0 →
      0 ≤ (b.getQuotedSpread ticker midPrice unitPV01 baseSpread).skew ∧
      midPrice - baseSpread / 2
        ≤ (b.getQuotedSpread ticker midPrice unitPV01 baseSpread).bid ∧
      midPrice + baseSpread / 2
        ≤ (b.getQuotedSpread ticker midPrice unitPV01 baseSpread).ask) ∧
    (∀ b2 : TradingBook, b2.riskAversion = b.riskAversion →
      b.getPosition ticker ≤ b2.getPosition ticker →
      (b2.getQuotedSpread ticker midPrice unitPV01 baseSpread).skew
        ≤ (b.getQuotedSpread ticker midPrice unitPV01 baseSpread).skew) := by
  have hM : (0 : ℚ) ≤ baseSpread * (3 / 2) := mul_nonneg hbs (by norm_num)
  have hclamp := getQuotedSpread_skew_eq_clamp b ticker midPrice unitPV01 baseSpread hbs
  have hbid : (b.getQuotedSpread ticker midPrice unitPV01 baseSpread).bid
      = midPrice - baseSpread / 2
        + (b.getQuotedSpread ticker midPrice unitPV01 baseSpread).skew := rfl
  have hask : (b.getQuotedSpread ticker midPrice unitPV01 baseSpread).ask
      = midPrice + baseSpread / 2
        + (b.getQuotedSpread ticker midPrice unitPV01 baseSpread).skew := rfl
  have hpv : 0 ≤ |unitPV01| := abs_nonneg _
  refine ⟨fun pos hreg hq => ?_, fun pos hreg hq => ?_, fun b2 hra2 hle => ?_⟩
  · have hraw : -1 * b.riskAversion * b.getPosition ticker * |unitPV01| ≤ 0 := by
      rw [getPosition_of_registered b ticker pos hreg]
      have : 0 ≤ b.riskAversion * pos.quantity * |unitPV01| :=
        mul_nonneg (mul_nonneg hra hq.le) hpv
      linarith
    have hskew : (b.getQuotedSpread ticker midPrice unitPV01 baseSpread).skew ≤ 0 := by
      rw [hclamp]
      exact max_le (by linarith) (le_trans (min_le_right _ _) hraw)
    refine ⟨hskew, ?_, ?_⟩
    · rw [hbid]; linarith
    · rw [hask]; linarith
  · have hraw : 0 ≤ -1 * b.riskAversion * b.getPosition ticker * |unitPV01| := by
      rw [getPosition_of_registered b ticker pos hreg]
      have : 0 ≤ b.riskAversion * (-pos.quantity) * |unitPV01| :=
        mul_nonneg (mul_nonneg hra (by linarith)) hpv
      linarith
    have hskew : 0 ≤ (b.getQuotedSpread ticker midPrice unitPV01 baseSpread).skew := by
      rw [hclamp]
      exact le_max_of_le_right (le_min hM hraw)
    refine ⟨hskew, ?_, ?_⟩
    · rw [hbid]; linarith
    · rw [hask]; linarith
  · rw [hclamp, getQuotedSpread_skew_eq_clamp b2 ticker midPrice unitPV01 baseSpread hbs,
      hra2]
    have hraw : -1 * b.riskAversion * b2.getPosition ticker * |unitPV01|
        ≤ -1 * b.riskAversion * b.getPosition ticker * |unitPV01| := by
      have : 0 ≤ b.riskAversion * (b2.getPosition ticker - b.getPosition ticker)
          * |unitPV01| :=
        mul_nonneg (mul_nonneg hra (by linarith)) hpv
      linarith
    exact max_le_max (le_refl _) (min_le_min (le_refl _) hraw)

/-- C12 at concrete inputs: with |unitPV01| = 1/1000 and base spread 1/5 the long lot
of 100 gives the skew -1/1000 and the short lot of 100 the skew 1/1000. -/
theorem getQuotedSpread_skew_direction_witness :
    (0 : ℚ) ≤ 1 / 5 ∧ 0 ≤ sampleBook.riskAversion ∧
    (sampleBook.getQuotedSpread "UST10" 100 (-1 / 1000) (1 / 5)).skew = -1 / 1000 ∧
    (shortBook.getQuotedSpread "UST10" 100 (-1 / 1000) (1 / 5)).skew = 1 / 1000 ∧
    (sampleBook.getQuotedSpread "UST10" 100 (-1 / 1000) (1 / 5)).skew ≤ 0 ∧
    (sampleBook.getQuotedSpread "UST10" 100 (-1 / 1000) (1 / 5)).skew
      ≤ (shortBook.getQuotedSpread "UST10" 100 (-1 / 1000) (1 / 5)).skew := by
  have hbs : (0 : ℚ) ≤ 1 / 5 := by norm_num
  have hra : 0 ≤ sampleBook.riskAversion := by norm_num [sampleBook]
  have hra2 : 0 ≤ shortBook.riskAversion := by norm_num [shortBook]
  have hpv : |(1 / 1000 : ℚ)| = 1 / 1000 := abs_of_pos (by norm_num)
  have hlong : mapFind sampleBook.positions "UST10" = some longLot := by
    simp [mapFind, sampleBook]
  have hinv : shortBook.getPosition "UST10" ≤ sampleBook.getPosition "UST10" := by
    norm_num [TradingBook.getPosition, sampleBook, shortBook, mapFind, longLot]
  refine ⟨hbs, hra, ?_, ?_,
    ((getQuotedSpread_skew_direction sampleBook "UST10" 100 (-1 / 1000) (1 / 5) hbs hra).1
      longLot hlong (by norm_num [longLot])).1,
    (getQuotedSpread_skew_direction shortBook "UST10" 100 (-1 / 1000) (1 / 5) hbs hra2).2.2
      sampleBook rfl hinv⟩
  · norm_num [TradingBook.getQuotedSpread, sampleBook, mapFind, longLot, hpv]
  · norm_num [TradingBook.getQuotedSpread, shortBook, mapFind, longLot, hpv]

/-! ## Lemmas on the yield curve -/

/-- The iterator `lower_bound(t)` sits after a block of nodes with times below `t`
that is followed by nothing or by a node whose time is not below `t`. -/
theorem lowerBound_append (pre suf : List (ℚ × ℚ)) (t : ℚ)
    (hpre : ∀ kv ∈ pre, kv.1 < t) (hsuf : ∀ kv ∈ suf.head?, ¬ kv.1 < t) :
    lowerBound (pre ++ suf) t = (pre, suf) := by
  induction pre with
  | nil =>
    cases suf with
    | nil => rfl
    | cons hd tl =>
      obtain ⟨k, v⟩ := hd
      have hk : ¬ k < t := hsuf (k, v) (by simp)
      simp [lowerBound, hk]
  | cons hd tl ih =>
    obtain ⟨k, v⟩ := hd
    have hk : k < t := hpre (k, v) (List.mem_cons_self _ _)
    have ih' := ih (fun kv hkv => hpre kv (List.mem_cons_of_mem _ hkv))
    simp [lowerBound, hk, ih']

/-- The two parts of `lowerBound` make up the node list. -/
theorem lowerBound_parts (rates : List (ℚ × ℚ)) (t : ℚ) :
    (lowerBound rates t).1 ++ (lowerBound rates t).2 = rates := by
  induction rates with
  | nil => rfl
  | cons hd tl ih =>
    obtain ⟨k, v⟩ := hd
    by_cases hk : k < t
    · simp [lowerBound, hk, ih]
    · simp [lowerBound, hk]

/-- Unfolding `getRate` on a curve with at least one node. -/
theorem getRate_cons (c : YieldCurve) (first : ℚ × ℚ) (rest : List (ℚ × ℚ)) (t : ℚ)
    (hc : c.rates = first :: rest) :
    c.getRate t =
      match lowerBound (first :: rest) t with
      | ([], it :: _) => it.2
      | (_, []) => ((first :: rest).getLast (List.cons_ne_nil first rest)).2
      | (p :: before, it :: _) =>
        ((p :: before).getLast (List.cons_ne_nil p before)).2
          + (it.2 - ((p :: before).getLast (List.cons_ne_nil p before)).2)
            * ((t - ((p :: before).getLast (List.cons_ne_nil p before)).1)
              / (it.1 - ((p :: before).getLast (List.cons_ne_nil p before)).1)) := by
  simp only [YieldCurve.getRate, hc]

/-- The `begin()` branch: `t` at or before the first node. -/
theorem getRate_at_begin (c : YieldCurve) (first : ℚ × ℚ) (rest : List (ℚ × ℚ)) (t : ℚ)
    (hc : c.rates = first :: rest) (ht : t ≤ first.1) : c.getRate t = first.2 := by
  rw [getRate_cons c first rest t hc]
  have h := lowerBound_append [] (first :: rest) t (by simp)
    (by simpa using not_lt.mpr ht)
  rw [List.nil_append] at h
  rw [h]

/-- The `end()` branch: every node time below `t`. -/
theorem getRate_at_end (c : YieldCurve) (init : List (ℚ × ℚ)) (last : ℚ × ℚ) (t : ℚ)
    (hc : c.rates = init ++ [last]) (hall : ∀ kv ∈ init ++ [last], kv.1 < t) :
    c.getRate t = last.2 := by
  cases hl : init ++ [last] with
  | nil => simp at hl
  | cons first rest =>
    rw [getRate_cons c first rest t (hc.trans hl)]
    have h := lowerBound_append (first :: rest) [] t (by rw [← hl]; exact hall) (by simp)
    rw [List.append_nil] at h
    rw [h]
    simp only [← hl, List.getLast_append_singleton]

/-- The interpolation branch: `t` after the node `n1` and not after the next node
`n2`, every earlier node being before `t`. -/
theorem getRate_between (c : YieldCurve) (pre suf : List (ℚ × ℚ)) (n1 n2 : ℚ × ℚ) (t : ℚ)
    (hc : c.rates = pre ++ n1 :: n2 :: suf) (hpre : ∀ kv ∈ pre, kv.1 < t)
    (h1 : n1.1 < t) (h2 : t ≤ n2.1) :
    c.getRate t = n1.2 + (n2.2 - n1.2) * ((t - n1.1) / (n2.1 - n1.1)) := by
  have hsplit : pre ++ n1 :: n2 :: suf = (pre ++ [n1]) ++ n2 :: suf := by simp
  have hlb : lowerBound ((pre ++ [n1]) ++ n2 :: suf) t = (pre ++ [n1], n2 :: suf) := by
    apply lowerBound_append
    · intro kv hkv
      rcases List.mem_append.mp hkv with h | h
      · exact hpre kv h
      · rw [List.mem_singleton.mp h]; exact h1
    · simpa using not_lt.mpr h2
  cases hl : pre ++ n1 :: n2 :: suf with
  | nil => simp at hl
  | cons first rest =>
    cases hp : pre ++ [n1] with
    | nil => simp at hp
    | cons p before =>
      have hlb2 : lowerBound (first :: rest) t = (p :: before, n2 :: suf) := by
        rw [← hl, hsplit, hlb, hp]
      have hlast : (p :: before).getLast (List.cons_ne_nil p before) = n1 := by
        simp only [← hp, List.getLast_append_singleton]
      rw [getRate_cons c first rest t (hc.trans hl), hlb2]
      simp only [hlast]

/-- In an ordered node list every node before a given one has a smaller time. -/
theorem curveOrdered_before (pre suf : List (ℚ × ℚ)) (n : ℚ × ℚ)
    (hord : curveOrdered (pre ++ n :: suf)) : ∀ kv ∈ pre, kv.1 < n.1 := by
  intro kv hkv
  unfold curveOrdered at hord
  rw [List.map_append, List.pairwise_append] at hord
  exact hord.2.2 kv.1 (List.mem_map_of_mem Prod.fst hkv) n.1 (by simp)

/-- In an ordered node list two adjacent nodes have increasing times. -/
theorem curveOrdered_adjacent (pre suf : List (ℚ × ℚ)) (n1 n2 : ℚ × ℚ)
    (hord : curveOrdered (pre ++ n1 :: n2 :: suf)) : n1.1 < n2.1 := by
  have h := curveOrdered_before (pre ++ [n1]) suf n2 (by simpa using hord)
  exact h n1 (by simp)

/-- Assigning a node adds no time other than the assigned one. -/
theorem ratesAssign_keys (rates : List (ℚ × ℚ)) (time rate : ℚ) :
    ∀ a ∈ (ratesAssign rates time rate).map Prod.fst, a = time ∨ a ∈ rates.map Prod.fst := by
  induction rates with
  | nil => simp [ratesAssign]
  | cons hd tl ih =>
    obtain ⟨k, v⟩ := hd
    intro a ha
    by_cases h1 : time < k
    · simp only [ratesAssign, if_pos h1, List.map_cons, List.mem_cons] at ha
      simpa using ha
    · by_cases h2 : k < time
      · simp only [ratesAssign, if_neg h1, if_pos h2, List.map_cons, List.mem_cons] at ha
        rcases ha with h | h
        · right; simp [h]
        · rcases ih a h with h3 | h3
          · exact Or.inl h3
          · right; simp only [List.map_cons, List.mem_cons]; exact Or.inr h3
      · simp only [ratesAssign, if_neg h1, if_neg h2, List.map_cons, List.mem_cons] at ha
        right
        simpa using ha

/-- Method `addRate` keeps the node times strictly increasing. -/
theorem addRate_ordered (c : YieldCurve) (time rate : ℚ) (hord : curveOrdered c.rates) :
    curveOrdered (c.addRate time rate).rates := by
  obtain ⟨rates⟩ := c
  simp only [YieldCurve.addRate]
  simp only at hord
  induction rates with
  | nil => simp [ratesAssign, curveOrdered]
  | cons hd tl ih =>
    obtain ⟨k, v⟩ := hd
    have hord2 := hord
    unfold curveOrdered at hord2
    simp only [List.map_cons, List.pairwise_cons] at hord2
    obtain ⟨hhd, htl⟩ := hord2
    by_cases h1 : time < k
    · simp only [ratesAssign, if_pos h1]
      unfold curveOrdered
      simp only [List.map_cons, List.pairwise_cons]
      refine ⟨?_, hhd, htl⟩
      intro a ha
      rcases List.mem_cons.mp ha with h | h
      · rw [h]; exact h1
      · exact lt_trans h1 (hhd a h)
    · by_cases h2 : k < time
      · simp only [ratesAssign, if_neg h1, if_pos h2]
        have ih2 := ih htl
        unfold curveOrdered at ih2 ⊢
        simp only [List.map_cons, List.pairwise_cons]
        refine ⟨?_, ih2⟩
        intro a ha
        rcases ratesAssign_keys tl time rate a ha with h | h
        · rw [h]; exact h2
        · exact hhd a h
      · simp only [ratesAssign, if_neg h1, if_neg h2]
        unfold curveOrdered
        simp only [List.map_cons, List.pairwise_cons]
        exact ⟨hhd, htl⟩

/-- Method `parallelShift` keeps the node times strictly increasing. -/
theorem parallelShift_ordered (c : YieldCurve) (bps : ℚ) (hord : curveOrdered c.rates) :
    curveOrdered (c.parallelShift bps).rates := by
  unfold curveOrdered at hord ⊢
  have hkeys : (c.parallelShift bps).rates.map Prod.fst = c.rates.map Prod.fst := by
    simp [YieldCurve.parallelShift, List.map_map, Function.comp_def]
  rw [hkeys]
  exact hord

/-- The example curve is the one built by the three `addRate` calls of the drivers. -/
theorem sampleCurve_built :
    ((({} : YieldCurve).addRate 1 (3 / 100)).addRate 5 (4 / 100)).addRate 10 (5 / 100)
      = sampleCurve := by
  norm_num [YieldCurve.addRate, ratesAssign, sampleCurve]

/-! ## Theorems: `YieldCurve` -/

/-- C13: on a curve with ordered nodes, for `t` strictly between two adjacent nodes
`(t1, r1)` and `(t2, r2)`, `getRate t = r1 + (r2 - r1) * (t - t1) / (t2 - t1)`, where
the divisor is not zero. -/
theorem getRate_linear_interpolation (c : YieldCurve) (pre suf : List (ℚ × ℚ))
    (t1 r1 t2 r2 t : ℚ) (hord : curveOrdered c.rates)
    (hc : c.rates = pre ++ (t1, r1) :: (t2, r2) :: suf) (h1 : t1 < t) (h2 : t < t2) :
    c.getRate t = r1 + (r2 - r1) * (t - t1) / (t2 - t1) ∧ t2 - t1 ≠ 0 := by
  rw [hc] at hord
  have hpre : ∀ kv ∈ pre, kv.1 < t := fun kv hkv =>
    lt_trans (curveOrdered_before pre ((t2, r2) :: suf) (t1, r1) hord kv hkv) h1
  have h := getRate_between c pre suf (t1, r1) (t2, r2) t hc hpre h1 h2.le
  refine ⟨?_, ?_⟩
  · rw [h, mul_div_assoc]
  · have : t1 < t2 := lt_trans h1 h2
    exact sub_ne_zero.mpr (ne_of_gt this)

/-- C13 at the documented example: nodes (1, 0.03), (5, 0.04), (10, 0.05) give
`getRate 3 = 0.035`. -/
theorem getRate_linear_interpolation_witness :
    curveOrdered sampleCurve.rates ∧
    sampleCurve.rates = [] ++ (1, 3 / 100) :: (5, 4 / 100) :: [(10, 5 / 100)] ∧
    (1 : ℚ) < 3 ∧ (3 : ℚ) < 5 ∧
    sampleCurve.getRate 3 = 35 / 1000 := by
  have hord : curveOrdered sampleCurve.rates := by
    norm_num [curveOrdered, sampleCurve]
  refine ⟨hord, rfl, by norm_num, by norm_num, ?_⟩
  rw [(getRate_linear_interpolation sampleCurve [] [(10, 5 / 100)] 1 (3 / 100) 5 (4 / 100) 3
    hord rfl (by norm_num) (by norm_num)).1]
  norm_num

/-- C14: on a non-empty curve `getRate t` is the rate of the first node for every `t`
at or before the time of the first node, and (the nodes being ordered) the rate of the
last node for every `t` at or after the time of the last node, the time of the last
node itself included. -/
theorem getRate_flat_extrapolation (c : YieldCurve) (t : ℚ) :
    (∀ first rest, c.rates = first :: rest → t ≤ first.1 → c.getRate t = first.2) ∧
    (∀ init last, c.rates = init ++ [last] → curveOrdered c.rates → last.1 ≤ t →
      c.getRate t = last.2) := by
  refine ⟨fun first rest hc ht => getRate_at_begin c first rest t hc ht,
    fun init last hc hord ht => ?_⟩
  rw [hc] at hord
  have hinit : ∀ kv ∈ init, kv.1 < last.1 := curveOrdered_before init [] last hord
  rcases lt_or_eq_of_le ht with hlt | heq
  · apply getRate_at_end c init last t hc
    intro kv hkv
    rcases List.mem_append.mp hkv with h | h
    · exact lt_trans (hinit kv h) hlt
    · rw [List.mem_singleton.mp h]; exact hlt
  · cases hi : init.reverse with
    | nil =>
      have hnil : init = [] := List.reverse_eq_nil_iff.mp hi
      rw [hnil, List.nil_append] at hc
      exact getRate_at_begin c last [] t hc (le_of_eq heq.symm)
    | cons prev revInit =>
      have hinit' : init = revInit.reverse ++ [prev] := by
        rw [← List.reverse_reverse init, hi, List.reverse_cons]
      have hc' : c.rates = revInit.reverse ++ prev :: last :: [] := by
        rw [hc, hinit']; simp
      have hprev : prev.1 < last.1 := hinit prev (by rw [hinit']; simp)
      have hpre : ∀ kv ∈ revInit.reverse, kv.1 < t := fun kv hkv =>
        heq ▸ hinit kv (by rw [hinit']; exact List.mem_append_left _ hkv)
      rw [getRate_between c revInit.reverse [] prev last t hc' hpre (heq ▸ hprev)
        (le_of_eq heq.symm), ← heq]
      have hne : last.1 - prev.1 ≠ 0 := sub_ne_zero.mpr (ne_of_gt hprev)
      rw [div_self hne]
      ring

/-- C14 at the documented example: nodes (1, 0.03), (5, 0.04), (10, 0.05) give
`getRate 0.5 = 0.03`, `getRate 20 = 0.05`, and `getRate 10 = 0.05` at the last node. -/
theorem getRate_flat_extrapolation_witness :
    curveOrdered sampleCurve.rates ∧
    sampleCurve.getRate (1 / 2) = 3 / 100 ∧
    sampleCurve.getRate 20 = 5 / 100 ∧
    sampleCurve.getRate 10 = 5 / 100 := by
  have hord : curveOrdered sampleCurve.rates := by
    norm_num [curveOrdered, sampleCurve]
  refine ⟨hord, ?_, ?_, ?_⟩
  · exact (getRate_flat_extrapolation sampleCurve (1 / 2)).1 (1, 3 / 100)
      [(5, 4 / 100), (10, 5 / 100)] rfl (by norm_num)
  · exact (getRate_flat_extrapolation sampleCurve 20).2 [(1, 3 / 100), (5, 4 / 100)]
      (10, 5 / 100) rfl hord (by norm_num)
  · exact (getRate_flat_extrapolation sampleCurve 10).2 [(1, 3 / 100), (5, 4 / 100)]
      (10, 5 / 100) rfl hord (by norm_num)

/-- C15: degraded curves are flat. On the empty curve `getRate t = 0` for every `t`,
so the discount factor is `expFn 0`, which is 1 for an exponential; on a curve with the
single node `(t0, r0)`, `getRate t = r0` for every `t`, and the iterator found is
`begin()` or `end()`, so the interpolation with its division is not reached. -/
theorem getRate_degraded_curves :
    (∀ t : ℚ, ({ rates := [] } : YieldCurve).getRate t = 0) ∧
    (∀ (expFn : ℚ → ℚ) (t : ℚ), expFn 0 = 1 →
      ({ rates := [] } : YieldCurve).getDiscountFactor expFn t = 1) ∧
    (∀ t0 r0 t : ℚ, ({ rates := [(t0, r0)] } : YieldCurve).getRate t = r0) ∧
    (∀ t0 r0 t : ℚ, (lowerBound [(t0, r0)] t).1 = [] ∨ (lowerBound [(t0, r0)] t).2 = []) := by
  refine ⟨fun t => rfl, fun expFn t h0 => ?_, fun t0 r0 t => ?_, fun t0 r0 t => ?_⟩
  · have hr : ({ rates := [] } : YieldCurve).getRate t = 0 := rfl
    simp only [YieldCurve.getDiscountFactor, hr, neg_zero, zero_mul, h0]
  · by_cases h : t0 < t
    · simp [YieldCurve.getRate, lowerBound, h]
    · simp [YieldCurve.getRate, lowerBound, h]
  · by_cases h : t0 < t
    · right; simp [lowerBound, h]
    · left; simp [lowerBound, h]

/-- C15 at concrete inputs: the empty curve has rate 0 and discount factor 1 at time 7,
and the single node (5, 0.04) gives the rate 0.04 at times 2, 5 and 9. -/
theorem getRate_degraded_curves_witness :
    expStandIn 0 = 1 ∧
    ({ rates := [] } : YieldCurve).getRate 7 = 0 ∧
    ({ rates := [] } : YieldCurve).getDiscountFactor expStandIn 7 = 1 ∧
    ({ rates := [(5, 4 / 100)] } : YieldCurve).getRate 2 = 4 / 100 ∧
    ({ rates := [(5, 4 / 100)] } : YieldCurve).getRate 5 = 4 / 100 ∧
    ({ rates := [(5, 4 / 100)] } : YieldCurve).getRate 9 = 4 / 100 := by
  have h0 : expStandIn 0 = 1 := by norm_num [expStandIn]
  exact ⟨h0, getRate_degraded_curves.1 7, getRate_degraded_curves.2.1 expStandIn 7 h0,
    getRate_degraded_curves.2.2.1 5 (4 / 100) 2, getRate_degraded_curves.2.2.1 5 (4 / 100) 5,
    getRate_degraded_curves.2.2.1 5 (4 / 100) 9⟩

/-- Shifting the rates does not move the iterator `lower_bound(t)`. -/
theorem lowerBound_map_shift (rates : List (ℚ × ℚ)) (shift t : ℚ) :
    lowerBound (rates.map (fun pair => (pair.1, pair.2 + shift))) t
      = ((lowerBound rates t).1.map (fun pair => (pair.1, pair.2 + shift)),
         (lowerBound rates t).2.map (fun pair => (pair.1, pair.2 + shift))) := by
  induction rates with
  | nil => rfl
  | cons hd tl ih =>
    obtain ⟨k, v⟩ := hd
    by_cases hk : k < t
    · simp [lowerBound, hk, ih]
    · simp [lowerBound, hk]

/-- The last element of a mapped non-empty list. -/
theorem getLast_map_shift (l : List (ℚ × ℚ)) (shift : ℚ) (h : l ≠ [])
    (h2 : l.map (fun pair => (pair.1, pair.2 + shift)) ≠ []) :
    (l.map (fun pair => (pair.1, pair.2 + shift))).getLast h2
      = ((l.getLast h).1, (l.getLast h).2 + shift) := by
  induction l with
  | nil => exact absurd rfl h
  | cons hd tl ih =>
    cases tl with
    | nil => rfl
    | cons hd2 tl2 =>
      simp only [List.map_cons, List.getLast_cons_cons]
      exact ih (List.cons_ne_nil _ _) (List.cons_ne_nil _ _)

/-- C16: `parallelShift bps` adds `bps / 10000` to the rate of every node and leaves
the node times unchanged; consequently on every non-empty curve the rate read at any
`t` after the shift is the rate read before plus `bps / 10000`. -/
theorem parallelShift_getRate (c : YieldCurve) (bps : ℚ) :
    (c.parallelShift bps).rates.map Prod.fst = c.rates.map Prod.fst ∧
    (c.parallelShift bps).rates.map Prod.snd
      = c.rates.map (fun pair => pair.2 + bps / 10000) ∧
    (c.rates ≠ [] → ∀ t : ℚ, (c.parallelShift bps).getRate t = c.getRate t + bps / 10000) := by
  refine ⟨?_, ?_, fun hne t => ?_⟩
  · simp [YieldCurve.parallelShift, List.map_map, Function.comp_def]
  · simp [YieldCurve.parallelShift, List.map_map, Function.comp_def]
  · cases hr : c.rates with
    | nil => exact absurd hr hne
    | cons first rest =>
      have hs : (c.parallelShift bps).rates
          = (first.1, first.2 + bps / 10000)
            :: rest.map (fun pair => (pair.1, pair.2 + bps / 10000)) := by
        simp [YieldCurve.parallelShift, hr]
      have hlb := lowerBound_map_shift (first :: rest) (bps / 10000) t
      rw [List.map_cons] at hlb
      rw [getRate_cons _ _ _ t hs, getRate_cons c first rest t hr, hlb]
      have hparts := lowerBound_parts (first :: rest) t
      rcases hlbr : lowerBound (first :: rest) t with ⟨pre, suf⟩
      rw [hlbr] at hparts
      cases pre with
      | nil =>
        cases suf with
        | nil => simp at hparts
        | cons it suf2 => simp
      | cons p before =>
        cases suf with
        | nil =>
          have hl := getLast_map_shift (first :: rest) (bps / 10000)
            (List.cons_ne_nil _ _) (List.cons_ne_nil _ _)
          simp only [List.map_cons, List.map_nil] at hl ⊢
          rw [hl]
        | cons it suf2 =>
          have hl := getLast_map_shift (p :: before) (bps / 10000)
            (List.cons_ne_nil _ _) (List.cons_ne_nil _ _)
          simp only [List.map_cons] at hl ⊢
          rw [hl]
          ring

/-- C16 at a concrete input: a shift of 25 basis points of the example curve moves
the interpolated rate at time 3 from 0.035 to 0.0375 and keeps the node times. -/
theorem parallelShift_getRate_witness :
    sampleCurve.rates ≠ [] ∧
    (sampleCurve.parallelShift 25).rates
      = [(1, 13 / 400), (5, 17 / 400), (10, 21 / 400)] ∧
    (sampleCurve.parallelShift 25).getRate 3 = sampleCurve.getRate 3 + 25 / 10000 := by
  have hne : sampleCurve.rates ≠ [] := by simp [sampleCurve]
  refine ⟨hne, ?_, (parallelShift_getRate sampleCurve 25).2.2 hne 3⟩
  norm_num [YieldCurve.parallelShift, sampleCurve]

/-! ## Lemmas on the coupon loop -/

/-- The coupon loop started at `t` pushes the flows at `t, t + dt, ..., t + (n-1) * dt`
and stops, when exactly these `n` times pass the loop test and the fuel allows the
`n + 1` tests. -/
theorem couponLoop_run (mk : ℚ → CashFlow) (dt bound : ℚ) (n : Nat) :
    ∀ (fuel : Nat) (t : ℚ) (flows : List CashFlow), n + 1 ≤ fuel →
      (∀ i : Nat, i < n → t + (i : ℚ) * dt ≤ bound) → bound < t + (n : ℚ) * dt →
      couponLoop mk dt bound fuel t flows
        = some (flows ++ (List.range n).map (fun (i : Nat) => mk (t + (i : ℚ) * dt))) := by
  induction n with
  | zero =>
    intro fuel t flows hfuel _ hstop
    obtain ⟨f, rfl⟩ : ∃ f, fuel = f + 1 := ⟨fuel - 1, by omega⟩
    have hnot : ¬ t ≤ bound := by
      simp only [Nat.cast_zero, zero_mul, add_zero] at hstop
      exact not_le.mpr hstop
    simp [couponLoop, hnot]
  | succ n ih =>
    intro fuel t flows hfuel hin hstop
    obtain ⟨f, rfl⟩ : ∃ f, fuel = f + 1 := ⟨fuel - 1, by omega⟩
    have h0 : t ≤ bound := by
      have := hin 0 (Nat.succ_pos n)
      simpa using this
    have hrec := ih f (t + dt) (flows ++ [mk t]) (by omega)
      (fun i hi => by
        have := hin (i + 1) (by omega)
        push_cast at this
        linarith)
      (by push_cast at hstop; linarith)
    simp only [couponLoop, if_pos h0, hrec]
    rw [List.range_succ_eq_map, List.map_cons, List.map_map, List.append_assoc]
    simp only [List.singleton_append, Nat.cast_zero, zero_mul, add_zero, Function.comp_def,
      Nat.succ_eq_add_one, Nat.cast_add, Nat.cast_one]
    congr 3
    apply List.map_congr_left
    intro i _
    congr 1
    ring

/-- Adding to the back of a vector changes its last element only. -/
theorem addToBack_append_singleton (l : List CashFlow) (cf : CashFlow) (x : ℚ) :
    addToBack (l ++ [cf]) x = l ++ [{ cf with amount := cf.amount + x }] := by
  induction l with
  | nil => rfl
  | cons a l ih =>
    cases l with
    | nil => rfl
    | cons b l2 =>
      have hstep : addToBack (a :: b :: (l2 ++ [cf])) x
          = a :: addToBack (b :: (l2 ++ [cf])) x := rfl
      simp only [List.cons_append] at ih ⊢
      rw [hstep, ih]

/-- For a positive frequency, `periodCount` periods pass the loop test and the next
one does not. -/
theorem periodCount_spec (maturity : ℚ) (frequency : Int) (hf : 1 ≤ frequency) :
    (∀ i : Nat, i < periodCount maturity frequency →
      1 / (frequency : ℚ) + (i : ℚ) * (1 / (frequency : ℚ)) ≤ maturity + 1 / 1000) ∧
    maturity + 1 / 1000
      < 1 / (frequency : ℚ) + (periodCount maturity frequency : ℚ) * (1 / (frequency : ℚ)) := by
  have hfq : (0 : ℚ) < (frequency : ℚ) := by
    have : (1 : ℚ) ≤ (frequency : ℚ) := by exact_mod_cast hf
    linarith
  refine ⟨fun i hi => ?_, ?_⟩
  · have hle : i + 1 ≤ periodCount maturity frequency := hi
    have hcast : ((i + 1 : Nat) : ℚ) ≤ (maturity + 1 / 1000) * (frequency : ℚ) :=
      (Nat.le_floor_iff' (Nat.succ_ne_zero i)).mp hle
    push_cast at hcast
    have : 1 / (frequency : ℚ) + (i : ℚ) * (1 / (frequency : ℚ))
        = ((i : ℚ) + 1) / (frequency : ℚ) := by ring
    rw [this, div_le_iff₀ hfq]
    exact hcast
  · have hlt : (maturity + 1 / 1000) * (frequency : ℚ)
        < (periodCount maturity frequency : ℚ) + 1 := Nat.lt_floor_add_one _
    have : 1 / (frequency : ℚ) + (periodCount maturity frequency : ℚ) * (1 / (frequency : ℚ))
        = ((periodCount maturity frequency : ℚ) + 1) / (frequency : ℚ) := by ring
    rw [this, lt_div_iff₀ hfq]
    exact hlt

/-- The coupon loop of both coupon-bearing classes, for a positive frequency and enough
fuel: the flows `mk (k * dt)` for `k = 1..periodCount`. -/
theorem couponLoop_schedule (mk : ℚ → CashFlow) (maturity : ℚ) (frequency : Int)
    (hf : 1 ≤ frequency) (fuel : Nat) (hfuel : periodCount maturity frequency + 1 ≤ fuel) :
    couponLoop mk (1 / (frequency : ℚ)) (maturity + 1 / 1000) fuel (1 / (frequency : ℚ)) []
      = some ((List.range (periodCount maturity frequency)).map
          (fun (i : Nat) => mk (((i : ℚ) + 1) * (1 / (frequency : ℚ))))) := by
  obtain ⟨h1, h2⟩ := periodCount_spec maturity frequency hf
  rw [couponLoop_run mk _ _ (periodCount maturity frequency) fuel _ [] hfuel h1 h2,
    List.nil_append]
  congr 1
  apply List.map_congr_left
  intro i _
  congr 1
  ring

/-- At least one period fits exactly when the first payment time passes the loop test. -/
theorem periodCount_pos_iff (maturity : ℚ) (frequency : Int) (hf : 1 ≤ frequency) :
    1 ≤ periodCount maturity frequency ↔ 1 / (frequency : ℚ) ≤ maturity + 1 / 1000 := by
  have hfq : (0 : ℚ) < (frequency : ℚ) := by
    have : (1 : ℚ) ≤ (frequency : ℚ) := by exact_mod_cast hf
    linarith
  unfold periodCount
  rw [Nat.le_floor_iff' one_ne_zero, div_le_iff₀ hfq]
  simp

/-- A schedule of `K + 1` pushed flows with the notional added to the back. -/
theorem addToBack_schedule (mk : ℚ → CashFlow) (notional dt : ℚ) (K : Nat) (hK : 1 ≤ K) :
    addToBack ((List.range K).map (fun (i : Nat) => mk (((i : ℚ) + 1) * dt))) notional
      = (List.range (K - 1)).map (fun (i : Nat) => mk (((i : ℚ) + 1) * dt))
        ++ [{ amount := (mk ((K : ℚ) * dt)).amount + notional
              time := (mk ((K : ℚ) * dt)).time }] := by
  obtain ⟨n, rfl⟩ : ∃ n, K = n + 1 := ⟨K - 1, by omega⟩
  rw [List.range_succ, List.map_append, List.map_singleton, addToBack_append_singleton]
  simp only [Nat.add_sub_cancel, Nat.cast_add, Nat.cast_one]

/-- The flows of a vanilla bond with a positive frequency when at least one period
fits, for enough fuel. -/
theorem vanilla_flows (notional maturity couponRate : ℚ) (frequency : Int) (fuel : Nat)
    (hf : 1 ≤ frequency) (hK : 1 ≤ periodCount maturity frequency)
    (hfuel : periodCount maturity frequency + 1 ≤ fuel) :
    VanillaBond.getCashFlows fuel notional maturity couponRate frequency
      = some (expectedSchedule (fun _ => notional * couponRate / (frequency : ℚ)) notional
          (1 / (frequency : ℚ)) (periodCount maturity frequency)) := by
  have hne : (List.range (periodCount maturity frequency)).map
      (fun (i : Nat) => ({ amount := notional * couponRate * (1 / (frequency : ℚ)),
                           time := ((i : ℚ) + 1) * (1 / (frequency : ℚ)) } : CashFlow)) ≠ [] := by
    intro h
    have hlen := congrArg List.length h
    simp only [List.length_map, List.length_range, List.length_nil] at hlen
    omega
  simp only [VanillaBond.getCashFlows]
  rw [couponLoop_schedule _ maturity frequency hf fuel hfuel]
  simp only [if_pos hne]
  rw [addToBack_schedule _ notional _ _ hK]
  simp only [expectedSchedule, mul_one_div]

/-- The flows of a floating-rate note with a positive frequency when at least one
period fits, for enough fuel. -/
theorem floating_flows (notional maturity spread : ℚ) (frequency : Int) (curve : YieldCurve)
    (fuel : Nat) (hf : 1 ≤ frequency) (hK : 1 ≤ periodCount maturity frequency)
    (hfuel : periodCount maturity frequency + 1 ≤ fuel) :
    FloatingRateNote.getCashFlows fuel notional maturity spread frequency curve
      = some (expectedSchedule
          (fun t => notional * (curve.getRate t + spread) / (frequency : ℚ)) notional
          (1 / (frequency : ℚ)) (periodCount maturity frequency)) := by
  have hne : (List.range (periodCount maturity frequency)).map
      (fun (i : Nat) =>
        ({ amount := notional
              * (curve.getRate (((i : ℚ) + 1) * (1 / (frequency : ℚ))) + spread)
              * (1 / (frequency : ℚ)),
           time := ((i : ℚ) + 1) * (1 / (frequency : ℚ)) } : CashFlow)) ≠ [] := by
    intro h
    have hlen := congrArg List.length h
    simp only [List.length_map, List.length_range, List.length_nil] at hlen
    omega
  have hback := addToBack_schedule
    (fun t => ({ amount := notional * (curve.getRate t + spread) * (1 / (frequency : ℚ)),
                 time := t } : CashFlow))
    notional (1 / (frequency : ℚ)) (periodCount maturity frequency) hK
  simp only [FloatingRateNote.getCashFlows]
  rw [couponLoop_schedule _ maturity frequency hf fuel hfuel]
  simp only [if_pos hne]
  simp only at hback
  rw [hback]
  simp only [expectedSchedule, mul_one_div]

/-- The coupon loop pushes nothing when the first payment time fails the loop test. -/
theorem couponLoop_none_fits (mk : ℚ → CashFlow) (dt bound : ℚ) (fuel : Nat)
    (hfuel : 1 ≤ fuel) (hshort : bound < dt) :
    couponLoop mk dt bound fuel dt [] = some [] := by
  obtain ⟨f, rfl⟩ : ∃ f, fuel = f + 1 := ⟨fuel - 1, by omega⟩
  simp only [couponLoop, if_neg (not_le.mpr hshort)]

/-- The payment times of an expected schedule are `k * dt` for `k = 1..K`. -/
theorem expectedSchedule_times (coupon : ℚ → ℚ) (notional dt : ℚ) (K : Nat) (hK : 1 ≤ K) :
    (expectedSchedule coupon notional dt K).map CashFlow.time
      = (List.range K).map (fun (i : Nat) => ((i : ℚ) + 1) * dt) := by
  obtain ⟨n, rfl⟩ : ∃ n, K = n + 1 := ⟨K - 1, by omega⟩
  simp only [expectedSchedule, Nat.add_sub_cancel, List.map_append, List.map_map,
    List.map_singleton, List.range_succ, Function.comp_def, Nat.cast_add, Nat.cast_one]

/-- The pricing loop accumulates the sum of the discounted amounts. -/
theorem foldl_price_eq (g : CashFlow → ℚ) (flows : List CashFlow) (acc : ℚ) :
    flows.foldl (fun price cf => price + g cf) acc = acc + (flows.map g).sum := by
  induction flows generalizing acc with
  | nil => simp
  | cons cf rest ih =>
    simp only [List.foldl_cons, List.map_cons, List.sum_cons, ih]
    ring

/-- The price is the present value of the generated flows, when they are generated. -/
theorem calculatePrice_eq (expFn : ℚ → ℚ) (fuel : Nat) (b : Bond) (curve : YieldCurve) :
    b.calculatePrice expFn fuel curve
      = (b.getCashFlows fuel curve).map (presentValue expFn curve) := by
  unfold Bond.calculatePrice
  cases b.getCashFlows fuel curve with
  | none => rfl
  | some flows =>
    simp only [Option.map_some', presentValue, YieldCurve.getDiscountFactor]
    rw [foldl_price_eq (fun cf => cf.amount * expFn (-(curve.getRate cf.time) * cf.time)),
      zero_add]

/-- The single fallback flow of a vanilla bond when no period fits. -/
theorem vanilla_flows_degenerate (notional maturity couponRate : ℚ) (frequency : Int)
    (fuel : Nat) (hfuel : 1 ≤ fuel) (hshort : maturity + 1 / 1000 < 1 / (frequency : ℚ)) :
    VanillaBond.getCashFlows fuel notional maturity couponRate frequency
      = some [{ amount := notional + notional * couponRate / (frequency : ℚ),
                time := maturity }] := by
  simp only [VanillaBond.getCashFlows]
  rw [couponLoop_none_fits _ _ _ fuel hfuel hshort]
  simp only [ne_eq, not_true_eq_false, if_false, List.nil_append, mul_one_div]

/-- No flow at all for a floating-rate note when no period fits. -/
theorem floating_flows_degenerate (notional maturity spread : ℚ) (frequency : Int)
    (curve : YieldCurve) (fuel : Nat) (hfuel : 1 ≤ fuel)
    (hshort : maturity + 1 / 1000 < 1 / (frequency : ℚ)) :
    FloatingRateNote.getCashFlows fuel notional maturity spread frequency curve = some [] := by
  simp only [FloatingRateNote.getCashFlows]
  rw [couponLoop_none_fits _ _ _ fuel hfuel hshort]
  simp only [ne_eq, not_true_eq_false, if_false]

/-- C17: `calculatePrice` is the sum over the flows of `getCashFlows` of
`amount * expFn (-getRate(time) * time)` (it returns exactly when `getCashFlows` does,
which for a positive frequency happens with enough fuel); in particular a zero-coupon
bond prices to `notional * expFn (-getRate(maturity) * maturity)`. -/
theorem calculatePrice_present_value (expFn : ℚ → ℚ) (fuel : Nat) (b : Bond)
    (curve : YieldCurve) :
    b.calculatePrice expFn fuel curve
      = (b.getCashFlows fuel curve).map (fun flows =>
          (flows.map (fun cf => cf.amount * expFn (-(curve.getRate cf.time) * cf.time))).sum) ∧
    (b.kind = BondKind.zeroCoupon →
      b.calculatePrice expFn fuel curve
        = some (b.notional * expFn (-(curve.getRate b.maturity) * b.maturity))) ∧
    (∀ couponRate frequency, b.kind = BondKind.vanilla couponRate frequency →
      1 ≤ frequency → periodCount b.maturity frequency + 1 ≤ fuel →
      (b.calculatePrice expFn fuel curve).isSome = true) ∧
    (∀ spread frequency, b.kind = BondKind.floating spread frequency →
      1 ≤ frequency → periodCount b.maturity frequency + 1 ≤ fuel →
      (b.calculatePrice expFn fuel curve).isSome = true) := by
  have hprice := calculatePrice_eq expFn fuel b curve
  refine ⟨hprice, fun hz => ?_, fun couponRate frequency hk hf hfuel => ?_,
    fun spread frequency hk hf hfuel => ?_⟩
  · rw [hprice]
    simp [Bond.getCashFlows, hz, ZeroCouponBond.getCashFlows, presentValue]
  · rw [hprice]
    simp only [Bond.getCashFlows, hk]
    by_cases hK : 1 ≤ periodCount b.maturity frequency
    · rw [vanilla_flows _ _ _ _ fuel hf hK hfuel]; rfl
    · have hshort : b.maturity + 1 / 1000 < 1 / (frequency : ℚ) :=
        not_le.mp (fun h => hK ((periodCount_pos_iff b.maturity frequency hf).mpr h))
      rw [vanilla_flows_degenerate _ _ _ _ fuel (by omega) hshort]; rfl
  · rw [hprice]
    simp only [Bond.getCashFlows, hk]
    by_cases hK : 1 ≤ periodCount b.maturity frequency
    · rw [floating_flows _ _ _ _ curve fuel hf hK hfuel]; rfl
    · have hshort : b.maturity + 1 / 1000 < 1 / (frequency : ℚ) :=
        not_le.mp (fun h => hK ((periodCount_pos_iff b.maturity frequency hf).mpr h))
      rw [floating_flows_degenerate _ _ _ _ curve fuel (by omega) hshort]; rfl

/-- C17 at the documented example: the zero-coupon bond of notional 1000 and maturity 10
on a flat curve at 0.05 prices to `1000 * expFn (-0.5)`. -/
theorem calculatePrice_present_value_witness :
    zero10Y.kind = BondKind.zeroCoupon ∧
    flatCurve.getRate 10 = 5 / 100 ∧
    zero10Y.calculatePrice expStandIn 0 flatCurve = some (1000 * expStandIn (-(1 / 2))) := by
  have hr : flatCurve.getRate 10 = 5 / 100 := by
    norm_num [YieldCurve.getRate, lowerBound, flatCurve]
  refine ⟨rfl, hr, ?_⟩
  rw [(calculatePrice_present_value expStandIn 0 zero10Y flatCurve).2.1 rfl]
  have hm : zero10Y.maturity = 10 := rfl
  have hn : zero10Y.notional = 1000 := rfl
  rw [hm, hn, hr]
  norm_num

/-- Every branch of `addTrade` adds the signed trade quantity. -/
theorem addTrade_quantity (p : Position) (t : Trade) :
    (p.addTrade t).quantity = p.quantity + t.quantity := by
  by_cases h0 : t.quantity = 0
  · rw [addTrade_zero_branch p t h0, h0, add_zero]
  · by_cases hg : growthGuard p t
    · rw [addTrade_growth_branch p t h0 hg]
    · by_cases hflip : |t.quantity| > |p.quantity|
      · rw [addTrade_flip_branch p t h0 hg hflip]
      · rw [addTrade_close_branch p t h0 hg (not_lt.mp hflip)]

/-- Quantities add up along any sequence of trades. -/
theorem addTrades_quantity (ts : List Trade) :
    ∀ p : Position, (p.addTrades ts).quantity = p.quantity + totalQuantity ts := by
  induction ts with
  | nil => intro p; simp [Position.addTrades, totalQuantity]
  | cons t ts ih =>
    intro p
    rw [addTrades_cons, ih (p.addTrade t), addTrade_quantity]
    simp only [totalQuantity, List.map_cons, List.sum_cons]
    ring

/-- C26: quantity conservation. In each branch of `addTrade` (zero trade, growth,
close without flip, sign flip) the resulting quantity is `quantity + tradeQty`; hence
after any finite sequence of trades applied to a freshly registered position the
quantity is the sum of the signed trade quantities. -/
theorem addTrade_quantity_conservation :
    (∀ (p : Position) (t : Trade), t.quantity = 0 →
      (p.addTrade t).quantity = p.quantity + t.quantity) ∧
    (∀ (p : Position) (t : Trade), t.quantity ≠ 0 → growthGuard p t →
      (p.addTrade t).quantity = p.quantity + t.quantity) ∧
    (∀ (p : Position) (t : Trade), t.quantity ≠ 0 → ¬ growthGuard p t →
      |t.quantity| ≤ |p.quantity| → (p.addTrade t).quantity = p.quantity + t.quantity) ∧
    (∀ (p : Position) (t : Trade), t.quantity ≠ 0 → ¬ growthGuard p t →
      |t.quantity| > |p.quantity| → (p.addTrade t).quantity = p.quantity + t.quantity) ∧
    (∀ (p : Position) (t : Trade), (p.addTrade t).quantity = p.quantity + t.quantity) ∧
    (∀ (bond : Bond) (ts : List Trade),
      ((Position.new bond).addTrades ts).quantity = totalQuantity ts) := by
  refine ⟨fun p t _ => addTrade_quantity p t, fun p t _ _ => addTrade_quantity p t,
    fun p t _ _ _ => addTrade_quantity p t, fun p t _ _ _ => addTrade_quantity p t,
    addTrade_quantity, fun bond ts => ?_⟩
  rw [addTrades_quantity ts (Position.new bond)]
  simp [Position.new]

/-- C26 at a concrete input: BUY 100, SELL 150 (a flip), BUY 50, SELL 40 from a fresh
position leave the quantity 100 - 150 + 50 - 40 = -40. -/
theorem addTrade_quantity_conservation_witness :
    ((Position.new sampleBond).addTrades [buy100, sell150, buy50, sell40]).quantity = -40 := by
  rw [addTrade_quantity_conservation.2.2.2.2.2 sampleBond [buy100, sell150, buy50, sell40]]
  norm_num [totalQuantity, buy100, sell150, buy50, sell40]

/-- C27: the average-cost division of `addTrade` is never by zero. Whenever the growth
branch is taken (trade quantity not zero and the guard `quantity == 0 || sameSign` of
the source true) the divisor `quantity + tradeQty` is not zero and the new average cost
is the quotient by it; in every other case no division is executed and the average cost
is left as it was. -/
theorem addTrade_division_never_by_zero (p : Position) (t : Trade) :
    (t.quantity ≠ 0 →
      (p.quantity = 0 ∨
        ((p.quantity ≥ 0 ∧ t.quantity ≥ 0) ∨ (p.quantity < 0 ∧ t.quantity < 0))) →
      p.quantity + t.quantity ≠ 0 ∧
      (p.addTrade t).averageCost
        = (p.quantity * p.averageCost + t.quantity * t.price)
            / (p.quantity + t.quantity)) ∧
    (¬ (t.quantity ≠ 0 ∧
        (p.quantity = 0 ∨
          ((p.quantity ≥ 0 ∧ t.quantity ≥ 0) ∨ (p.quantity < 0 ∧ t.quantity < 0)))) →
      (p.addTrade t).averageCost = p.averageCost) := by
  refine ⟨fun h0 hg => ⟨?_, ?_⟩, fun hn => ?_⟩
  · rcases hg with h | ⟨h1, h2⟩ | ⟨h1, h2⟩
    · rw [h, zero_add]; exact h0
    · have : 0 < t.quantity := lt_of_le_of_ne h2 (Ne.symm h0)
      exact ne_of_gt (add_pos_of_nonneg_of_pos h1 this)
    · exact ne_of_lt (add_neg h1 h2)
  · rw [addTrade_growth_branch p t h0 hg]
  · by_cases h0 : t.quantity = 0
    · rw [addTrade_zero_branch p t h0]
    · have hg : ¬ growthGuard p t := fun hg => hn ⟨h0, hg⟩
      by_cases hflip : |t.quantity| > |p.quantity|
      · rw [addTrade_flip_branch p t h0 hg hflip]
      · rw [addTrade_close_branch p t h0 hg (not_lt.mp hflip)]

/-- C27 at concrete inputs: BUY 50 at 106 on the long lot of 100 at 100 divides by
150, and on a flat position carrying a stale average cost it divides by 50. -/
theorem addTrade_division_never_by_zero_witness :
    longLot.quantity + buy50.quantity = 150 ∧
    (longLot.addTrade buy50).averageCost = 102 ∧
    ({ longLot with quantity := 0 } : Position).quantity + buy50.quantity = 50 ∧
    (({ longLot with quantity := 0 } : Position).addTrade buy50).averageCost = 106 := by
  have h1 := (addTrade_division_never_by_zero longLot buy50).1 (by norm_num [buy50])
    (Or.inr (Or.inl ⟨by norm_num [longLot], by norm_num [buy50]⟩))
  have h2 := (addTrade_division_never_by_zero ({ longLot with quantity := 0 } : Position)
    buy50).1 (by norm_num [buy50]) (Or.inl rfl)
  refine ⟨by norm_num [longLot, buy50], ?_, by norm_num [buy50], ?_⟩
  · rw [h1.2]; norm_num [longLot, buy50]
  · rw [h2.2]; norm_num [longLot, buy50]

/-- C28: `bookTrade` on a registered ticker touches only the traded position. The
position of the traded ticker becomes `addTrade` of its previous state, the position of
every other ticker is unchanged, the registered tickers are the same, `riskAversion` is
unchanged and no failure is reported; `realizedSpreadPnL` is the only other member
written. -/
theorem bookTrade_frame (b : TradingBook) (t : Trade) (midPrice : ℚ) (pos : Position)
    (hreg : mapFind b.positions t.bondName = some pos) :
    mapFind (b.bookTrade t midPrice).book.positions t.bondName = some (pos.addTrade t) ∧
    (∀ k : String, k ≠ t.bondName →
      mapFind (b.bookTrade t midPrice).book.positions k = mapFind b.positions k) ∧
    (b.bookTrade t midPrice).book.positions.map Prod.fst = b.positions.map Prod.fst ∧
    (∀ k : String, mapFind (b.bookTrade t midPrice).book.positions k ≠ none
      ↔ mapFind b.positions k ≠ none) ∧
    (b.bookTrade t midPrice).book.riskAversion = b.riskAversion ∧
    (b.bookTrade t midPrice).error = none := by
  have hbook : (b.bookTrade t midPrice).book.positions
      = mapAdjust b.positions t.bondName (fun p => p.addTrade t) := by
    simp only [TradingBook.bookTrade, hreg]
  refine ⟨?_, fun k hk => ?_, ?_, fun k => ?_, ?_, ?_⟩
  · rw [hbook, mapFind_mapAdjust, if_pos rfl, hreg]; rfl
  · rw [hbook, mapFind_mapAdjust, if_neg hk]
  · rw [hbook, mapAdjust_keys]
  · rw [hbook, mapFind_mapAdjust]
    by_cases hk : k = t.bondName
    · rw [if_pos hk, hk, hreg]; simp
    · rw [if_neg hk]
  · simp only [TradingBook.bookTrade, hreg]
  · simp only [TradingBook.bookTrade, hreg]

/-- C28 at a concrete input: SELL 40 at 110 on UST10 in a book that also holds FRN5
updates the UST10 position (quantity 60, realized 400) and leaves FRN5 as it was. -/
theorem bookTrade_frame_witness :
    mapFind twoBook.positions sell40.bondName = some longLot ∧
    mapFind (twoBook.bookTrade sell40 109).book.positions "UST10"
      = some { instrument := sampleBond, quantity := 60, averageCost := 100,
               realizedPnL := 400 } ∧
    mapFind (twoBook.bookTrade sell40 109).book.positions "FRN5"
      = some (Position.new otherBond) ∧
    (twoBook.bookTrade sell40 109).book.riskAversion = 1 / 100 := by
  have hreg : mapFind twoBook.positions sell40.bondName = some longLot := by
    simp [mapFind, twoBook, sell40]
  obtain ⟨h1, h2, -, -, h5, -⟩ := bookTrade_frame twoBook sell40 109 longLot hreg
  refine ⟨hreg, ?_, ?_, ?_⟩
  · have hname : sell40.bondName = "UST10" := rfl
    rw [← hname, h1]
    norm_num [Position.addTrade, longLot, sell40, abs_of_neg, abs_of_pos]
  · rw [h2 "FRN5" (by simp [sell40])]
    simp [mapFind, twoBook]
  · rw [h5]; rfl

/-! ## Lemmas on the generated flows -/

/-- With a valid frequency and enough fuel `getCashFlows` returns. -/
theorem getCashFlows_returns (b : Bond) (curve : YieldCurve) (fuel : Nat)
    (hf : b.validFrequency) (hfuel : b.fuelNeeded ≤ fuel) :
    ∃ flows, b.getCashFlows fuel curve = some flows := by
  unfold Bond.validFrequency at hf
  unfold Bond.fuelNeeded at hfuel
  cases hk : b.kind with
  | zeroCoupon =>
    exact ⟨ZeroCouponBond.getCashFlows b.notional b.maturity,
      by simp only [Bond.getCashFlows, hk]⟩
  | vanilla couponRate frequency =>
    rw [hk] at hf hfuel
    simp only at hf hfuel
    simp only [Bond.getCashFlows, hk]
    by_cases hK : 1 ≤ periodCount b.maturity frequency
    · exact ⟨_, vanilla_flows _ _ _ _ fuel hf hK hfuel⟩
    · have hshort : b.maturity + 1 / 1000 < 1 / (frequency : ℚ) :=
        not_le.mp (fun h => hK ((periodCount_pos_iff b.maturity frequency hf).mpr h))
      exact ⟨_, vanilla_flows_degenerate _ _ _ _ fuel (by omega) hshort⟩
  | floating spread frequency =>
    rw [hk] at hf hfuel
    simp only at hf hfuel
    simp only [Bond.getCashFlows, hk]
    by_cases hK : 1 ≤ periodCount b.maturity frequency
    · exact ⟨_, floating_flows _ _ _ _ curve fuel hf hK hfuel⟩
    · have hshort : b.maturity + 1 / 1000 < 1 / (frequency : ℚ) :=
        not_le.mp (fun h => hK ((periodCount_pos_iff b.maturity frequency hf).mpr h))
      exact ⟨_, floating_flows_degenerate _ _ _ _ curve fuel (by omega) hshort⟩

/-- With a valid frequency and enough fuel `calculatePrice` returns the present value
of the generated flows. -/
theorem calculatePrice_returns (expFn : ℚ → ℚ) (b : Bond) (curve : YieldCurve) (fuel : Nat)
    (hf : b.validFrequency) (hfuel : b.fuelNeeded ≤ fuel) :
    ∃ flows, b.getCashFlows fuel curve = some flows ∧
      b.calculatePrice expFn fuel curve = some (presentValue expFn curve flows) := by
  obtain ⟨flows, hflows⟩ := getCashFlows_returns b curve fuel hf hfuel
  exact ⟨flows, hflows, by rw [calculatePrice_eq, hflows]; rfl⟩

/-- The shifted copy made by `calculatePV01` is the base curve with every rate
increased by 1/10000. -/
theorem parallelShift_one (baseCurve : YieldCurve) :
    baseCurve.parallelShift 1 = shiftedByOneBp baseCurve := by
  simp only [YieldCurve.parallelShift, shiftedByOneBp]

/-- The value of `calculatePV01` when both prices are returned. -/
theorem calculatePV01_value (expFn : ℚ → ℚ) (fuel : Nat) (bond : Bond)
    (baseCurve : YieldCurve) (priceBase priceShock : ℚ)
    (hbase : bond.calculatePrice expFn fuel baseCurve = some priceBase)
    (hshock : bond.calculatePrice expFn fuel (shiftedByOneBp baseCurve) = some priceShock) :
    (RiskEngine.calculatePV01 expFn fuel bond baseCurve).value
      = some (priceShock - priceBase) := by
  simp only [RiskEngine.calculatePV01, hbase, parallelShift_one, hshock]

/-! ## Theorems: risk engine and position valuation -/

/-- C22: `calculatePV01 bond baseCurve` is `calculatePrice bond S - calculatePrice bond
baseCurve`, where `S` is `baseCurve` with every node rate increased by 1/10000 (it
returns exactly when both prices do, which with a valid frequency and enough fuel they
do); the shift is applied to a copy, the nodes of `baseCurve` when the call returns are
those before it. -/
theorem calculatePV01_definition (expFn : ℚ → ℚ) (fuel : Nat) (bond : Bond)
    (baseCurve : YieldCurve) :
    (∀ priceBase priceShock : ℚ,
      bond.calculatePrice expFn fuel baseCurve = some priceBase →
      bond.calculatePrice expFn fuel (shiftedByOneBp baseCurve) = some priceShock →
      (RiskEngine.calculatePV01 expFn fuel bond baseCurve).value
        = some (priceShock - priceBase)) ∧
    ((RiskEngine.calculatePV01 expFn fuel bond baseCurve).value = none ↔
      (bond.calculatePrice expFn fuel baseCurve = none ∨
        bond.calculatePrice expFn fuel (shiftedByOneBp baseCurve) = none)) ∧
    (bond.validFrequency → bond.fuelNeeded ≤ fuel →
      ∃ priceBase priceShock : ℚ,
        bond.calculatePrice expFn fuel baseCurve = some priceBase ∧
        bond.calculatePrice expFn fuel (shiftedByOneBp baseCurve) = some priceShock ∧
        (RiskEngine.calculatePV01 expFn fuel bond baseCurve).value
          = some (priceShock - priceBase)) ∧
    (RiskEngine.calculatePV01 expFn fuel bond baseCurve).baseCurve = baseCurve ∧
    (RiskEngine.calculatePV01 expFn fuel bond baseCurve).baseCurve.rates
      = baseCurve.rates := by
  have hframe : (RiskEngine.calculatePV01 expFn fuel bond baseCurve).baseCurve
      = baseCurve := by
    unfold RiskEngine.calculatePV01
    cases bond.calculatePrice expFn fuel baseCurve with
    | none => rfl
    | some priceBase =>
      simp only
      cases bond.calculatePrice expFn fuel (baseCurve.parallelShift 1) with
      | none => rfl
      | some priceShock => rfl
  refine ⟨fun priceBase priceShock hbase hshock =>
      calculatePV01_value expFn fuel bond baseCurve priceBase priceShock hbase hshock,
    ?_, fun hf hfuel => ?_, hframe, by rw [hframe]⟩
  · cases hbase : bond.calculatePrice expFn fuel baseCurve with
    | none => simp [RiskEngine.calculatePV01, hbase]
    | some priceBase =>
      cases hshock : bond.calculatePrice expFn fuel (shiftedByOneBp baseCurve) with
      | none => simp [RiskEngine.calculatePV01, hbase, parallelShift_one, hshock]
      | some priceShock =>
        simp [RiskEngine.calculatePV01, hbase, parallelShift_one, hshock]
  · obtain ⟨_, _, hbase⟩ := calculatePrice_returns expFn bond baseCurve fuel hf hfuel
    obtain ⟨_, _, hshock⟩ :=
      calculatePrice_returns expFn bond (shiftedByOneBp baseCurve) fuel hf hfuel
    exact ⟨_, _, hbase, hshock, calculatePV01_value expFn fuel bond baseCurve _ _ hbase hshock⟩

/-- C22 at a concrete input: for the zero-coupon bond of notional 1000 and maturity 10
on the flat curve at 0.05 the value is `1000 * expFn (-0.501) - 1000 * expFn (-0.5)`,
and the base curve is returned as it was. -/
theorem calculatePV01_definition_witness :
    zero10Y.calculatePrice expStandIn 0 flatCurve = some (1000 * expStandIn (-(1 / 2))) ∧
    zero10Y.calculatePrice expStandIn 0 (shiftedByOneBp flatCurve)
      = some (1000 * expStandIn (-(501 / 1000))) ∧
    (RiskEngine.calculatePV01 expStandIn 0 zero10Y flatCurve).value
      = some (1000 * expStandIn (-(501 / 1000)) - 1000 * expStandIn (-(1 / 2))) ∧
    (RiskEngine.calculatePV01 expStandIn 0 zero10Y flatCurve).baseCurve = flatCurve := by
  have hr : flatCurve.getRate 10 = 5 / 100 := by
    norm_num [YieldCurve.getRate, lowerBound, flatCurve]
  have hr2 : (shiftedByOneBp flatCurve).getRate 10 = 501 / 10000 := by
    norm_num [YieldCurve.getRate, lowerBound, flatCurve, shiftedByOneBp]
  have hbase : zero10Y.calculatePrice expStandIn 0 flatCurve
      = some (1000 * expStandIn (-(1 / 2))) := by
    rw [calculatePrice_eq]
    simp only [Bond.getCashFlows, zero10Y, ZeroCouponBond.getCashFlows, Option.map_some',
      presentValue, List.map_cons, List.map_nil, List.sum_cons, List.sum_nil, hr]
    norm_num
  have hshock : zero10Y.calculatePrice expStandIn 0 (shiftedByOneBp flatCurve)
      = some (1000 * expStandIn (-(501 / 1000))) := by
    rw [calculatePrice_eq]
    simp only [Bond.getCashFlows, zero10Y, ZeroCouponBond.getCashFlows, Option.map_some',
      presentValue, List.map_cons, List.map_nil, List.sum_cons, List.sum_nil, hr2]
    norm_num
  exact ⟨hbase, hshock,
    (calculatePV01_definition expStandIn 0 zero10Y flatCurve).1 _ _ hbase hshock,
    (calculatePV01_definition expStandIn 0 zero10Y flatCurve).2.2.2.1⟩

/-- C24: position valuation projections. `getMarketValue` is `quantity * price`,
`getTotalPV01` is `quantity * calculatePV01` and `getUnrealizedPnL` is
`(price - averageCost) * quantity`, each returning exactly when the price (the PV01)
does, which with a valid frequency and enough fuel it does; hence
`getUnrealizedPnL = getMarketValue - quantity * averageCost`, and a flat position
reports 0 for all three whatever its average cost. -/
theorem position_valuation_projections (expFn : ℚ → ℚ) (fuel : Nat) (p : Position)
    (market : YieldCurve) :
    p.getMarketValue expFn fuel market
      = (p.instrument.calculatePrice expFn fuel market).map
          (fun price => p.quantity * price) ∧
    p.getTotalPV01 expFn fuel market
      = (RiskEngine.calculatePV01 expFn fuel p.instrument market).value.map
          (fun unitPV01 => p.quantity * unitPV01) ∧
    p.getUnrealizedPnL expFn fuel market
      = (p.instrument.calculatePrice expFn fuel market).map
          (fun price => (price - p.averageCost) * p.quantity) ∧
    (∀ marketValue : ℚ, p.getMarketValue expFn fuel market = some marketValue →
      p.getUnrealizedPnL expFn fuel market
        = some (marketValue - p.quantity * p.averageCost)) ∧
    (p.quantity = 0 → ∀ price : ℚ,
      p.instrument.calculatePrice expFn fuel market = some price →
      p.getMarketValue expFn fuel market = some 0 ∧
      p.getUnrealizedPnL expFn fuel market = some 0) ∧
    (p.quantity = 0 → ∀ unitPV01 : ℚ,
      (RiskEngine.calculatePV01 expFn fuel p.instrument market).value = some unitPV01 →
      p.getTotalPV01 expFn fuel market = some 0) ∧
    (p.instrument.validFrequency → p.instrument.fuelNeeded ≤ fuel →
      (p.getMarketValue expFn fuel market).isSome = true ∧
      (p.getTotalPV01 expFn fuel market).isSome = true ∧
      (p.getUnrealizedPnL expFn fuel market).isSome = true) := by
  have hmv : p.getMarketValue expFn fuel market
      = (p.instrument.calculatePrice expFn fuel market).map
          (fun price => p.quantity * price) := by
    unfold Position.getMarketValue
    cases p.instrument.calculatePrice expFn fuel market with
    | none => rfl
    | some price => rfl
  have hpv : p.getTotalPV01 expFn fuel market
      = (RiskEngine.calculatePV01 expFn fuel p.instrument market).value.map
          (fun unitPV01 => p.quantity * unitPV01) := by
    unfold Position.getTotalPV01
    cases (RiskEngine.calculatePV01 expFn fuel p.instrument market).value with
    | none => rfl
    | some v => rfl
  have hun : p.getUnrealizedPnL expFn fuel market
      = (p.instrument.calculatePrice expFn fuel market).map
          (fun price => (price - p.averageCost) * p.quantity) := by
    unfold Position.getUnrealizedPnL
    cases p.instrument.calculatePrice expFn fuel market with
    | none => rfl
    | some price => rfl
  refine ⟨hmv, hpv, hun, fun marketValue hm => ?_, fun hq price hprice => ?_,
    fun hq unitPV01 hv => ?_, fun hf hfuel => ?_⟩
  · rw [hmv] at hm
    rw [hun]
    cases hprice : p.instrument.calculatePrice expFn fuel market with
    | none => rw [hprice] at hm; simp at hm
    | some price =>
      rw [hprice] at hm
      simp only [Option.map_some', Option.some.injEq] at hm ⊢
      rw [← hm]; ring
  · rw [hmv, hun, hprice, hq]
    simp
  · rw [hpv, hv, hq]
    simp
  · obtain ⟨_, _, hbase⟩ :=
      calculatePrice_returns expFn p.instrument market fuel hf hfuel
    obtain ⟨_, _, hshock⟩ :=
      calculatePrice_returns expFn p.instrument (shiftedByOneBp market) fuel hf hfuel
    rw [hmv, hpv, hun, hbase,
      calculatePV01_value expFn fuel p.instrument market _ _ hbase hshock]
    exact ⟨rfl, rfl, rfl⟩

/-- C24 at concrete inputs (the rational stand-in for `exp` gives the zero-coupon
example bond the price 625): 3 units at average cost 600 have market value 1875 and
unrealized P&L 75 = 1875 - 3 * 600; a flat position with the stale average cost 100
reports 0 for market value, unrealized P&L and total PV01. -/
theorem position_valuation_projections_witness :
    zero10Y.calculatePrice expStandIn 0 flatCurve = some 625 ∧
    zeroLot.getMarketValue expStandIn 0 flatCurve = some 1875 ∧
    zeroLot.getUnrealizedPnL expStandIn 0 flatCurve = some 75 ∧
    flatLot.quantity = 0 ∧
    flatLot.getMarketValue expStandIn 0 flatCurve = some 0 ∧
    flatLot.getUnrealizedPnL expStandIn 0 flatCurve = some 0 ∧
    flatLot.getTotalPV01 expStandIn 0 flatCurve = some 0 := by
  have hr : flatCurve.getRate 10 = 5 / 100 := by
    norm_num [YieldCurve.getRate, lowerBound, flatCurve]
  have hprice : zero10Y.calculatePrice expStandIn 0 flatCurve = some 625 := by
    rw [calculatePrice_eq]
    simp only [Bond.getCashFlows, zero10Y, ZeroCouponBond.getCashFlows, Option.map_some',
      presentValue, List.map_cons, List.map_nil, List.sum_cons, List.sum_nil, hr]
    norm_num [expStandIn]
  obtain ⟨hmv, -, -, hrel, -, -, -⟩ :=
    position_valuation_projections expStandIn 0 zeroLot flatCurve
  obtain ⟨-, -, -, -, hflat, hflatPV, hret⟩ :=
    position_valuation_projections expStandIn 0 flatLot flatCurve
  have hzmv : zeroLot.getMarketValue expStandIn 0 flatCurve = some 1875 := by
    rw [hmv]
    have : zeroLot.instrument = zero10Y := rfl
    rw [this, hprice]
    norm_num [zeroLot]
  have hpv := (hret trivial (Nat.zero_le 0)).2.1
  obtain ⟨v, hv⟩ := Option.isSome_iff_exists.mp hpv
  refine ⟨hprice, hzmv, ?_, rfl, (hflat rfl 625 hprice).1, (hflat rfl 625 hprice).2, ?_⟩
  · rw [hrel 1875 hzmv]; norm_num [zeroLot]
  · rw [hv]
    cases hu : (RiskEngine.calculatePV01 expStandIn 0 flatLot.instrument flatCurve).value with
    | none =>
      have := (position_valuation_projections expStandIn 0 flatLot flatCurve).2.1
      rw [hu, hv] at this
      simp at this
    | some u =>
      have := hflatPV rfl u hu
      rw [hv] at this
      exact this

/-! ## Theorems: shape of the cash-flow sequence -/

/-- The times `k * dt`, `k = 1..K`, are strictly increasing, positive and within the
bound when the step is positive and each of them passes the loop test. -/
theorem schedule_times_ordered (dt bound : ℚ) (K : Nat) (hdt : 0 < dt)
    (hall : ∀ i : Nat, i < K → ((i : ℚ) + 1) * dt ≤ bound) :
    ((List.range K).map (fun (i : Nat) => ((i : ℚ) + 1) * dt)).Pairwise (· < ·) ∧
    ∀ t ∈ (List.range K).map (fun (i : Nat) => ((i : ℚ) + 1) * dt), 0 < t ∧ t ≤ bound := by
  refine ⟨?_, fun t ht => ?_⟩
  · rw [List.pairwise_map]
    refine List.Pairwise.imp ?_ (List.pairwise_lt_range K)
    intro a b hab
    have : (a : ℚ) < (b : ℚ) := by exact_mod_cast hab
    nlinarith
  · obtain ⟨i, hi, rfl⟩ := List.mem_map.mp ht
    have hiK : i < K := List.mem_range.mp hi
    refine ⟨?_, hall i hiK⟩
    have : (0 : ℚ) ≤ (i : ℚ) := Nat.cast_nonneg i
    positivity

/-- The flows of an expected schedule inherit the order and bounds of its times. -/
theorem expectedSchedule_ordered (coupon : ℚ → ℚ) (notional dt bound : ℚ) (K : Nat)
    (hK : 1 ≤ K) (hdt : 0 < dt) (hall : ∀ i : Nat, i < K → ((i : ℚ) + 1) * dt ≤ bound) :
    ((expectedSchedule coupon notional dt K).map CashFlow.time).Pairwise (· < ·) ∧
    ∀ cf ∈ expectedSchedule coupon notional dt K, 0 < cf.time ∧ cf.time ≤ bound := by
  obtain ⟨h1, h2⟩ := schedule_times_ordered dt bound K hdt hall
  rw [expectedSchedule_times coupon notional dt K hK]
  refine ⟨h1, fun cf hcf => h2 cf.time ?_⟩
  rw [← expectedSchedule_times coupon notional dt K hK]
  exact List.mem_map_of_mem CashFlow.time hcf

/-- With a valid frequency, a positive maturity and enough fuel, `getCashFlows` returns
one list, whatever the fuel, with strictly increasing positive times within
`maturity + 0.001`. -/
theorem getCashFlows_ordered (b : Bond) (curve : YieldCurve) (hf : b.validFrequency)
    (hm : 0 < b.maturity) :
    ∃ flows : List CashFlow,
      (∀ fuel : Nat, b.fuelNeeded ≤ fuel → b.getCashFlows fuel curve = some flows) ∧
      (flows.map CashFlow.time).Pairwise (· < ·) ∧
      ∀ cf ∈ flows, 0 < cf.time ∧ cf.time ≤ b.maturity + 1 / 1000 := by
  have hsingle : ∀ amount : ℚ,
      (([{ amount := amount, time := b.maturity }] : List CashFlow).map
        CashFlow.time).Pairwise (· < ·) ∧
      ∀ cf ∈ ([{ amount := amount, time := b.maturity }] : List CashFlow),
        0 < cf.time ∧ cf.time ≤ b.maturity + 1 / 1000 := by
    intro amount
    refine ⟨by simp, fun cf hcf => ?_⟩
    rw [List.mem_singleton.mp hcf]
    exact ⟨hm, by simp only; linarith⟩
  unfold Bond.validFrequency at hf
  unfold Bond.fuelNeeded
  cases hk : b.kind with
  | zeroCoupon =>
    refine ⟨ZeroCouponBond.getCashFlows b.notional b.maturity, fun fuel _ => ?_,
      hsingle b.notional⟩
    simp only [Bond.getCashFlows, hk]
  | vanilla couponRate frequency =>
    rw [hk] at hf
    simp only at hf ⊢
    have hfq : (0 : ℚ) < 1 / (frequency : ℚ) := by
      have : (1 : ℚ) ≤ (frequency : ℚ) := by exact_mod_cast hf
      positivity
    by_cases hK : 1 ≤ periodCount b.maturity frequency
    · refine ⟨expectedSchedule (fun _ => b.notional * couponRate / (frequency : ℚ))
          b.notional (1 / (frequency : ℚ)) (periodCount b.maturity frequency),
        fun fuel hfuel => ?_, expectedSchedule_ordered _ b.notional _
        (b.maturity + 1 / 1000) _ hK hfq (fun i hi => ?_)⟩
      · simp only [Bond.getCashFlows, hk]
        exact vanilla_flows b.notional b.maturity couponRate frequency fuel hf hK hfuel
      · have := (periodCount_spec b.maturity frequency hf).1 i hi
        linarith
    · have hshort : b.maturity + 1 / 1000 < 1 / (frequency : ℚ) :=
        not_le.mp (fun h => hK ((periodCount_pos_iff b.maturity frequency hf).mpr h))
      refine ⟨[{ amount := b.notional + b.notional * couponRate / (frequency : ℚ),
                 time := b.maturity }], fun fuel hfuel => ?_, hsingle _⟩
      simp only [Bond.getCashFlows, hk]
      exact vanilla_flows_degenerate b.notional b.maturity couponRate frequency fuel
        (by omega) hshort
  | floating spread frequency =>
    rw [hk] at hf
    simp only at hf ⊢
    have hfq : (0 : ℚ) < 1 / (frequency : ℚ) := by
      have : (1 : ℚ) ≤ (frequency : ℚ) := by exact_mod_cast hf
      positivity
    by_cases hK : 1 ≤ periodCount b.maturity frequency
    · refine ⟨expectedSchedule
          (fun t => b.notional * (curve.getRate t + spread) / (frequency : ℚ))
          b.notional (1 / (frequency : ℚ)) (periodCount b.maturity frequency),
        fun fuel hfuel => ?_, expectedSchedule_ordered _ b.notional _
        (b.maturity + 1 / 1000) _ hK hfq (fun i hi => ?_)⟩
      · simp only [Bond.getCashFlows, hk]
        exact floating_flows b.notional b.maturity spread frequency curve fuel hf hK hfuel
      · have := (periodCount_spec b.maturity frequency hf).1 i hi
        linarith
    · have hshort : b.maturity + 1 / 1000 < 1 / (frequency : ℚ) :=
        not_le.mp (fun h => hK ((periodCount_pos_iff b.maturity frequency hf).mpr h))
      refine ⟨[], fun fuel hfuel => ?_, by simp, by simp⟩
      simp only [Bond.getCashFlows, hk]
      exact floating_flows_degenerate b.notional b.maturity spread frequency curve fuel
        (by omega) hshort

/-- C21: for every bond (vanilla, zero-coupon, floating) with maturity above 0 and
frequency at least 1, and every curve, the schedule loop terminates: every fuel from
`fuelNeeded` on makes `getCashFlows` return the same finite list, whose times are
strictly increasing, all above 0 and at most `maturity + 0.001`. -/
theorem getCashFlows_finite_ordered (b : Bond) (curve : YieldCurve)
    (hf : b.validFrequency) (hm : 0 < b.maturity) :
    ∃ flows : List CashFlow,
      (∀ fuel : Nat, b.fuelNeeded ≤ fuel → b.getCashFlows fuel curve = some flows) ∧
      (flows.map CashFlow.time).Pairwise (· < ·) ∧
      (∀ cf ∈ flows, 0 < cf.time) ∧
      (∀ cf ∈ flows, cf.time ≤ b.maturity + 1 / 1000) := by
  obtain ⟨flows, h1, h2, h3⟩ := getCashFlows_ordered b curve hf hm
  exact ⟨flows, h1, h2, fun cf hcf => (h3 cf hcf).1, fun cf hcf => (h3 cf hcf).2⟩

/-- C21 at concrete inputs: the vanilla example bond returns with fuel 6 its five
flows at the times 1 < 2 < 3 < 4 < 5, all above 0 and at most 5.001. -/
theorem getCashFlows_finite_ordered_witness :
    vanilla5Y.validFrequency ∧ 0 < vanilla5Y.maturity ∧ vanilla5Y.fuelNeeded = 6 ∧
    ∃ flows : List CashFlow,
      vanilla5Y.getCashFlows 6 sampleCurve = some flows ∧
      flows.map CashFlow.time = [1, 2, 3, 4, 5] ∧
      (flows.map CashFlow.time).Pairwise (· < ·) ∧
      (∀ cf ∈ flows, 0 < cf.time) ∧
      (∀ cf ∈ flows, cf.time ≤ vanilla5Y.maturity + 1 / 1000) := by
  have hf : vanilla5Y.validFrequency := by
    simp [Bond.validFrequency, vanilla5Y]
  have hm : 0 < vanilla5Y.maturity := by norm_num [vanilla5Y]
  have hK : periodCount 5 1 = 5 := by
    unfold periodCount
    rw [Nat.floor_eq_iff (by norm_num)]
    norm_num
  have hfuel : vanilla5Y.fuelNeeded = 6 := by
    simp [Bond.fuelNeeded, vanilla5Y, hK]
  obtain ⟨flows, h1, h2, h3, h4⟩ := getCashFlows_finite_ordered vanilla5Y sampleCurve hf hm
  have h6 := h1 6 (le_of_eq hfuel)
  refine ⟨hf, hm, hfuel, flows, h6, ?_, h2, h3, h4⟩
  have hexp : vanilla5Y.getCashFlows 6 sampleCurve
      = some (expectedSchedule (fun _ => 1000 * (4 / 100) / ((1 : Int) : ℚ)) 1000
          (1 / ((1 : Int) : ℚ)) (periodCount 5 1)) :=
    vanilla_flows 1000 5 (4 / 100) 1 6 (le_refl 1) (by rw [hK]; norm_num) (by rw [hK])
  rw [hexp] at h6
  have hfl := Option.some.inj h6
  rw [← hfl, expectedSchedule_times _ _ _ _ (by rw [hK]; norm_num), hK]
  norm_num [List.range_succ]

/-! ## Theorems: the loop against the integer period count -/

/-- C25 as stated fails: for maturity 3/2 and frequency 1 the loop schedules one flow
(at time 1; the test `2 ≤ 1.501` fails) while `round(maturity / dt) = 2`; for maturity
3/5 it schedules none while `round(maturity / dt) = 1`. -/
theorem loop_count_differs_from_round :
    (0 : ℚ) < 3 / 2 ∧ (1 : Int) ≤ 1 ∧
    couponLoop (fun t => { amount := 40, time := t }) (1 / ((1 : Int) : ℚ))
        (3 / 2 + 1 / 1000) 2 (1 / ((1 : Int) : ℚ)) []
      = some [{ amount := 40, time := 1 }] ∧
    VanillaBond.getCashFlows 2 1000 (3 / 2) (4 / 100) 1 = some [{ amount := 1040, time := 1 }] ∧
    periodCount (3 / 2) 1 = 1 ∧
    integerPeriodCount (3 / 2) 1 = 2 ∧
    periodCount (3 / 5) 1 = 0 ∧
    integerPeriodCount (3 / 5) 1 = 1 := by
  have hK1 : periodCount (3 / 2) 1 = 1 := by
    unfold periodCount
    rw [Nat.floor_eq_iff (by norm_num)]
    norm_num
  have hK0 : periodCount (3 / 5) 1 = 0 := by
    unfold periodCount
    rw [Nat.floor_eq_zero]
    norm_num
  have hR2 : integerPeriodCount (3 / 2) 1 = 2 := by
    unfold integerPeriodCount
    rw [round_eq, Int.floor_eq_iff]
    norm_num
  have hR1 : integerPeriodCount (3 / 5) 1 = 1 := by
    unfold integerPeriodCount
    rw [round_eq, Int.floor_eq_iff]
    norm_num
  refine ⟨by norm_num, le_refl 1, ?_, ?_, hK1, hR2, hK0, hR1⟩
  · norm_num [couponLoop]
  · norm_num [VanillaBond.getCashFlows, couponLoop, addToBack]

/-- C25 amended: for every maturity above 0 and frequency at least 1 the loop, in exact
arithmetic and with enough fuel, produces exactly the times `k * dt` for
`k = 1..⌊(maturity + 0.001) * frequency⌋`; this count equals `round(maturity / dt)` if
and only if `round(maturity / dt) - frequency / 1000 ≤ maturity * frequency
< round(maturity / dt) + 1 - frequency / 1000`, in particular whenever the maturity is a
whole number of periods and the frequency is below 1000. -/
theorem loop_schedule_vs_integer_count (maturity : ℚ) (frequency : Int)
    (hm : 0 < maturity) (hf : 1 ≤ frequency) :
    (∀ (mk : ℚ → CashFlow) (fuel : Nat), periodCount maturity frequency + 1 ≤ fuel →
      couponLoop mk (1 / (frequency : ℚ)) (maturity + 1 / 1000) fuel
          (1 / (frequency : ℚ)) []
        = some ((List.range (periodCount maturity frequency)).map
            (fun (i : Nat) => mk (((i : ℚ) + 1) * (1 / (frequency : ℚ)))))) ∧
    (((periodCount maturity frequency : Int) = integerPeriodCount maturity frequency) ↔
      ((integerPeriodCount maturity frequency : ℚ) - (frequency : ℚ) / 1000
          ≤ maturity * (frequency : ℚ) ∧
        maturity * (frequency : ℚ)
          < (integerPeriodCount maturity frequency : ℚ) + 1 - (frequency : ℚ) / 1000)) ∧
    (∀ n : Nat, maturity * (frequency : ℚ) = (n : ℚ) → frequency < 1000 →
      periodCount maturity frequency = n ∧ integerPeriodCount maturity frequency = (n : Int)) := by
  have hfq : (1 : ℚ) ≤ (frequency : ℚ) := by exact_mod_cast hf
  have hpos : (0 : ℚ) ≤ (maturity + 1 / 1000) * (frequency : ℚ) := by positivity
  refine ⟨fun mk fuel hfuel => couponLoop_schedule mk maturity frequency hf fuel hfuel,
    ?_, fun n hn hlt => ?_⟩
  · unfold periodCount
    rw [Int.natCast_floor_eq_floor hpos, Int.floor_eq_iff]
    constructor
    · rintro ⟨h1, h2⟩
      constructor <;> linarith
    · rintro ⟨h1, h2⟩
      constructor <;> linarith
  · have hlt' : (frequency : ℚ) < 1000 := by exact_mod_cast hlt
    constructor
    · unfold periodCount
      rw [Nat.floor_eq_iff hpos]
      constructor <;> nlinarith
    · unfold integerPeriodCount
      rw [div_div_eq_mul_div, div_one, hn]
      exact round_natCast n

/-- C25 amended, at concrete inputs: maturity 5 with frequency 1 schedules the five
times 1..5 and `round(5 / 1) = 5`; maturity 3 with frequency 2 gives the count 6 on
both sides. -/
theorem loop_schedule_vs_integer_count_witness :
    (0 : ℚ) < 5 ∧ (1 : Int) ≤ 1 ∧
    periodCount 5 1 = 5 ∧ integerPeriodCount 5 1 = 5 ∧
    couponLoop (fun t => { amount := 40, time := t }) (1 / ((1 : Int) : ℚ))
        (5 + 1 / 1000) 6 (1 / ((1 : Int) : ℚ)) []
      = some [{ amount := 40, time := 1 }, { amount := 40, time := 2 },
              { amount := 40, time := 3 }, { amount := 40, time := 4 },
              { amount := 40, time := 5 }] ∧
    periodCount 3 2 = 6 ∧ integerPeriodCount 3 2 = 6 := by
  obtain ⟨hloop, -, hwhole⟩ := loop_schedule_vs_integer_count 5 1 (by norm_num) (le_refl 1)
  obtain ⟨-, -, hwhole2⟩ := loop_schedule_vs_integer_count 3 2 (by norm_num) (by decide)
  obtain ⟨hK, hR⟩ := hwhole 5 (by norm_num) (by decide)
  obtain ⟨hK2, hR2⟩ := hwhole2 6 (by norm_num) (by decide)
  refine ⟨by norm_num, le_refl 1, hK, hR, ?_, hK2, hR2⟩
  rw [hloop _ 6 (by rw [hK]), hK]
  norm_num [List.range_succ]

/-! ## Lemmas on flat curves and the sign of the PV01 -/

/-- On a flat curve every lookup returns the common rate. -/
theorem getRate_of_flat (c : YieldCurve) (r : ℚ) (hflat : curveFlat c r) (t : ℚ) :
    c.getRate t = r := by
  obtain ⟨hne, hall⟩ := hflat
  cases hr : c.rates with
  | nil => exact absurd hr hne
  | cons first rest =>
    rw [hr] at hall
    rw [getRate_cons c first rest t hr]
    have hparts := lowerBound_parts (first :: rest) t
    rcases hlb : lowerBound (first :: rest) t with ⟨pre, suf⟩
    rw [hlb] at hparts
    simp only at hparts
    cases pre with
    | nil =>
      cases suf with
      | nil => simp at hparts
      | cons it suf2 =>
        simp only
        exact hall it (by rw [← hparts]; simp)
    | cons p before =>
      cases suf with
      | nil =>
        simp only
        exact hall _ (List.getLast_mem _)
      | cons it suf2 =>
        simp only
        have h1 : ((p :: before).getLast (List.cons_ne_nil p before)).2 = r :=
          hall _ (by
            rw [← hparts]
            exact List.mem_append_left _ (List.getLast_mem _))
        have h2 : it.2 = r := hall it (by rw [← hparts]; simp)
        rw [h1, h2]
        ring

/-- The shifted copy of a flat curve is flat at the rate plus 1/10000. -/
theorem shiftedByOneBp_flat (c : YieldCurve) (r : ℚ) (hflat : curveFlat c r) :
    curveFlat (shiftedByOneBp c) (r + 1 / 10000) := by
  obtain ⟨hne, hall⟩ := hflat
  refine ⟨?_, fun node hnode => ?_⟩
  · simpa [shiftedByOneBp] using hne
  · simp only [shiftedByOneBp, List.mem_map] at hnode
    obtain ⟨n, hn, rfl⟩ := hnode
    simp only
    rw [hall n hn]

/-- The present value on a flat curve. -/
theorem presentValue_of_flat (expFn : ℚ → ℚ) (c : YieldCurve) (r : ℚ)
    (hflat : curveFlat c r) (flows : List CashFlow) :
    presentValue expFn c flows
      = (flows.map (fun cf => cf.amount * expFn (-r * cf.time))).sum := by
  unfold presentValue
  congr 1
  apply List.map_congr_left
  intro cf _
  rw [getRate_of_flat c r hflat]

/-- A higher flat rate does not raise the value of flows with amounts that are not
negative at positive times, for an increasing `expFn`. -/
theorem discounted_sum_le (expFn : ℚ → ℚ) (hmono : StrictMono expFn) (r s : ℚ)
    (hs : 0 < s) (flows : List CashFlow)
    (hall : ∀ cf ∈ flows, 0 ≤ cf.amount ∧ 0 < cf.time) :
    (flows.map (fun cf => cf.amount * expFn (-(r + s) * cf.time))).sum
      ≤ (flows.map (fun cf => cf.amount * expFn (-r * cf.time))).sum := by
  induction flows with
  | nil => simp
  | cons cf rest ih =>
    simp only [List.map_cons, List.sum_cons]
    have hcf := hall cf (List.mem_cons_self _ _)
    have hlt : expFn (-(r + s) * cf.time) < expFn (-r * cf.time) :=
      hmono (by nlinarith [hcf.2])
    have hterm : cf.amount * expFn (-(r + s) * cf.time)
        ≤ cf.amount * expFn (-r * cf.time) :=
      mul_le_mul_of_nonneg_left hlt.le hcf.1
    have := ih (fun c hc => hall c (List.mem_cons_of_mem _ hc))
    linarith

/-- A higher flat rate strictly lowers the value when, in addition, one amount is
positive. -/
theorem discounted_sum_lt (expFn : ℚ → ℚ) (hmono : StrictMono expFn) (r s : ℚ)
    (hs : 0 < s) (flows : List CashFlow)
    (hall : ∀ cf ∈ flows, 0 ≤ cf.amount ∧ 0 < cf.time)
    (hex : ∃ cf ∈ flows, 0 < cf.amount) :
    (flows.map (fun cf => cf.amount * expFn (-(r + s) * cf.time))).sum
      < (flows.map (fun cf => cf.amount * expFn (-r * cf.time))).sum := by
  induction flows with
  | nil =>
    obtain ⟨cf, hcf, _⟩ := hex
    simp at hcf
  | cons cf rest ih =>
    simp only [List.map_cons, List.sum_cons]
    have hcf := hall cf (List.mem_cons_self _ _)
    have hrest : ∀ c ∈ rest, 0 ≤ c.amount ∧ 0 < c.time :=
      fun c hc => hall c (List.mem_cons_of_mem _ hc)
    have hlt : expFn (-(r + s) * cf.time) < expFn (-r * cf.time) :=
      hmono (by nlinarith [hcf.2])
    obtain ⟨c, hc, hcpos⟩ := hex
    rcases List.mem_cons.mp hc with h | h
    · have hterm : cf.amount * expFn (-(r + s) * cf.time)
          < cf.amount * expFn (-r * cf.time) :=
        mul_lt_mul_of_pos_left hlt (h ▸ hcpos)
      have := discounted_sum_le expFn hmono r s hs rest hrest
      linarith
    · have hterm : cf.amount * expFn (-(r + s) * cf.time)
          ≤ cf.amount * expFn (-r * cf.time) :=
        mul_le_mul_of_nonneg_left hlt.le hcf.1
      have := ih hrest ⟨c, h, hcpos⟩
      linarith

/-- The amounts of an expected schedule with a coupon that is not negative and a
positive notional: none is negative and the last is positive. -/
theorem expectedSchedule_amounts (coupon : ℚ → ℚ) (notional dt : ℚ) (K : Nat)
    (hc : ∀ t, 0 ≤ coupon t) (hn : 0 < notional) :
    (∀ cf ∈ expectedSchedule coupon notional dt K, 0 ≤ cf.amount) ∧
    ∃ cf ∈ expectedSchedule coupon notional dt K, 0 < cf.amount := by
  refine ⟨fun cf hcf => ?_, ⟨_, List.mem_append_right _ (List.mem_singleton_self _), ?_⟩⟩
  · rcases List.mem_append.mp hcf with h | h
    · obtain ⟨i, _, rfl⟩ := List.mem_map.mp h
      exact hc _
    · rw [List.mem_singleton.mp h]
      have := hc ((K : ℚ) * dt)
      simp only
      linarith
  · have := hc ((K : ℚ) * dt)
    simp only
    linarith

/-- The rational stand-in `expMonotone` is strictly increasing. -/
theorem expMonotone_strictMono : StrictMono expMonotone := by
  intro a b hab
  unfold expMonotone
  by_cases ha : 0 ≤ a
  · have hb : 0 ≤ b := le_trans ha hab.le
    rw [if_pos ha, if_pos hb]
    linarith
  · have ha' : a < 0 := not_le.mp ha
    rw [if_neg ha]
    have h1 : 1 / (1 - a) < 1 := by
      rw [div_lt_one (by linarith)]
      linarith
    by_cases hb : 0 ≤ b
    · rw [if_pos hb]
      linarith
    · have hb' : b < 0 := not_le.mp hb
      rw [if_neg hb]
      exact one_div_lt_one_div_of_lt (by linarith) (by linarith)

/-- The price on a flat curve, given the generated flows. -/
theorem calculatePrice_of_flat (expFn : ℚ → ℚ) (fuel : Nat) (b : Bond) (c : YieldCurve)
    (r : ℚ) (hflat : curveFlat c r) (flows : List CashFlow)
    (hflows : b.getCashFlows fuel c = some flows) :
    b.calculatePrice expFn fuel c
      = some ((flows.map (fun cf => cf.amount * expFn (-r * cf.time))).sum) := by
  rw [calculatePrice_eq, hflows, Option.map_some', presentValue_of_flat expFn c r hflat]

/-- The flows of a zero-coupon bond, and of a vanilla bond with a coupon rate that is
not negative, do not depend on the curve; with a positive notional and maturity none
is negative, one is positive, and all times are positive. -/
theorem fixed_flows_positive (b : Bond) (fuel : Nat) (hn : 0 < b.notional)
    (hm : 0 < b.maturity)
    (hkind : b.kind = BondKind.zeroCoupon ∨
      ∃ couponRate frequency, b.kind = BondKind.vanilla couponRate frequency ∧
        0 ≤ couponRate ∧ 1 ≤ frequency)
    (hfuel : b.fuelNeeded ≤ fuel) :
    ∃ flows : List CashFlow,
      (∀ curve : YieldCurve, b.getCashFlows fuel curve = some flows) ∧
      (∀ cf ∈ flows, 0 ≤ cf.amount ∧ 0 < cf.time) ∧
      ∃ cf ∈ flows, 0 < cf.amount := by
  unfold Bond.fuelNeeded at hfuel
  rcases hkind with hk | ⟨couponRate, frequency, hk, hcr, hf⟩
  · refine ⟨[{ amount := b.notional, time := b.maturity }], fun curve => ?_,
      fun cf hcf => ?_, ⟨_, List.mem_singleton_self _, hn⟩⟩
    · simp only [Bond.getCashFlows, hk, ZeroCouponBond.getCashFlows]
    · rw [List.mem_singleton.mp hcf]
      exact ⟨hn.le, hm⟩
  · rw [hk] at hfuel
    simp only at hfuel
    have hfq : (1 : ℚ) ≤ (frequency : ℚ) := by exact_mod_cast hf
    have hdt : (0 : ℚ) < 1 / (frequency : ℚ) := by positivity
    have hcoupon : 0 ≤ b.notional * couponRate / (frequency : ℚ) := by positivity
    by_cases hK : 1 ≤ periodCount b.maturity frequency
    · obtain ⟨ha1, ha2⟩ := expectedSchedule_amounts
        (fun _ => b.notional * couponRate / (frequency : ℚ)) b.notional
        (1 / (frequency : ℚ)) (periodCount b.maturity frequency) (fun _ => hcoupon) hn
      obtain ⟨-, ht⟩ := expectedSchedule_ordered
        (fun _ => b.notional * couponRate / (frequency : ℚ)) b.notional
        (1 / (frequency : ℚ)) (b.maturity + 1 / 1000) (periodCount b.maturity frequency)
        hK hdt (fun i hi => by
          have := (periodCount_spec b.maturity frequency hf).1 i hi
          linarith)
      refine ⟨_, fun curve => ?_, fun cf hcf => ⟨ha1 cf hcf, (ht cf hcf).1⟩, ha2⟩
      simp only [Bond.getCashFlows, hk]
      exact vanilla_flows b.notional b.maturity couponRate frequency fuel hf hK hfuel
    · have hshort : b.maturity + 1 / 1000 < 1 / (frequency : ℚ) :=
        not_le.mp (fun h => hK ((periodCount_pos_iff b.maturity frequency hf).mpr h))
      refine ⟨[{ amount := b.notional + b.notional * couponRate / (frequency : ℚ),
                 time := b.maturity }], fun curve => ?_, fun cf hcf => ?_,
        ⟨_, List.mem_singleton_self _, by simp only; linarith⟩⟩
      · simp only [Bond.getCashFlows, hk]
        exact vanilla_flows_degenerate b.notional b.maturity couponRate frequency fuel
          (by omega) hshort
      · rw [List.mem_singleton.mp hcf]
        exact ⟨by simp only; linarith, hm⟩

/-! ## The sign of the PV01 of fixed flows under an increasing stand-in -/

/-- Fixed flows under any increasing `expFn`: for every zero-coupon bond, and every
vanilla bond with a coupon rate that is not negative and frequency at least 1, with
notional and maturity above 0, on every flat curve (non-empty, all node rates equal),
with a strictly increasing `expFn` and enough fuel, `calculatePV01` returns a value
below 0. -/
theorem calculatePV01_negative_fixed_flows (expFn : ℚ → ℚ) (hmono : StrictMono expFn) (b : Bond)
    (curve : YieldCurve) (r : ℚ) (hflat : curveFlat curve r) (hn : 0 < b.notional)
    (hm : 0 < b.maturity)
    (hkind : b.kind = BondKind.zeroCoupon ∨
      ∃ couponRate frequency, b.kind = BondKind.vanilla couponRate frequency ∧
        0 ≤ couponRate ∧ 1 ≤ frequency)
    (fuel : Nat) (hfuel : b.fuelNeeded ≤ fuel) :
    ∃ priceBase priceShock : ℚ,
      b.calculatePrice expFn fuel curve = some priceBase ∧
      b.calculatePrice expFn fuel (shiftedByOneBp curve) = some priceShock ∧
      priceShock < priceBase ∧
      (RiskEngine.calculatePV01 expFn fuel b curve).value = some (priceShock - priceBase) ∧
      priceShock - priceBase < 0 := by
  obtain ⟨flows, hflows, hall, hex⟩ := fixed_flows_positive b fuel hn hm hkind hfuel
  have hbase := calculatePrice_of_flat expFn fuel b curve r hflat flows (hflows curve)
  have hshock := calculatePrice_of_flat expFn fuel b (shiftedByOneBp curve) (r + 1 / 10000)
    (shiftedByOneBp_flat curve r hflat) flows (hflows _)
  have hlt := discounted_sum_lt expFn hmono r (1 / 10000) (by norm_num) flows hall hex
  exact ⟨_, _, hbase, hshock, hlt,
    calculatePV01_value expFn fuel b curve _ _ hbase hshock, by linarith⟩

/-- Fixed flows at concrete inputs: with the increasing stand-in `expMonotone` the
zero-coupon bond of notional 1000 and maturity 10 on the flat curve at 0.05 has the
PV01 `1000 / 1.501 - 1000 / 1.5`, below 0, and the vanilla example bond has a PV01
below 0. -/
theorem calculatePV01_negative_fixed_flows_example :
    StrictMono expMonotone ∧ curveFlat flatCurve (5 / 100) ∧
    0 < zero10Y.notional ∧ 0 < zero10Y.maturity ∧ zero10Y.fuelNeeded ≤ 0 ∧
    (RiskEngine.calculatePV01 expMonotone 0 zero10Y flatCurve).value
      = some (1000 / (1501 / 1000) - 1000 / (3 / 2)) ∧
    (1000 / (1501 / 1000) - 1000 / (3 / 2) : ℚ) < 0 ∧
    (∃ v, (RiskEngine.calculatePV01 expMonotone 6 vanilla5Y flatCurve).value = some v ∧
      v < 0) := by
  have hflat : curveFlat flatCurve (5 / 100) := by
    refine ⟨by simp [flatCurve], fun node hnode => ?_⟩
    simp only [flatCurve, List.mem_cons, List.mem_singleton, List.not_mem_nil, or_false]
      at hnode
    rcases hnode with h | h <;> rw [h]
  have hK : periodCount 5 1 = 5 := by
    unfold periodCount
    rw [Nat.floor_eq_iff (by norm_num)]
    norm_num
  have hfz : zero10Y.fuelNeeded ≤ 0 := by simp [Bond.fuelNeeded, zero10Y]
  have hfv : vanilla5Y.fuelNeeded ≤ 6 := by simp [Bond.fuelNeeded, vanilla5Y, hK]
  obtain ⟨pb, ps, hb, hs, -, hv, hneg⟩ := calculatePV01_negative_fixed_flows expMonotone
    expMonotone_strictMono zero10Y flatCurve (5 / 100) hflat (by norm_num [zero10Y])
    (by norm_num [zero10Y]) (Or.inl rfl) 0 hfz
  obtain ⟨pb2, ps2, -, -, -, hv2, hneg2⟩ := calculatePV01_negative_fixed_flows expMonotone
    expMonotone_strictMono vanilla5Y flatCurve (5 / 100) hflat (by norm_num [vanilla5Y])
    (by norm_num [vanilla5Y]) (Or.inr ⟨4 / 100, 1, rfl, by norm_num, le_refl 1⟩) 6 hfv
  have hfl : ∀ curve : YieldCurve, zero10Y.getCashFlows 0 curve
      = some [{ amount := 1000, time := 10 }] := fun curve => rfl
  have hb2 := calculatePrice_of_flat expMonotone 0 zero10Y flatCurve _ hflat _ (hfl _)
  have hs2 := calculatePrice_of_flat expMonotone 0 zero10Y (shiftedByOneBp flatCurve) _
    (shiftedByOneBp_flat flatCurve (5 / 100) hflat) _ (hfl _)
  rw [hb] at hb2
  rw [hs] at hs2
  have hpb : pb = 1000 / (3 / 2) := by
    have := Option.some.inj hb2
    rw [this]
    norm_num [expMonotone]
  have hps : ps = 1000 / (1501 / 1000) := by
    have := Option.some.inj hs2
    rw [this]
    norm_num [expMonotone]
  refine ⟨expMonotone_strictMono, hflat, by norm_num [zero10Y], by norm_num [zero10Y], hfz,
    ?_, by norm_num, ⟨_, hv2, hneg2⟩⟩
  rw [hv, hpb, hps]

/-! ## Lemmas on rounding to a `double` -/

/-- The payment times of a schedule of loop passes are the first `K` loop times. -/
theorem roundedSchedule_times (fl : ℚ → ℚ) (coupon : ℚ → ℚ) (notional dt : ℚ) (K : Nat)
    (hK : 1 ≤ K) :
    (roundedSchedule fl coupon notional dt K).map CashFlow.time
      = (List.range K).map (fun (i : Nat) => loopTime fl dt i) := by
  obtain ⟨n, rfl⟩ : ∃ n, K = n + 1 := ⟨K - 1, by omega⟩
  simp only [roundedSchedule, Nat.add_sub_cancel, List.map_append, List.map_map,
    List.map_singleton, List.range_succ, Function.comp_def]

/-- The pricing loop accumulates the sum of the discounted amounts, in any field. -/
theorem foldl_priceIn_eq {F : Type} [Field F] (g : CashFlow → F) (flows : List CashFlow)
    (acc : F) :
    flows.foldl (fun price cf => price + g cf) acc = acc + (flows.map g).sum := by
  induction flows generalizing acc with
  | nil => simp
  | cons cf rest ih =>
    simp only [List.foldl_cons, List.map_cons, List.sum_cons, ih]
    ring

/-- With a rational `expFn` the field-valued price is `Bond.calculatePrice`. -/
theorem calculatePriceIn_rat (expFn : ℚ → ℚ) (fuel : Nat) (b : Bond) (curve : YieldCurve) :
    b.calculatePriceIn expFn fuel curve = b.calculatePrice expFn fuel curve := by
  unfold Bond.calculatePriceIn Bond.calculatePrice
  cases b.getCashFlows fuel curve with
  | none => rfl
  | some flows =>
    simp only [YieldCurve.getDiscountFactorIn, YieldCurve.getDiscountFactor, Rat.cast_id]

/-- With a rational `expFn` the field-valued PV01 is the value of
`RiskEngine.calculatePV01`. -/
theorem calculatePV01In_rat (expFn : ℚ → ℚ) (fuel : Nat) (b : Bond) (curve : YieldCurve) :
    RiskEngine.calculatePV01In expFn fuel b curve
      = (RiskEngine.calculatePV01 expFn fuel b curve).value := by
  simp only [RiskEngine.calculatePV01In, RiskEngine.calculatePV01, calculatePriceIn_rat]
  cases b.calculatePrice expFn fuel curve with
  | none => rfl
  | some pb =>
    simp only
    cases b.calculatePrice expFn fuel (curve.parallelShift 1) with
    | none => rfl
    | some ps => rfl

/-- The field-valued price on a flat curve, given the generated flows. -/
theorem calculatePriceIn_of_flat {F : Type} [Field F] (expFn : ℚ → F) (fuel : Nat)
    (b : Bond) (c : YieldCurve) (r : ℚ) (hflat : curveFlat c r) (flows : List CashFlow)
    (hflows : b.getCashFlows fuel c = some flows) :
    b.calculatePriceIn expFn fuel c
      = some ((flows.map (fun cf => (cf.amount : F) * expFn (-r * cf.time))).sum) := by
  simp only [Bond.calculatePriceIn, hflows, YieldCurve.getDiscountFactorIn]
  rw [foldl_priceIn_eq (fun cf => (cf.amount : F) * expFn (-(c.getRate cf.time) * cf.time)),
    zero_add]
  congr 2
  apply List.map_congr_left
  intro cf _
  rw [getRate_of_flat c r hflat]

/-- The field-valued PV01 when both prices are returned. -/
theorem calculatePV01In_value {F : Type} [Field F] (expFn : ℚ → F) (fuel : Nat)
    (bond : Bond) (baseCurve : YieldCurve) (priceBase priceShock : F)
    (hbase : bond.calculatePriceIn expFn fuel baseCurve = some priceBase)
    (hshock : bond.calculatePriceIn expFn fuel (shiftedByOneBp baseCurve) = some priceShock) :
    RiskEngine.calculatePV01In expFn fuel bond baseCurve
      = some (priceShock - priceBase) := by
  simp only [RiskEngine.calculatePV01In, hbase, parallelShift_one, hshock]

/-- The real exponential on rational arguments is strictly increasing. -/
theorem realExp_strictMono : StrictMono (fun q : ℚ => Real.exp (q : ℝ)) :=
  fun _ _ hab => Real.exp_strictMono (Rat.cast_lt.mpr hab)

/-- A higher flat rate does not raise the field-valued sum of flows with amounts that
are not negative at positive times, for an increasing `expFn`. -/
theorem discountedIn_sum_le {F : Type} [LinearOrderedField F] (expFn : ℚ → F)
    (hmono : StrictMono expFn) (r s : ℚ) (hs : 0 < s) (flows : List CashFlow)
    (hall : ∀ cf ∈ flows, 0 ≤ cf.amount ∧ 0 < cf.time) :
    (flows.map (fun cf => (cf.amount : F) * expFn (-(r + s) * cf.time))).sum
      ≤ (flows.map (fun cf => (cf.amount : F) * expFn (-r * cf.time))).sum := by
  induction flows with
  | nil => simp
  | cons cf rest ih =>
    simp only [List.map_cons, List.sum_cons]
    have hcf := hall cf (List.mem_cons_self _ _)
    have hlt : expFn (-(r + s) * cf.time) < expFn (-r * cf.time) :=
      hmono (by nlinarith [hcf.2])
    have ha : (0 : F) ≤ (cf.amount : F) := by exact_mod_cast hcf.1
    have hterm : (cf.amount : F) * expFn (-(r + s) * cf.time)
        ≤ (cf.amount : F) * expFn (-r * cf.time) :=
      mul_le_mul_of_nonneg_left hlt.le ha
    have := ih (fun c hc => hall c (List.mem_cons_of_mem _ hc))
    linarith

/-- A higher flat rate strictly lowers the field-valued sum when, in addition, one
amount is positive. -/
theorem discountedIn_sum_lt {F : Type} [LinearOrderedField F] (expFn : ℚ → F)
    (hmono : StrictMono expFn) (r s : ℚ) (hs : 0 < s) (flows : List CashFlow)
    (hall : ∀ cf ∈ flows, 0 ≤ cf.amount ∧ 0 < cf.time)
    (hex : ∃ cf ∈ flows, 0 < cf.amount) :
    (flows.map (fun cf => (cf.amount : F) * expFn (-(r + s) * cf.time))).sum
      < (flows.map (fun cf => (cf.amount : F) * expFn (-r * cf.time))).sum := by
  induction flows with
  | nil =>
    obtain ⟨cf, hcf, _⟩ := hex
    simp at hcf
  | cons cf rest ih =>
    simp only [List.map_cons, List.sum_cons]
    have hcf := hall cf (List.mem_cons_self _ _)
    have hrest : ∀ c ∈ rest, 0 ≤ c.amount ∧ 0 < c.time :=
      fun c hc => hall c (List.mem_cons_of_mem _ hc)
    have hlt : expFn (-(r + s) * cf.time) < expFn (-r * cf.time) :=
      hmono (by nlinarith [hcf.2])
    obtain ⟨c, hc, hcpos⟩ := hex
    rcases List.mem_cons.mp hc with h | h
    · have ha : (0 : F) < (cf.amount : F) := by exact_mod_cast (h ▸ hcpos)
      have hterm : (cf.amount : F) * expFn (-(r + s) * cf.time)
          < (cf.amount : F) * expFn (-r * cf.time) :=
        mul_lt_mul_of_pos_left hlt ha
      have := discountedIn_sum_le expFn hmono r s hs rest hrest
      linarith
    · have ha : (0 : F) ≤ (cf.amount : F) := by exact_mod_cast hcf.1
      have hterm : (cf.amount : F) * expFn (-(r + s) * cf.time)
          ≤ (cf.amount : F) * expFn (-r * cf.time) :=
        mul_le_mul_of_nonneg_left hlt.le ha
      have := ih hrest ⟨c, h, hcpos⟩
      linarith

/-- One period more of a floater: with per-period discount factor `E`, coupon `c` and
principal `N`, the value of `K + 1` periods is `E * (c + value of K periods)`. -/
theorem floater_sum_step (E c N : ℝ) (K : Nat) :
    ((List.range (K + 1)).map (fun (i : Nat) => c * E ^ (i + 1))).sum + N * E ^ (K + 1)
      = E * (c + (((List.range K).map (fun (i : Nat) => c * E ^ (i + 1))).sum + N * E ^ K)) := by
  rw [List.range_succ_eq_map, List.map_cons, List.sum_cons, List.map_map]
  have hshift : ((List.range K).map ((fun (i : Nat) => c * E ^ (i + 1)) ∘ Nat.succ)).sum
      = E * ((List.range K).map (fun (i : Nat) => c * E ^ (i + 1))).sum := by
    rw [← List.sum_map_mul_left]
    congr 1
    apply List.map_congr_left
    intro i _
    simp only [Function.comp_def, Nat.succ_eq_add_one]
    ring
  rw [hshift]
  ring

/-- A floater whose coupon is not negative is worth at least the principal less one
coupon, when one period of discounting loses no more than one coupon. -/
theorem floater_sum_lower (E c N : ℝ) (hE : 0 < E) (hc : 0 ≤ c) (hEN : N - c ≤ E * N)
    (K : Nat) :
    N - c ≤ ((List.range K).map (fun (i : Nat) => c * E ^ (i + 1))).sum + N * E ^ K := by
  induction K with
  | zero => simp only [List.range_zero, List.map_nil, List.sum_nil, pow_zero]; linarith
  | succ K ih =>
    rw [floater_sum_step]
    have h1 : E * N
        ≤ E * (c + (((List.range K).map (fun (i : Nat) => c * E ^ (i + 1))).sum + N * E ^ K)) :=
      mul_le_mul_of_nonneg_left (by linarith) hE.le
    linarith

/-- Raising the rate by `h` per period (discount factor `E * exp (-h)`, coupon
`c + N * h`) strictly lowers the value of a floater with at least one period. -/
theorem floater_sum_drop (E c N h : ℝ) (hE : 0 < E) (hN : 0 < N) (hh : 0 < h) (hc : 0 ≤ c)
    (hEN : N - c ≤ E * N) (K : Nat) :
    ((List.range K).map (fun (i : Nat) => (c + N * h) * (E * Real.exp (-h)) ^ (i + 1))).sum
        + N * (E * Real.exp (-h)) ^ K
      ≤ ((List.range K).map (fun (i : Nat) => c * E ^ (i + 1))).sum + N * E ^ K ∧
    ((List.range (K + 1)).map
          (fun (i : Nat) => (c + N * h) * (E * Real.exp (-h)) ^ (i + 1))).sum
        + N * (E * Real.exp (-h)) ^ (K + 1)
      < ((List.range (K + 1)).map (fun (i : Nat) => c * E ^ (i + 1))).sum
        + N * E ^ (K + 1) := by
  have hstep : ∀ (v w : ℝ), v ≤ w → N - c ≤ w →
      (E * Real.exp (-h)) * ((c + N * h) + v) < E * (c + w) := by
    intro v w hvw hw
    have hexp : 1 + h < Real.exp h := by
      have := Real.add_one_lt_exp (ne_of_gt hh)
      linarith
    have hpos : 0 < Real.exp (-h) := Real.exp_pos _
    have hinv : Real.exp (-h) * Real.exp h = 1 := by
      rw [← Real.exp_add]
      simp
    have hA : N ≤ c + w := by linarith
    have h1 : (c + N * h) + v ≤ (c + w) * (1 + h) := by nlinarith
    have h2 : (c + w) * (1 + h) < (c + w) * Real.exp h :=
      mul_lt_mul_of_pos_left hexp (by linarith)
    have h3 : Real.exp (-h) * ((c + N * h) + v) < Real.exp (-h) * ((c + w) * Real.exp h) :=
      mul_lt_mul_of_pos_left (by linarith) hpos
    have h4 : Real.exp (-h) * ((c + w) * Real.exp h) = c + w := by
      calc Real.exp (-h) * ((c + w) * Real.exp h)
          = (c + w) * (Real.exp (-h) * Real.exp h) := by ring
        _ = c + w := by rw [hinv, mul_one]
    have h5 : E * (Real.exp (-h) * ((c + N * h) + v)) < E * (c + w) :=
      mul_lt_mul_of_pos_left (by linarith) hE
    calc (E * Real.exp (-h)) * ((c + N * h) + v)
        = E * (Real.exp (-h) * ((c + N * h) + v)) := by ring
      _ < E * (c + w) := h5
  induction K with
  | zero =>
    refine ⟨by simp, ?_⟩
    rw [floater_sum_step, floater_sum_step]
    exact hstep _ _ (by simp) (by simpa using floater_sum_lower E c N hE hc hEN 0)
  | succ K ih =>
    refine ⟨ih.2.le, ?_⟩
    rw [floater_sum_step _ _ _ (K + 1), floater_sum_step _ _ _ (K + 1)]
    exact hstep _ _ ih.2.le (floater_sum_lower E c N hE hc hEN (K + 1))

/-- The real-valued sum of an expected schedule with the constant coupon `c` on a flat
curve at the rate `r`, in terms of the per-period discount factor
`exp (-r * dt)`. -/
theorem expectedSchedule_real_sum (c notional dt r : ℚ) (K : Nat) (hK : 1 ≤ K) :
    ((expectedSchedule (fun _ => c) notional dt K).map
        (fun cf => (cf.amount : ℝ) * Real.exp ((-r * cf.time : ℚ) : ℝ))).sum
      = ((List.range K).map
            (fun (i : Nat) => (c : ℝ) * Real.exp ((-r * dt : ℚ) : ℝ) ^ (i + 1))).sum
          + (notional : ℝ) * Real.exp ((-r * dt : ℚ) : ℝ) ^ K := by
  obtain ⟨n, rfl⟩ : ∃ n, K = n + 1 := ⟨K - 1, by omega⟩
  have hpow : ∀ j : Nat, Real.exp ((-r * (((j : ℚ) + 1) * dt) : ℚ) : ℝ)
      = Real.exp ((-r * dt : ℚ) : ℝ) ^ (j + 1) := by
    intro j
    rw [← Real.exp_nat_mul]
    congr 1
    push_cast
    ring
  simp only [expectedSchedule, Nat.add_sub_cancel, List.map_append, List.map_map,
    List.map_singleton, List.sum_append, List.sum_singleton, Function.comp_def]
  rw [List.range_succ, List.map_append, List.sum_append]
  simp only [List.map_singleton, List.sum_singleton]
  have hlast : Real.exp ((-r * (((n + 1 : Nat) : ℚ) * dt) : ℚ) : ℝ)
      = Real.exp ((-r * dt : ℚ) : ℝ) ^ (n + 1) := by
    have := hpow n
    push_cast at this ⊢
    exact this
  rw [hlast]
  have hmap : (List.range n).map
        (fun (i : Nat) => (c : ℝ) * Real.exp ((-r * (((i : ℚ) + 1) * dt) : ℚ) : ℝ))
      = (List.range n).map
        (fun (i : Nat) => (c : ℝ) * Real.exp ((-r * dt : ℚ) : ℝ) ^ (i + 1)) := by
    apply List.map_congr_left
    intro i _
    rw [hpow i]
  rw [hmap]
  push_cast
  ring

/-- The flows of a floating-rate note on a flat curve: every coupon is
`notional * (r + spread) / frequency`. -/
theorem floating_flows_of_flat (b : Bond) (spread : ℚ) (frequency : Int)
    (hk : b.kind = BondKind.floating spread frequency) (curve : YieldCurve) (r : ℚ)
    (hflat : curveFlat curve r) (fuel : Nat) (hf : 1 ≤ frequency)
    (hK : 1 ≤ periodCount b.maturity frequency)
    (hfuel : periodCount b.maturity frequency + 1 ≤ fuel) :
    b.getCashFlows fuel curve
      = some (expectedSchedule (fun _ => b.notional * (r + spread) / (frequency : ℚ))
          b.notional (1 / (frequency : ℚ)) (periodCount b.maturity frequency)) := by
  simp only [Bond.getCashFlows, hk]
  rw [floating_flows b.notional b.maturity spread frequency curve fuel hf hK hfuel]
  simp only [getRate_of_flat curve r hflat]

/-- The real-valued price of a floating-rate note with at least one period, a spread
that is not negative and a coupon rate `r + spread` that is not negative strictly falls
when the flat rate `r` rises by one basis point. -/
theorem floating_price_drop (b : Bond) (spread : ℚ) (frequency : Int)
    (hk : b.kind = BondKind.floating spread frequency) (curve : YieldCurve) (r : ℚ)
    (hflat : curveFlat curve r) (hn : 0 < b.notional) (hf : 1 ≤ frequency)
    (hfit : 1 / (frequency : ℚ) ≤ b.maturity + 1 / 1000) (hs : 0 ≤ spread)
    (hrs : 0 ≤ r + spread) (fuel : Nat)
    (hfuel : periodCount b.maturity frequency + 1 ≤ fuel) :
    ∃ priceBase priceShock : ℝ,
      b.calculatePriceIn (fun q : ℚ => Real.exp (q : ℝ)) fuel curve = some priceBase ∧
      b.calculatePriceIn (fun q : ℚ => Real.exp (q : ℝ)) fuel (shiftedByOneBp curve)
        = some priceShock ∧
      priceShock < priceBase := by
  have hK : 1 ≤ periodCount b.maturity frequency :=
    (periodCount_pos_iff b.maturity frequency hf).mpr hfit
  have hflat2 := shiftedByOneBp_flat curve r hflat
  have hfq : (1 : ℚ) ≤ (frequency : ℚ) := by exact_mod_cast hf
  have hdt : (0 : ℚ) < 1 / (frequency : ℚ) := by positivity
  have hbase := calculatePriceIn_of_flat (fun q : ℚ => Real.exp (q : ℝ)) fuel b curve r
    hflat _ (floating_flows_of_flat b spread frequency hk curve r hflat fuel hf hK hfuel)
  have hshock := calculatePriceIn_of_flat (fun q : ℚ => Real.exp (q : ℝ)) fuel b
    (shiftedByOneBp curve) (r + 1 / 10000) hflat2 _
    (floating_flows_of_flat b spread frequency hk (shiftedByOneBp curve) (r + 1 / 10000)
      hflat2 fuel hf hK hfuel)
  refine ⟨_, _, hbase, hshock, ?_⟩
  simp only []
  rw [expectedSchedule_real_sum _ _ _ _ _ hK, expectedSchedule_real_sum _ _ _ _ _ hK]
  obtain ⟨n, hn1⟩ : ∃ n, periodCount b.maturity frequency = n + 1 :=
    ⟨periodCount b.maturity frequency - 1, by omega⟩
  rw [hn1]
  -- the real quantities: discount factor, coupon, principal, rate step per period
  have hNr : (0 : ℝ) < (b.notional : ℝ) := by exact_mod_cast hn
  have hdtr : (0 : ℝ) < ((1 / (frequency : ℚ) : ℚ) : ℝ) := by exact_mod_cast hdt
  have hh : (0 : ℝ) < (((1 / 10000 : ℚ) * (1 / (frequency : ℚ)) : ℚ) : ℝ) := by
    have : (0 : ℚ) < (1 / 10000 : ℚ) * (1 / (frequency : ℚ)) := by positivity
    exact_mod_cast this
  have hc : (0 : ℝ) ≤ ((b.notional * (r + spread) / (frequency : ℚ) : ℚ) : ℝ) := by
    have : (0 : ℚ) ≤ b.notional * (r + spread) / (frequency : ℚ) := by positivity
    exact_mod_cast this
  have hE : 0 < Real.exp ((-r * (1 / (frequency : ℚ)) : ℚ) : ℝ) := Real.exp_pos _
  have hEN : ((b.notional : ℚ) : ℝ) - ((b.notional * (r + spread) / (frequency : ℚ) : ℚ) : ℝ)
      ≤ Real.exp ((-r * (1 / (frequency : ℚ)) : ℚ) : ℝ) * (b.notional : ℝ) := by
    have h1 := Real.add_one_le_exp (((-r * (1 / (frequency : ℚ)) : ℚ)) : ℝ)
    have h2 : (0 : ℝ) ≤ ((spread * (1 / (frequency : ℚ)) : ℚ) : ℝ) := by
      have : (0 : ℚ) ≤ spread * (1 / (frequency : ℚ)) := by positivity
      exact_mod_cast this
    have h3 : ((b.notional * (r + spread) / (frequency : ℚ) : ℚ) : ℝ)
        = (b.notional : ℝ) * (-(((-r * (1 / (frequency : ℚ)) : ℚ)) : ℝ)
            + ((spread * (1 / (frequency : ℚ)) : ℚ) : ℝ)) := by
      push_cast
      ring
    rw [h3]
    nlinarith
  have hdrop := (floater_sum_drop _ _ _ _ hE hNr hh hc hEN n).2
  have hE2 : Real.exp ((-(r + 1 / 10000) * (1 / (frequency : ℚ)) : ℚ) : ℝ)
      = Real.exp ((-r * (1 / (frequency : ℚ)) : ℚ) : ℝ)
        * Real.exp (-(((1 / 10000 : ℚ) * (1 / (frequency : ℚ)) : ℚ) : ℝ)) := by
    rw [← Real.exp_add]
    congr 1
    push_cast
    ring
  have hc2 : ((b.notional * (r + 1 / 10000 + spread) / (frequency : ℚ) : ℚ) : ℝ)
      = ((b.notional * (r + spread) / (frequency : ℚ) : ℚ) : ℝ)
        + (b.notional : ℝ) * (((1 / 10000 : ℚ) * (1 / (frequency : ℚ)) : ℚ) : ℝ) := by
    push_cast
    ring
  rw [hE2, hc2]
  exact hdrop

/-! ## Theorems: sign of the PV01 under the real exponential -/

/-- C23 as stated fails under the real exponential, on flat curves and for bonds with
positive notional and maturity. On the flat curve at 0.05: a floating-rate note too
short for its first period has no flow, so its PV01 is 0; a vanilla bond with coupon
rate -200% has only a negative flow, so its PV01 is above 0; a two-period floating-rate
note whose spread -0.05 cancels the rate has a PV01 above 0. On the flat curve at
-0.05 a one-period floating-rate note without spread has a PV01 above 0. -/
theorem calculatePV01_not_always_negative :
    curveFlat flatCurve (5 / 100) ∧ curveFlat negativeCurve (-(5 / 100)) ∧
    (0 < frnShort.notional ∧ 0 < frnShort.maturity ∧
      RiskEngine.calculatePV01In (fun q : ℚ => Real.exp (q : ℝ)) 1 frnShort flatCurve
        = some 0) ∧
    (0 < vanillaNegative.notional ∧ 0 < vanillaNegative.maturity ∧
      ∃ v : ℝ, RiskEngine.calculatePV01In (fun q : ℚ => Real.exp (q : ℝ)) 2 vanillaNegative
          flatCurve = some v ∧ 0 < v) ∧
    (0 < frnZeroCoupon.notional ∧ 0 < frnZeroCoupon.maturity ∧
      ∃ v : ℝ, RiskEngine.calculatePV01In (fun q : ℚ => Real.exp (q : ℝ)) 3 frnZeroCoupon
          flatCurve = some v ∧ 0 < v) ∧
    (0 < frnPar.notional ∧ 0 < frnPar.maturity ∧
      ∃ v : ℝ, RiskEngine.calculatePV01In (fun q : ℚ => Real.exp (q : ℝ)) 2 frnPar
          negativeCurve = some v ∧ 0 < v) := by
  have hflat : curveFlat flatCurve (5 / 100) := by
    refine ⟨by simp [flatCurve], fun node hnode => ?_⟩
    simp only [flatCurve, List.mem_cons, List.mem_singleton, List.not_mem_nil, or_false]
      at hnode
    rcases hnode with h | h <;> rw [h]
  have hneg : curveFlat negativeCurve (-(5 / 100)) := by
    refine ⟨by simp [negativeCurve], fun node hnode => ?_⟩
    simp only [negativeCurve, List.mem_cons, List.mem_singleton, List.not_mem_nil, or_false]
      at hnode
    rcases hnode with h | h <;> rw [h]
  have hflat2 := shiftedByOneBp_flat flatCurve (5 / 100) hflat
  have hneg2 := shiftedByOneBp_flat negativeCurve (-(5 / 100)) hneg
  have hK11 : periodCount 1 1 = 1 := by
    unfold periodCount
    rw [Nat.floor_eq_iff (by norm_num)]
    norm_num
  have hK21 : periodCount 2 1 = 2 := by
    unfold periodCount
    rw [Nat.floor_eq_iff (by norm_num)]
    norm_num
  refine ⟨hflat, hneg, ⟨by norm_num [frnShort], by norm_num [frnShort], ?_⟩,
    ⟨by norm_num [vanillaNegative], by norm_num [vanillaNegative], ?_⟩,
    ⟨by norm_num [frnZeroCoupon], by norm_num [frnZeroCoupon], ?_⟩,
    ⟨by norm_num [frnPar], by norm_num [frnPar], ?_⟩⟩
  · have hshort : (1 / 4 : ℚ) + 1 / 1000 < 1 / ((2 : Int) : ℚ) := by norm_num
    have hfl : ∀ curve : YieldCurve, frnShort.getCashFlows 1 curve = some [] := fun curve =>
      floating_flows_degenerate 1000 (1 / 4) (1 / 100) 2 curve 1 (le_refl 1) hshort
    have hbase := calculatePriceIn_of_flat (fun q : ℚ => Real.exp (q : ℝ)) 1 frnShort
      flatCurve _ hflat [] (hfl _)
    have hshock := calculatePriceIn_of_flat (fun q : ℚ => Real.exp (q : ℝ)) 1 frnShort
      (shiftedByOneBp flatCurve) _ hflat2 [] (hfl _)
    rw [calculatePV01In_value _ 1 frnShort flatCurve _ _ hbase hshock]
    simp
  · have hfl : ∀ curve : YieldCurve, vanillaNegative.getCashFlows 2 curve
        = some [{ amount := -1000, time := 1 }] := by
      intro curve
      have h := vanilla_flows 1000 1 (-2) 1 2 (le_refl 1) (by rw [hK11]) (by rw [hK11])
      rw [hK11] at h
      show VanillaBond.getCashFlows 2 1000 1 (-2) 1 = _
      rw [h]
      norm_num [expectedSchedule]
    have hbase := calculatePriceIn_of_flat (fun q : ℚ => Real.exp (q : ℝ)) 2 vanillaNegative
      flatCurve _ hflat _ (hfl _)
    have hshock := calculatePriceIn_of_flat (fun q : ℚ => Real.exp (q : ℝ)) 2
      vanillaNegative (shiftedByOneBp flatCurve) _ hflat2 _ (hfl _)
    refine ⟨_, calculatePV01In_value _ 2 vanillaNegative flatCurve _ _ hbase hshock, ?_⟩
    simp only [List.map_cons, List.map_nil, List.sum_cons, List.sum_nil, add_zero, mul_one]
    have hlt : Real.exp ((-(5 / 100 + 1 / 10000) : ℚ) : ℝ) < Real.exp ((-(5 / 100) : ℚ) : ℝ) :=
      realExp_strictMono (by norm_num)
    push_cast
    push_cast at hlt
    linarith
  · have hfl : ∀ (curve : YieldCurve) (r : ℚ), curveFlat curve r →
        frnZeroCoupon.getCashFlows 3 curve
          = some [{ amount := 1000 * (r + -(5 / 100)), time := 1 },
                  { amount := 1000 * (r + -(5 / 100)) + 1000, time := 2 }] := by
      intro curve r hc
      have h := floating_flows 1000 2 (-(5 / 100)) 1 curve 3 (le_refl 1)
        (by rw [hK21]; norm_num) (by rw [hK21])
      rw [hK21] at h
      show FloatingRateNote.getCashFlows 3 1000 2 (-(5 / 100)) 1 curve = _
      rw [h]
      norm_num [expectedSchedule, getRate_of_flat curve r hc, List.range_succ]
    have hbase := calculatePriceIn_of_flat (fun q : ℚ => Real.exp (q : ℝ)) 3 frnZeroCoupon
      flatCurve _ hflat _ (hfl _ _ hflat)
    have hshock := calculatePriceIn_of_flat (fun q : ℚ => Real.exp (q : ℝ)) 3 frnZeroCoupon
      (shiftedByOneBp flatCurve) _ hflat2 _ (hfl _ _ hflat2)
    refine ⟨_, calculatePV01In_value _ 3 frnZeroCoupon flatCurve _ _ hbase hshock, ?_⟩
    simp only [List.map_cons, List.map_nil, List.sum_cons, List.sum_nil, add_zero, mul_one]
    have hpos : 0 < Real.exp (-(1 / 10 : ℝ)) := Real.exp_pos _
    have h1 : Real.exp (-(1 / 10 : ℝ)) * (1 - 2 / 10000) ≤ Real.exp (-(1002 / 10000 : ℝ)) := by
      have hsplit : Real.exp (-(1002 / 10000 : ℝ))
          = Real.exp (-(1 / 10 : ℝ)) * Real.exp (-(2 / 10000 : ℝ)) := by
        rw [← Real.exp_add]
        congr 1
        norm_num
      rw [hsplit]
      have := Real.add_one_le_exp (-(2 / 10000 : ℝ))
      exact mul_le_mul_of_nonneg_left (by linarith) hpos.le
    have h2 : Real.exp (-(1 / 10 : ℝ)) * (1 + 499 / 10000) ≤ Real.exp (-(501 / 10000 : ℝ)) := by
      have hsplit : Real.exp (-(501 / 10000 : ℝ))
          = Real.exp (-(1 / 10 : ℝ)) * Real.exp (499 / 10000 : ℝ) := by
        rw [← Real.exp_add]
        congr 1
        norm_num
      rw [hsplit]
      have := Real.add_one_le_exp (499 / 10000 : ℝ)
      exact mul_le_mul_of_nonneg_left (by linarith) hpos.le
    have e1 : (((-(5 / 100 + 1 / 10000) * 2 : ℚ)) : ℝ) = -(1002 / 10000 : ℝ) := by
      push_cast
      norm_num
    have e2 : (((-(5 / 100 + 1 / 10000) : ℚ)) : ℝ) = -(501 / 10000 : ℝ) := by
      push_cast
      norm_num
    have e3 : (((-(5 / 100) * 2 : ℚ)) : ℝ) = -(1 / 10 : ℝ) := by
      push_cast
      norm_num
    rw [e1, e2, e3]
    push_cast
    nlinarith
  · have hfl : ∀ (curve : YieldCurve) (r : ℚ), curveFlat curve r →
        frnPar.getCashFlows 2 curve = some [{ amount := 1000 * r + 1000, time := 1 }] := by
      intro curve r hc
      have h := floating_flows 1000 1 0 1 curve 2 (le_refl 1) (by rw [hK11]) (by rw [hK11])
      rw [hK11] at h
      show FloatingRateNote.getCashFlows 2 1000 1 0 1 curve = _
      rw [h]
      norm_num [expectedSchedule, getRate_of_flat curve r hc]
    have hbase := calculatePriceIn_of_flat (fun q : ℚ => Real.exp (q : ℝ)) 2 frnPar
      negativeCurve _ hneg _ (hfl _ _ hneg)
    have hshock := calculatePriceIn_of_flat (fun q : ℚ => Real.exp (q : ℝ)) 2 frnPar
      (shiftedByOneBp negativeCurve) _ hneg2 _ (hfl _ _ hneg2)
    refine ⟨_, calculatePV01In_value _ 2 frnPar negativeCurve _ _ hbase hshock, ?_⟩
    simp only [List.map_cons, List.map_nil, List.sum_cons, List.sum_nil, add_zero, mul_one]
    have hpos : 0 < Real.exp (499 / 10000 : ℝ) := Real.exp_pos _
    have hsplit : Real.exp (499 / 10000 : ℝ)
        = Real.exp (5 / 100 : ℝ) * Real.exp (-(1 / 10000 : ℝ)) := by
      rw [← Real.exp_add]
      congr 1
      norm_num
    have hlow := Real.add_one_le_exp (-(1 / 10000 : ℝ))
    have hpos2 : 0 < Real.exp (5 / 100 : ℝ) := Real.exp_pos _
    have hge : Real.exp (5 / 100 : ℝ) * (1 - 1 / 10000) ≤ Real.exp (499 / 10000 : ℝ) := by
      rw [hsplit]
      exact mul_le_mul_of_nonneg_left (by linarith) hpos2.le
    have e1 : (((-(-(5 / 100) + 1 / 10000) : ℚ)) : ℝ) = (499 / 10000 : ℝ) := by
      push_cast
      norm_num
    have e2 : (((-(-(5 / 100)) : ℚ)) : ℝ) = (5 / 100 : ℝ) := by
      push_cast
      norm_num
    rw [e1, e2]
    push_cast
    nlinarith

/-- C23 amended: under the real exponential, on every flat curve (non-empty, all node
rates equal to `r`), for every bond with notional and maturity above 0 that is a
zero-coupon bond, or a vanilla bond with a coupon rate that is not negative and
frequency at least 1, or a floating-rate note with frequency at least 1, at least one
period that fits (`1 / frequency ≤ maturity + 0.001`), a spread that is not negative and
`r + spread` not negative (so in particular whenever rate and spread are both not
negative), with enough fuel `calculatePV01` returns a value below 0: the price strictly
falls under the +1bp parallel shift. -/
theorem calculatePV01_negative (b : Bond) (curve : YieldCurve) (r : ℚ)
    (hflat : curveFlat curve r) (hn : 0 < b.notional) (hm : 0 < b.maturity)
    (hkind : b.kind = BondKind.zeroCoupon ∨
      (∃ couponRate frequency, b.kind = BondKind.vanilla couponRate frequency ∧
        0 ≤ couponRate ∧ 1 ≤ frequency) ∨
      (∃ spread frequency, b.kind = BondKind.floating spread frequency ∧
        1 ≤ frequency ∧ 1 / (frequency : ℚ) ≤ b.maturity + 1 / 1000 ∧
        0 ≤ spread ∧ 0 ≤ r + spread))
    (fuel : Nat) (hfuel : b.fuelNeeded ≤ fuel) :
    ∃ priceBase priceShock : ℝ,
      b.calculatePriceIn (fun q : ℚ => Real.exp (q : ℝ)) fuel curve = some priceBase ∧
      b.calculatePriceIn (fun q : ℚ => Real.exp (q : ℝ)) fuel (shiftedByOneBp curve)
        = some priceShock ∧
      priceShock < priceBase ∧
      RiskEngine.calculatePV01In (fun q : ℚ => Real.exp (q : ℝ)) fuel b curve
        = some (priceShock - priceBase) ∧
      priceShock - priceBase < 0 := by
  have hfixed : ∀ hk : (b.kind = BondKind.zeroCoupon ∨
      ∃ couponRate frequency, b.kind = BondKind.vanilla couponRate frequency ∧
        0 ≤ couponRate ∧ 1 ≤ frequency),
      ∃ priceBase priceShock : ℝ,
        b.calculatePriceIn (fun q : ℚ => Real.exp (q : ℝ)) fuel curve = some priceBase ∧
        b.calculatePriceIn (fun q : ℚ => Real.exp (q : ℝ)) fuel (shiftedByOneBp curve)
          = some priceShock ∧
        priceShock < priceBase := by
    intro hk
    obtain ⟨flows, hflows, hall, hex⟩ := fixed_flows_positive b fuel hn hm hk hfuel
    exact ⟨_, _,
      calculatePriceIn_of_flat (fun q : ℚ => Real.exp (q : ℝ)) fuel b curve r hflat flows
        (hflows curve),
      calculatePriceIn_of_flat (fun q : ℚ => Real.exp (q : ℝ)) fuel b (shiftedByOneBp curve)
        (r + 1 / 10000) (shiftedByOneBp_flat curve r hflat) flows (hflows _),
      discountedIn_sum_lt (fun q : ℚ => Real.exp (q : ℝ)) realExp_strictMono r (1 / 10000)
        (by norm_num) flows hall hex⟩
  have hprices : ∃ priceBase priceShock : ℝ,
      b.calculatePriceIn (fun q : ℚ => Real.exp (q : ℝ)) fuel curve = some priceBase ∧
      b.calculatePriceIn (fun q : ℚ => Real.exp (q : ℝ)) fuel (shiftedByOneBp curve)
        = some priceShock ∧
      priceShock < priceBase := by
    rcases hkind with hk | hk | ⟨spread, frequency, hk, hf, hfit, hs, hrs⟩
    · exact hfixed (Or.inl hk)
    · exact hfixed (Or.inr hk)
    · have hfuel2 : periodCount b.maturity frequency + 1 ≤ fuel := by
        unfold Bond.fuelNeeded at hfuel
        rw [hk] at hfuel
        exact hfuel
      exact floating_price_drop b spread frequency hk curve r hflat hn hf hfit hs hrs fuel
        hfuel2
  obtain ⟨pb, ps, hbase, hshock, hlt⟩ := hprices
  exact ⟨pb, ps, hbase, hshock, hlt,
    calculatePV01In_value _ fuel b curve pb ps hbase hshock, by linarith⟩

/-- C23 amended, at concrete inputs on the flat curve at 0.05: the floating-rate note
of `main.cpp` (notional 1000, maturity 3, spread 0.01, semi-annual), the zero-coupon
bond of notional 1000 and maturity 10 and the vanilla example bond each have a PV01
below 0 under the real exponential. -/
theorem calculatePV01_negative_witness :
    curveFlat flatCurve (5 / 100) ∧
    (0 < frn3Y.notional ∧ 0 < frn3Y.maturity ∧ frn3Y.fuelNeeded ≤ 7 ∧
      frn3Y.kind = BondKind.floating (1 / 100) 2 ∧ (1 : Int) ≤ 2 ∧
      1 / ((2 : Int) : ℚ) ≤ frn3Y.maturity + 1 / 1000 ∧ (0 : ℚ) ≤ 1 / 100 ∧
      (0 : ℚ) ≤ 5 / 100 + 1 / 100 ∧
      ∃ v : ℝ, RiskEngine.calculatePV01In (fun q : ℚ => Real.exp (q : ℝ)) 7 frn3Y flatCurve
          = some v ∧ v < 0) ∧
    (0 < zero10Y.notional ∧ 0 < zero10Y.maturity ∧ zero10Y.fuelNeeded ≤ 0 ∧
      ∃ v : ℝ, RiskEngine.calculatePV01In (fun q : ℚ => Real.exp (q : ℝ)) 0 zero10Y flatCurve
          = some v ∧ v < 0) ∧
    (0 < vanilla5Y.notional ∧ 0 < vanilla5Y.maturity ∧ vanilla5Y.fuelNeeded ≤ 6 ∧
      ∃ v : ℝ, RiskEngine.calculatePV01In (fun q : ℚ => Real.exp (q : ℝ)) 6 vanilla5Y
          flatCurve = some v ∧ v < 0) := by
  have hflat : curveFlat flatCurve (5 / 100) := by
    refine ⟨by simp [flatCurve], fun node hnode => ?_⟩
    simp only [flatCurve, List.mem_cons, List.mem_singleton, List.not_mem_nil, or_false]
      at hnode
    rcases hnode with h | h <;> rw [h]
  have hK5 : periodCount 5 1 = 5 := by
    unfold periodCount
    rw [Nat.floor_eq_iff (by norm_num)]
    norm_num
  have hK3 : periodCount 3 2 = 6 := by
    unfold periodCount
    rw [Nat.floor_eq_iff (by norm_num)]
    norm_num
  have hff : frn3Y.fuelNeeded ≤ 7 := by simp [Bond.fuelNeeded, frn3Y, hK3]
  have hfz : zero10Y.fuelNeeded ≤ 0 := by simp [Bond.fuelNeeded, zero10Y]
  have hfv : vanilla5Y.fuelNeeded ≤ 6 := by simp [Bond.fuelNeeded, vanilla5Y, hK5]
  have hfit : 1 / ((2 : Int) : ℚ) ≤ frn3Y.maturity + 1 / 1000 := by norm_num [frn3Y]
  obtain ⟨_, _, -, -, -, hv1, hneg1⟩ := calculatePV01_negative frn3Y flatCurve (5 / 100)
    hflat (by norm_num [frn3Y]) (by norm_num [frn3Y])
    (Or.inr (Or.inr ⟨1 / 100, 2, rfl, by decide, hfit, by norm_num, by norm_num⟩)) 7 hff
  obtain ⟨_, _, -, -, -, hv2, hneg2⟩ := calculatePV01_negative zero10Y flatCurve (5 / 100)
    hflat (by norm_num [zero10Y]) (by norm_num [zero10Y]) (Or.inl rfl) 0 hfz
  obtain ⟨_, _, -, -, -, hv3, hneg3⟩ := calculatePV01_negative vanilla5Y flatCurve (5 / 100)
    hflat (by norm_num [vanilla5Y]) (by norm_num [vanilla5Y])
    (Or.inr (Or.inl ⟨4 / 100, 1, rfl, by norm_num, le_refl 1⟩)) 6 hfv
  exact ⟨hflat,
    ⟨by norm_num [frn3Y], by norm_num [frn3Y], hff, rfl, by decide, hfit, by norm_num,
      by norm_num, _, hv1, hneg1⟩,
    ⟨by norm_num [zero10Y], by norm_num [zero10Y], hfz, _, hv2, hneg2⟩,
    ⟨by norm_num [vanilla5Y], by norm_num [vanilla5Y], hfv, _, hv3, hneg3⟩⟩

end BondPortfolio
